import Mathlib

/-!
Skilzy CLI: validation, frontmatter extraction and packaging

A shallow embedding of the skill lifecycle code of `skilzy-cli`
(`cmd/init.go`, `cmd/validate.go`, `cmd/convert.go`, `cmd/package.go`) and the
properties its specification states about it.

Conventions of the embedding.

* A Go `string` is a Lean `String` (texts are valid UTF-8); Go's `len` is
  `String.utf8ByteSize`.
* A Go `error` result is an `Option String` (`none` is `nil`) or an `Except`.
* Console output is not modelled; `os.Exit(c)` ends a command with exit code `c`.
* An absolute path is the list of its components, as `os.Getwd` and `filepath.Join`
  on it give them: clean, with the separator of Unix. Path texts that come from a
  manifest or a flag are `String`s and go through `filepath.Clean`.
* The filesystem is a tree without symbolic links, so `os.Lstat` is `os.Stat`. The
  errors of a path resolution are `ENOENT` and `ENOTDIR`; names over 255 bytes or with a
  NUL byte (`ENAMETOOLONG`, `EINVAL`) and write permissions are not modelled.
* The JSON, JSON-schema and YAML libraries are parameters (`Libs`).
-/

namespace Skilzy

/-! ## Skill names (`cmd/init.go`) -/

/-- The characters of the class `[a-z0-9]`. -/
def nameChars : List Char := "abcdefghijklmnopqrstuvwxyz0123456789".toList

/-- A character class as a regular expression: the alternation of its characters. -/
def charClass (cs : List Char) : RegularExpression Char :=
  cs.foldr (fun c r => .plus (.char c) r) .zero

/-- The regular expression `r+`, one or more repetitions of `r`. -/
def rePlus (r : RegularExpression Char) : RegularExpression Char := .comp r (.star r)

/-- The pattern `^[a-z0-9]+(-[a-z0-9]+)*$` compiled in `validateSkillName`. The two
anchors make it a match of the whole text. -/
def skillNameRe : RegularExpression Char :=
  .comp (rePlus (charClass nameChars))
    (.star (.comp (.char '-') (rePlus (charClass nameChars))))

/-- Go's `re.MatchString(s)` for an anchored pattern: the whole of `s` matches. -/
def MatchString (re : RegularExpression Char) (s : String) : Bool := re.rmatch s.toList

/-- `validateSkillName` of `cmd/init.go`: `none` is the `nil` error. -/
def validateSkillName (name : String) : Option String :=
  if name = "" then some "skill name cannot be empty"
  else if !(MatchString skillNameRe name) then
    some "must be a hyphen-case identifier (e.g., 'my-skill')"
  else if name.utf8ByteSize > 40 then some "cannot be longer than 40 characters"
  else none

/-- A lowercase ASCII letter or a digit. -/
def isLowerAlnum (c : Char) : Bool :=
  ('a' ≤ c && c ≤ 'z') || ('0' ≤ c && c ≤ '9')

/-- The specification's reading of the name pattern: one or more non-empty runs of
lowercase ASCII letters or digits, joined by single hyphens. -/
def HyphenCase (cs : List Char) : Prop :=
  ∃ runs : List (List Char), runs ≠ [] ∧
    (∀ r ∈ runs, r ≠ [] ∧ ∀ c ∈ r, isLowerAlnum c = true) ∧
    cs = List.intercalate ['-'] runs

/-- A non-empty run of characters of the class `[a-z0-9]`. -/
def IsRun (r : List Char) : Prop := r ≠ [] ∧ ∀ c ∈ r, c ∈ nameChars

/-! ## Paths (`path/filepath` on Unix) -/

/-- An absolute, clean path, as the list of its components: `/a/b` is `["a", "b"]` and
`/` is `[]`. -/
abbrev Path := List String

/-- Go's `strings.Split(s, "/")` on the characters of `s`. -/
def splitOnSlash : List Char → List (List Char)
  | [] => [[]]
  | c :: cs =>
    if c = '/' then [] :: splitOnSlash cs
    else match splitOnSlash cs with
      | [] => [[c]]
      | h :: t => (c :: h) :: t

/-- The elements of a path text between its separators, empty ones included. -/
def pathElems (s : String) : List String := (splitOnSlash s.toList).map String.mk

/-- One step of `filepath.Clean` on the elements read so far: an empty element and `.`
are dropped, `..` removes the element before it (at the start it is dropped in a rooted
path and kept in a relative one), any other element is appended. -/
def cleanStep (rooted : Bool) (stack : List String) (e : String) : List String :=
  if e = "" ∨ e = "." then stack
  else if e = ".." then
    match stack.getLast? with
    | some t => if t ≠ ".." then stack.dropLast else stack ++ [".."]
    | none => if rooted then stack else stack ++ [".."]
  else stack ++ [e]

/-- The elements joined by the separator. -/
def joinSlash (cs : List String) : String :=
  String.mk (List.intercalate ['/'] (cs.map String.toList))

/-- `filepath.Clean` on Unix. -/
def Clean (s : String) : String :=
  let rooted : Bool := s.toList.head? = some '/'
  let out := (if rooted then "/" else "") ++ joinSlash ((pathElems s).foldl (cleanStep rooted) [])
  if out = "" then "." else out

/-- `filepath.Join(a, b)` on two path texts: empty elements are ignored, the rest is
joined by the separator and cleaned. -/
def Join (a b : String) : String :=
  if a ≠ "" then Clean (a ++ "/" ++ b)
  else if b ≠ "" then Clean b
  else ""

/-- `filepath.Join(base, s)` for an absolute clean `base`: the elements of `s` are
cleaned onto the components of `base`. -/
def joinPath (base : Path) (s : String) : Path :=
  (pathElems s).foldl (cleanStep true) base

/-- `filepath.Base` of an absolute clean path: its last component, `/` for the root. -/
def Base (p : Path) : String :=
  match p.getLast? with
  | some c => c
  | none => "/"

/-- `filepath.Dir` of an absolute clean path: the path without its last component. -/
def Dir (p : Path) : Path := p.dropLast

/-- The components of two paths after their common prefix. -/
def dropCommon : Path → Path → Path × Path
  | b :: bs, t :: ts => if b = t then dropCommon bs ts else (b :: bs, t :: ts)
  | bs, ts => (bs, ts)

/-- `filepath.Rel(base, targ)` for absolute clean paths (it never fails on them): one
`..` for every component of `base` after the common prefix, then the rest of `targ`;
`.` when the two are equal. -/
def Rel (base targ : Path) : String :=
  if targ = base then "."
  else joinSlash (((dropCommon base targ).1.map fun _ => "..") ++ (dropCommon base targ).2)

/-- `filepath.ToSlash` on Unix, where the separator is already the slash. -/
def ToSlash (s : String) : String := s


/-! ## The filesystem (`os`)

The filesystem is a tree of directories and regular files. Symbolic links, ownership
and directory permissions are not modelled; a file carries one permission flag, which
says whether it can be opened for reading. -/

/-- A node of the filesystem tree. -/
inductive Node where
  | file (content : String) (readable : Bool)
  | dir (children : List (String × Node))

/-- The errors of the `os` calls the code makes. -/
inductive Errno where
  | ENOENT
  | ENOTDIR
  | EISDIR
  | EACCES
  | EEXIST
  deriving DecidableEq, Repr

/-- `os.IsNotExist`: the error says that the file or directory does not exist. -/
def IsNotExist (e : Errno) : Bool :=
  match e with
  | .ENOENT => true
  | _ => false

/-- What `os.FileInfo` tells the code: `Name()` and `IsDir()`. -/
structure FileInfo where
  name : String
  isDir : Bool
  deriving DecidableEq, Repr

/-- Whether a node is a directory. -/
def Node.isDir : Node → Bool
  | .file _ _ => false
  | .dir _ => true

/-- Resolution of a path from a node: the node it names, `ENOENT` when a directory on
the way has no entry of the next name, `ENOTDIR` when the way leads through a file.
Names are taken to be within the limits of the filesystem: for a component of more than
255 bytes or with a NUL byte the system call fails with `ENAMETOOLONG` or `EINVAL`, which
the embedding does not have; it answers `ENOENT` there. -/
def Node.lookup : Node → Path → Except Errno Node
  | n, [] => .ok n
  | .file _ _, _ :: _ => .error .ENOTDIR
  | .dir cs, c :: rest =>
    match cs.lookup c with
    | none => .error .ENOENT
    | some n => n.lookup rest

/-- `os.Stat(p)`. -/
def Stat (fs : Node) (p : Path) : Except Errno FileInfo :=
  match fs.lookup p with
  | .ok n => .ok { name := Base p, isDir := n.isDir }
  | .error e => .error e

/-- `os.ReadFile(p)`: the content of a readable regular file. -/
def ReadFile (fs : Node) (p : Path) : Except Errno String :=
  match fs.lookup p with
  | .ok (.file content true) => .ok content
  | .ok (.file _ false) => .error .EACCES
  | .ok (.dir _) => .error .EISDIR
  | .error e => .error e

/-- The content read by `content, _ := os.ReadFile(p)`, where the error is dropped: empty
when the file cannot be read. -/
def readFileOrEmpty (fs : Node) (p : Path) : String :=
  match ReadFile fs p with
  | .ok c => c
  | .error _ => ""

/-- The path does not exist: `os.Stat` fails on it with an error of which
`os.IsNotExist` holds. -/
def NotExist (fs : Node) (p : Path) : Bool :=
  match Stat fs p with
  | .error e => IsNotExist e
  | .ok _ => false

/-! ## Libraries

The JSON, JSON-schema and YAML libraries are parameters of the embedding, and so is
the schema text `schema.SkillSchemaContent`, which `schemaValidate` has built in. -/

/-- `FrontMatter` of `cmd/convert.go`. -/
structure FrontMatter where
  Name : String
  Description : String
  deriving DecidableEq, Repr

/-- The library calls of the code. -/
structure Libs where
  /-- `gojsonschema.Validate(schemaLoader, manifestLoader)` on a manifest text: an
  error, or the result's `Errors()`, each rendered by `%s`. `result.Valid()` is that
  this list is empty. -/
  schemaValidate : String → Except String (List String)
  /-- `json.Unmarshal(content, &data)`: the value it leaves in the string field of
  `data` tagged with the given key (the empty string when it sets none). -/
  jsonField : String → String → String
  /-- `yaml.Unmarshal(text, &fm)` into a `FrontMatter`. -/
  yamlUnmarshal : String → Except String FrontMatter

/-! ## Validation (`cmd/validate.go`) -/

/-- The directory-name violation of `performFileSystemChecks`. -/
def dirNameMismatch (dirName name : String) : String :=
  "Directory name ('" ++ dirName ++ "') does not match 'name' in skill.json ('" ++ name ++ "')."

/-- The missing-file violation of `performFileSystemChecks`. -/
def fileMissing (path fieldName : String) : String :=
  "File '" ++ path ++ "' declared in '" ++ fieldName ++ "' field does not exist."

/-- The body of the loop over `filesToCheck` in `performFileSystemChecks`. -/
def checkFile (fs : Node) (skillDir : Path) (errors : List String)
    (fileCheck : String × String) : List String :=
  if fileCheck.1 ≠ "" then
    match Stat fs (joinPath skillDir fileCheck.1) with
    | .error err =>
      if IsNotExist err then errors ++ [fileMissing fileCheck.1 fileCheck.2] else errors
    | .ok _ => errors
  else errors

/-- `performFileSystemChecks` of `cmd/validate.go`. -/
def performFileSystemChecks (L : Libs) (fs : Node) (skillDir manifestPath : Path) :
    List String :=
  let errors : List String := []
  let content := readFileOrEmpty fs manifestPath
  let dataName := L.jsonField content "name"
  let dataIcon := L.jsonField content "icon"
  let dataLicenseFile := L.jsonField content "licenseFile"
  let dataEntrypoint := L.jsonField content "entrypoint"
  let dirName := Base skillDir
  let errors := if dirName ≠ dataName then errors ++ [dirNameMismatch dirName dataName]
    else errors
  let filesToCheck := [(dataIcon, "icon"), (dataLicenseFile, "licenseFile"),
    (dataEntrypoint, "entrypoint")]
  filesToCheck.foldl (checkFile fs skillDir) errors

/-- A text is a directory-name violation. -/
def IsDirNameMismatch (v : String) : Prop := ∃ a b, v = dirNameMismatch a b

/-- The specification's reading of the check of one declared file: a violation naming
the declared path and the field exactly when the value is not empty and the path it
gives under the skill directory does not exist. -/
def missingFileReport (fs : Node) (skillDir : Path) (value fieldName : String) :
    List String :=
  if value ≠ "" ∧ NotExist fs (joinPath skillDir value) = true then
    ["File '" ++ value ++ "' declared in '" ++ fieldName ++ "' field does not exist."]
  else []

/-- The diagnostic of `doValidation` when `skill.json` cannot be read. -/
def manifestNotFound : String :=
  "Validation failed: skill.json not found in the current directory. Ensure you are in a valid skill directory."

/-- The line `doValidation` puts before the schema errors. -/
def schemaHeader : String := "Schema validation failed with the following errors:"

/-- The line `doValidation` puts before the filesystem violations when there is no
schema error. -/
def fsHeader : String := "Filesystem checks failed with the following issues:"

/-- The rendering `"  - %s"` of one violation. -/
def bullet (e : String) : String := "  - " ++ e

/-- `doValidation` of `cmd/validate.go`. -/
def doValidation (L : Libs) (fs : Node) (skillDir : Path) : List String :=
  let allErrors : List String := []
  let manifestPath := joinPath skillDir "skill.json"
  match ReadFile fs manifestPath with
  | .error _ => allErrors ++ [manifestNotFound]
  | .ok manifestContent =>
    match L.schemaValidate manifestContent with
    | .error err => allErrors ++ ["Error during validation: " ++ err]
    | .ok resultErrors =>
      let allErrors :=
        if !resultErrors.isEmpty then
          (allErrors ++ [schemaHeader]) ++ resultErrors.map bullet
        else allErrors
      let fsErrors := performFileSystemChecks L fs skillDir manifestPath
      if fsErrors.length > 0 then
        (if allErrors.length = 0 then allErrors ++ [fsHeader] else allErrors)
          ++ fsErrors.map bullet
      else allErrors

/-- The entries of a directory with the entry `name` set to `n`: replaced in place, or
added at the end. -/
def setChild (name : String) (n : Node) : List (String × Node) → List (String × Node)
  | [] => [(name, n)]
  | (k, v) :: rest => if k = name then (name, n) :: rest else (k, v) :: setChild name n rest

/-- `os.MkdirAll(p)` from a node: the directories missing on the way are created; it
fails, and creates nothing, when the way leads through a file. -/
def Node.mkdirAll : Node → Path → Except Errno Node
  | .file _ _, _ => .error .ENOTDIR
  | .dir cs, [] => .ok (.dir cs)
  | .dir cs, c :: rest =>
    match (match cs.lookup c with
      | some child => child.mkdirAll rest
      | none => (Node.dir []).mkdirAll rest) with
    | .ok child => .ok (.dir (setChild c child cs))
    | .error e => .error e

/-- `os.MkdirAll(p)`. -/
def MkdirAll (fs : Node) (p : Path) : Except Errno Node := fs.mkdirAll p

/-- The tree with `new` put at a path whose parent directory exists. -/
def Node.insert : Node → Path → Node → Except Errno Node
  | _, [], new => .ok new
  | .file _ _, _ :: _, _ => .error .ENOTDIR
  | .dir cs, [c], new => .ok (.dir (setChild c new cs))
  | .dir cs, c :: c2 :: rest, new =>
    match cs.lookup c with
    | none => .error .ENOENT
    | some child =>
      match child.insert (c2 :: rest) new with
      | .ok child1 => .ok (.dir (setChild c child1 cs))
      | .error e => .error e

/-- `os.Create(p)`: an existing file is truncated, a missing one is created empty in
its parent directory, which has to exist. -/
def Create (fs : Node) (p : Path) : Except Errno Node :=
  match fs.lookup p with
  | .ok (.dir _) => .error .EISDIR
  | .ok (.file _ r) => fs.insert p (.file "" r)
  | .error .ENOENT => fs.insert p (.file "" true)
  | .error e => .error e

/-! ## Walking a tree (`filepath.Walk`) -/

/-- What a `filepath.WalkFunc` returns: `nil`, `filepath.SkipDir` or an error; `panic`
is a call that does not return. -/
inductive WalkRes where
  | nil
  | skipDir
  | err (e : Errno)
  | panic
  deriving DecidableEq, Repr

/-- Lexical order of two texts by their characters, the order of `sort.Strings`. -/
def charsLE : List Char → List Char → Bool
  | [], _ => true
  | _ :: _, [] => false
  | a :: as, b :: bs =>
    if a.toNat < b.toNat then true
    else if b.toNat < a.toNat then false
    else charsLE as bs

/-- Insertion of a directory entry before the first entry whose name is not smaller. -/
def insertByName (x : String × Node) : List (String × Node) → List (String × Node)
  | [] => [x]
  | y :: ys =>
    if charsLE x.1.toList y.1.toList then x :: y :: ys else y :: insertByName x ys

mutual
/-- The tree with the entries of every directory in lexical order of their names, the
order in which `readDirNames` lists them. -/
def Node.sorted : Node → Node
  | .file c r => .file c r
  | .dir cs => .dir (sortChildren cs)
/-- The entries of a directory, each sorted, in lexical order of their names. -/
def sortChildren : List (String × Node) → List (String × Node)
  | [] => []
  | (name, n) :: rest => insertByName (name, n.sorted) (sortChildren rest)
end

mutual
/-- The function `walk` of `path/filepath`: the walk function is called on the node,
and for a directory on which it returned `nil`, the entries are walked in order. -/
def walk {σ : Type} (fn : Path → Except Errno FileInfo → σ → σ × WalkRes) :
    Path → Node → σ → σ × WalkRes
  | path, .file _ _, s => fn path (.ok { name := Base path, isDir := false }) s
  | path, .dir cs, s =>
    let r := fn path (.ok { name := Base path, isDir := true }) s
    match r.2 with
    | .nil => walkNames fn path cs r.1
    | _ => r
/-- The loop of `walk` over the names of a directory: `SkipDir` from a directory entry
goes on with the next name, `SkipDir` from a file and every error end the loop. -/
def walkNames {σ : Type} (fn : Path → Except Errno FileInfo → σ → σ × WalkRes) :
    Path → List (String × Node) → σ → σ × WalkRes
  | _, [], s => (s, .nil)
  | path, (name, child) :: rest, s =>
    let r := walk fn (joinPath path name) child s
    match r.2 with
    | .nil => walkNames fn path rest r.1
    | .skipDir => if child.isDir then walkNames fn path rest r.1 else r
    | _ => r
end

/-- `filepath.Walk(root, fn)`: when `root` cannot be resolved the walk function is
called once with the error; `SkipDir` at the end is turned into `nil`. -/
def Walk {σ : Type} (fs : Node) (root : Path)
    (fn : Path → Except Errno FileInfo → σ → σ × WalkRes) (s : σ) : σ × WalkRes :=
  let r := match fs.lookup root with
    | .error e => fn root (.error e) s
    | .ok n => walk fn root n.sorted s
  match r.2 with
  | .skipDir => (r.1, .nil)
  | _ => r

/-- The node `n` is found in the tree by following the names of the path, each an
entry of the directory before it. -/
inductive Reach : Node → Path → Node → Prop where
  | nil (n : Node) : Reach n [] n
  | cons {cs : List (String × Node)} {name : String} {child : Node} {rel : Path}
      {n : Node} : (name, child) ∈ cs → Reach child rel n → Reach (.dir cs) (name :: rel) n

/-! ## Packaging (`cmd/package.go`) -/

/-- The compression methods of `archive/zip`. -/
inductive ZipMethod where
  | Store
  | Deflate
  deriving DecidableEq, Repr

/-- An entry written to the archive: the `Name` and `Method` of its header, whether it
was made from a directory, and the content copied into it. -/
structure ZipEntry where
  Name : String
  Method : ZipMethod
  isDir : Bool
  content : String
  deriving DecidableEq, Repr

/-- The walk function of `runPackage`. The state is the list of entries written. -/
def packageWalkFn (fs : Node) (skillDir finalOutputDir : Path) (dataName : String)
    (path : Path) (info : Except Errno FileInfo) (entries : List ZipEntry) :
    List ZipEntry × WalkRes :=
  match info with
  | .error e => (entries, .err e)
  | .ok info =>
    if info.isDir = true ∧ path = finalOutputDir then (entries, .skipDir)
    else if path = skillDir then (entries, .nil)
    else
      let relativePath := Rel skillDir path
      let name := ToSlash (Join dataName relativePath)
      if info.isDir then
        (entries ++ [{ Name := name ++ "/", Method := .Store, isDir := true, content := "" }],
          .nil)
      else
        match ReadFile fs path with
        | .error e =>
          (entries ++ [{ Name := name, Method := .Deflate, isDir := false, content := "" }],
            .err e)
        | .ok c =>
          (entries ++ [{ Name := name, Method := .Deflate, isDir := false, content := c }],
            .nil)

/-- The process state `runPackage` starts from: the filesystem and the answer of
`os.Getwd`, `none` when it fails. -/
structure World where
  fs : Node
  cwd : Option Path

/-- The flags `--output-dir` and `--output-name`. -/
structure Flags where
  outputDir : String
  outputName : String

/-- What a run of `runPackage` leaves: the exit code, the filesystem, and the archive
it created with the entries written to it (`none` when no archive was created). The
bytes of the archive file are not modelled: the file is created empty. -/
structure PackageResult where
  exitCode : Nat
  fs : Node
  archive : Option (Path × List ZipEntry)

/-- `runPackage` of `cmd/package.go`. -/
def runPackage (L : Libs) (flags : Flags) (w : World) : PackageResult :=
  match w.cwd with
  | none => { exitCode := 1, fs := w.fs, archive := none }
  | some skillDir =>
    let validationErrors := doValidation L w.fs skillDir
    if validationErrors.length > 0 then { exitCode := 1, fs := w.fs, archive := none }
    else
      let manifestPath := joinPath skillDir "skill.json"
      let content := readFileOrEmpty w.fs manifestPath
      let dataName := L.jsonField content "name"
      let dataVersion := L.jsonField content "version"
      let projectRoot := Dir skillDir
      let finalOutputDir := joinPath projectRoot flags.outputDir
      match MkdirAll w.fs finalOutputDir with
      | .error _ => { exitCode := 1, fs := w.fs, archive := none }
      | .ok fs1 =>
        let archiveFileName :=
          if flags.outputName = "" then dataName ++ "-" ++ dataVersion ++ ".skill"
          else flags.outputName
        let archivePath := joinPath finalOutputDir archiveFileName
        match Create fs1 archivePath with
        | .error _ => { exitCode := 1, fs := fs1, archive := none }
        | .ok fs2 =>
          let r := Walk fs2 skillDir (packageWalkFn fs2 skillDir finalOutputDir dataName) []
          match r.2 with
          | .nil => { exitCode := 0, fs := fs2, archive := some (archivePath, r.1) }
          | _ => { exitCode := 1, fs := fs2, archive := some (archivePath, r.1) }

/-! ## Well-formed trees -/

/-- A name a directory entry can have: not empty, not `.` or `..`, without a slash. -/
def validName (s : String) : Bool :=
  s ≠ "" && s ≠ "." && s ≠ ".." && !s.toList.contains '/'

mutual
/-- Every entry name in the tree is a valid name and occurs once in its directory. -/
def Node.wf : Node → Bool
  | .file _ _ => true
  | .dir cs => wfChildren cs
/-- The entries of a directory are well formed. -/
def wfChildren : List (String × Node) → Bool
  | [] => true
  | (name, n) :: rest =>
    validName name && !(rest.map Prod.fst).contains name && n.wf && wfChildren rest
end

/-- Modelled from the spec: the schema text `schema.SkillSchemaContent` is not among
the sources; the specification says of it that `name` matches
`^[a-z0-9]+(-[a-z0-9]+)*$`. A manifest in which the validator finds no error has such
a name. -/
def SchemaChecksName (L : Libs) : Prop :=
  ∀ doc : String, L.schemaValidate doc = .ok [] →
    (L.jsonField doc "name").toList ∈ skillNameRe.matches'

/-- The entry is named after an item below the skill directory: there is a non-empty
relative path `rel` of valid names such that `skillDir/rel` is a node of the tree, the
entry is a directory entry exactly when the node is a directory, the name of the entry
is `n`, a slash, the names of `rel` joined by slashes, and one more slash exactly for a
directory, and the entry of a file is stored with Deflate. -/
def EntryNamedAfter (fs : Node) (skillDir : Path) (n : String) (e : ZipEntry) : Prop :=
  ∃ (rel : Path) (node : Node), rel ≠ [] ∧ (∀ c ∈ rel, validName c = true) ∧
    fs.lookup (skillDir ++ rel) = .ok node ∧ e.isDir = node.isDir ∧
    e.Name = n ++ "/" ++ joinSlash rel ++ (if node.isDir then "/" else "") ∧
    (node.isDir = false → e.Method = .Deflate)

/-- The entry is named after a node reached in the walked tree by a non-empty path. -/
def EntryOfReached (t : Node) (n : String) (e : ZipEntry) : Prop :=
  ∃ (c : String) (cs : Path) (node : Node), Reach t (c :: cs) node ∧
    e.isDir = node.isDir ∧
    e.Name = n ++ "/" ++ joinSlash (c :: cs) ++ (if node.isDir then "/" else "") ∧
    (node.isDir = false → e.Method = .Deflate)

/-! ## Example inputs -/

/-- A manifest text for the examples. -/
def exManifest : String :=
  "\x7b\"name\": \"foo\", \"version\": \"1.0.0\", \"icon\": \"icon.svg\", \"licenseFile\": \"LICENSE\", \"entrypoint\": \"README.md\"\x7d"

/-- Libraries for the examples: they know `exManifest`, fail on the text of one opening
brace, and find the name missing in every other text. -/
def exLibs : Libs where
  schemaValidate := fun s =>
    if s = exManifest then .ok []
    else if s = "\x7b" then .error "unexpected EOF"
    else .ok ["(root): name is required"]
  jsonField := fun s k =>
    if s = exManifest then
      (if k = "name" then "foo" else if k = "version" then "1.0.0"
       else if k = "icon" then "icon.svg" else if k = "licenseFile" then "LICENSE"
       else if k = "entrypoint" then "README.md" else "")
    else ""
  yamlUnmarshal := fun s =>
    if s = "\nname: bar\ndescription: a valid twenty-plus character description\n" then
      .ok { Name := "bar", Description := "a valid twenty-plus character description" }
    else if s = "\nname: bar\n" then .ok { Name := "bar", Description := "" }
    else .error "yaml: unmarshal errors"

/-- A skill directory `/home/foo` with the files its manifest declares. -/
def exSkill : Node :=
  .dir [("skill.json", .file exManifest true), ("icon.svg", .file "<svg/>" true),
    ("README.md", .file "# foo" true), ("LICENSE", .file "MIT" true),
    ("assets", .dir [("a.txt", .file "a" true)])]

/-- A filesystem with the skill directory at `/home/foo`. -/
def exFs : Node := .dir [("home", .dir [("foo", exSkill)])]

/-- A filesystem with a directory `/home/bar` whose `skill.json` is cut off after its
opening brace. -/
def exBrokenFs : Node :=
  .dir [("home", .dir [("bar", .dir [("skill.json", .file "\x7b" true)])])]

/-! ## Frontmatter (`cmd/convert.go`) -/

/-- The first occurrence of `sep` in a text: the text before it and the text after it. -/
def cut (sep : List Char) : List Char → Option (List Char × List Char)
  | [] => if sep.isPrefixOf [] then some ([], []) else none
  | c :: cs =>
    if sep.isPrefixOf (c :: cs) then some ([], (c :: cs).drop sep.length)
    else match cut sep cs with
      | some (a, b) => some (c :: a, b)
      | none => none

/-- `strings.SplitN` on characters, for a non-empty separator and `n ≥ 0`: at most `n`
parts, the last of them the unsplit rest. -/
def splitN (sep : List Char) : Nat → List Char → List (List Char)
  | 0, _ => []
  | 1, s => [s]
  | n + 2, s =>
    match cut sep s with
    | none => [s]
    | some (a, b) => a :: splitN sep (n + 1) b

/-- `strings.SplitN(s, sep, n)` for a non-empty `sep` and `n ≥ 0`. -/
def SplitN (s sep : String) (n : Nat) : List String :=
  (splitN sep.toList n s.toList).map String.mk

/-- The occurrences of `sep` counted from the left without overlap; `skip` characters
of the last occurrence counted are still to be passed. -/
def countAux (sep : List Char) : Nat → List Char → Nat
  | _, [] => 0
  | k + 1, _ :: cs => countAux sep k cs
  | 0, c :: cs =>
    if sep.isPrefixOf (c :: cs) then countAux sep (sep.length - 1) cs + 1
    else countAux sep 0 cs

/-- `strings.Count(s, sep)` for a non-empty `sep`: the number of non-overlapping
occurrences of `sep` in `s`. -/
def Count (s sep : String) : Nat := countAux sep.toList 0 s.toList

/-- The text of a path. -/
def pathText (p : Path) : String := "/" ++ joinSlash p

/-- The text of an `os` error, `syscall.Errno.Error`. -/
def Errno.Error : Errno → String
  | .ENOENT => "no such file or directory"
  | .ENOTDIR => "not a directory"
  | .EISDIR => "is a directory"
  | .EACCES => "permission denied"
  | .EEXIST => "file exists"

/-- The walk function of `analyzeSource`. The state is `skillMDPath`, `none` for the
empty string. Called with an error it is called with a `nil` info, on which
`info.IsDir()` panics. -/
def analyzeWalkFn (path : Path) (info : Except Errno FileInfo) (skillMDPath : Option Path) :
    Option Path × WalkRes :=
  match info with
  | .error _ => (skillMDPath, .panic)
  | .ok info =>
    if !info.isDir && info.name = "SKILL.md" then (some path, .skipDir)
    else (skillMDPath, .nil)

/-- What `analyzeSource` returns: the source skill directory and the frontmatter record,
or an error with no record; `panic` when the call does not return. -/
inductive AnalyzeResult where
  | ok (sourceSkillDir : Path) (fm : FrontMatter)
  | error (msg : String)
  | panic
  deriving DecidableEq, Repr

/-- `analyzeSource` of `cmd/convert.go`. -/
def analyzeSource (L : Libs) (fs : Node) (searchDir : Path) : AnalyzeResult :=
  let r := Walk fs searchDir analyzeWalkFn none
  match r.2 with
  | .panic => .panic
  | _ =>
    match r.1 with
    | none => .error "could not find SKILL.md in the archive"
    | some skillMDPath =>
      match ReadFile fs skillMDPath with
      | .error e =>
        .error ("could not read SKILL.md: open " ++ pathText skillMDPath ++ ": " ++ e.Error)
      | .ok content =>
        let parts := SplitN content "---" 3
        if parts.length < 3 then .error "SKILL.md has no YAML frontmatter"
        else
          match L.yamlUnmarshal (parts.getD 1 "") with
          | .error err => .error err
          | .ok fm =>
            if fm.Name = "" ∨ fm.Description = "" then
              .error "YAML missing 'name' or 'description'"
            else .ok (Dir skillMDPath) fm

/-- An extracted archive in `/tmp/x`: a skill `bar` with frontmatter, a skill `open`
whose `SKILL.md` has an opening marker and no closing one, and a skill `nodesc` whose
frontmatter has no description. -/
def exExtracted : Node :=
  .dir [("tmp", .dir [("x", .dir [("bar", .dir [("SKILL.md",
      .file "---\nname: bar\ndescription: a valid twenty-plus character description\n---\n# Bar\n" true),
      ("run.py", .file "print(1)" true)])]),
    ("y", .dir [("open", .dir [("SKILL.md", .file "---\nname: bar\n# Bar\n" true)])]),
    ("z", .dir [("nodesc", .dir [("SKILL.md", .file "---\nname: bar\n---\n# Bar\n" true)])])])]

/-! ## Writing to the filesystem (`os`)

Write permission is not modelled: a write fails only for the shape of the tree. A
relative path text is resolved in the working directory lexically, as `filepath.Join`
does. -/

/-- The path that a path text names for an `os` call made in the working directory
`cwd`: an absolute text counts from the root, and the empty text names nothing. -/
def osPath (cwd : Path) (s : String) : Except Errno Path :=
  if s = "" then .error .ENOENT
  else if s.toList.head? = some '/' then .ok (joinPath [] s)
  else .ok (joinPath cwd s)

/-- `os.Mkdir(p)`: one new, empty directory in a parent directory that exists. -/
def Mkdir (fs : Node) (p : Path) : Except Errno Node :=
  match fs.lookup p with
  | .ok _ => .error .EEXIST
  | .error .ENOENT => fs.insert p (.dir [])
  | .error e => .error e

/-- `os.WriteFile(p, content, perm)`: an existing file gets the content and keeps its
permissions, a missing one is created in its parent directory, which has to exist. The
permissions given in the code, `0644` or those of a file that was just read, allow
reading. -/
def WriteFile (fs : Node) (p : Path) (content : String) : Except Errno Node :=
  match fs.lookup p with
  | .ok (.dir _) => .error .EISDIR
  | .ok (.file _ r) => fs.insert p (.file content r)
  | .error .ENOENT => fs.insert p (.file content true)
  | .error e => .error e

/-- The tree without what the path names; the root itself is not removed. -/
def Node.removeAll : Node → Path → Node
  | n, [] => n
  | .file c r, _ :: _ => .file c r
  | .dir cs, [c] => .dir (cs.filter fun e => e.1 ≠ c)
  | .dir cs, c :: c2 :: rest =>
    match cs.lookup c with
    | none => .dir cs
    | some child => .dir (setChild c (child.removeAll (c2 :: rest)) cs)

/-- `os.RemoveAll(p)`: the path and everything below it is removed; nothing happens
when the path does not exist. -/
def RemoveAll (fs : Node) (p : Path) : Node := fs.removeAll p

/-- The end of `filepath.Walk`: `SkipDir` is turned into `nil`. -/
def endOfWalk : WalkRes → WalkRes
  | .skipDir => .nil
  | x => x

/-- The entries are in the lexical order of their names. -/
def NamesSorted (l : List (String × Node)) : Prop :=
  l.Pairwise fun a b => charsLE a.1.toList b.1.toList = true

/-- The node has no file below it. -/
def NoFileBelow (n : Node) : Prop :=
  ∀ (x : String) (q : Path) (c : String) (r : Bool), n.lookup (x :: q) ≠ .ok (.file c r)

/-! ## Manifests (`scaffold/scaffold.go`) -/

/-- `Repository` of `scaffold/scaffold.go`; `Typ` is its field `Type`. -/
structure Repository where
  Typ : String
  URL : String
  deriving DecidableEq, Repr

/-- `Runtime` of `scaffold/scaffold.go`; `Typ` is its field `Type`. -/
structure Runtime where
  Typ : String
  Version : String
  deriving DecidableEq, Repr

/-- `Dependencies` of `scaffold/scaffold.go`. -/
structure Dependencies where
  System : List String
  Python : List String
  Skills : List String
  deriving DecidableEq, Repr

/-- `Permissions` of `scaffold/scaffold.go`, which has no field. -/
structure Permissions where
  deriving DecidableEq, Repr

/-- `SkillData` of `scaffold/scaffold.go`; a `nil` pointer is `none`. -/
structure SkillData where
  Name : String
  Version : String
  Description : String
  Author : String
  License : String
  LicenseFile : String
  Repository : Option Repository
  Icon : String
  Entrypoint : String
  Runtime : Runtime
  Dependencies : Option Dependencies
  Permissions : Option Permissions
  Keywords : List String
  deriving DecidableEq, Repr

/-- The zero value `scaffold.SkillData{}`. -/
def SkillData.zero : SkillData :=
  { Name := "", Version := "", Description := "", Author := "", License := "",
    LicenseFile := "", Repository := none, Icon := "", Entrypoint := "",
    Runtime := { Typ := "", Version := "" }, Dependencies := none, Permissions := none,
    Keywords := [] }

/-- The library calls of the conversion and of the scaffold. -/
structure ConvLibs where
  /-- The text `json.Encoder.Encode(data)` writes with the indent of two spaces and
  without HTML escaping, or its error. -/
  jsonEncode : SkillData → Except String String
  /-- The call `regexp.MustCompile("[\\s,]+").Split(strings.TrimSpace(s), -1)`. -/
  splitKeywords : String → List String

/-- An error value: a text, or the error of an `os` call behind the text the code puts
before it. The text the `os` call gives its error, with the operation and the path, is
not modelled. -/
inductive Err where
  | text (msg : String)
  | os (pre : String) (e : Errno)
  deriving DecidableEq, Repr

/-- `scaffold.WriteManifest`, with `skillDir` resolved in the working directory. -/
def scaffold.WriteManifest (C : ConvLibs) (fs : Node) (skillDir : Path) (data : SkillData) :
    Except Err Node :=
  let manifestPath := joinPath skillDir "skill.json"
  match C.jsonEncode data with
  | .error err => .error (.text ("failed to serialize skill.json: " ++ err))
  | .ok buffer =>
    match WriteFile fs manifestPath buffer with
    | .error e => .error (.os "failed to write skill.json: " e)
    | .ok fs1 => .ok fs1

/-- `strings.ReplaceAll(s, old, new)` for texts `old` and `new` of one character. -/
def ReplaceAll (s : String) (old new : Char) : String :=
  s.map fun c => if c = old then new else c

/-- `strings.ToTitle` on the letters of ASCII, which it maps to upper case. -/
def ToTitle (s : String) : String := s.map Char.toUpper

/-- The text of `README.md` that `generateConvertedSkill` writes. -/
def convertedReadme (name description : String) : String :=
  "# " ++ name ++ "\n\n## Overview\n\n" ++ description ++
    "\n\n## Description\n\n[Add detailed description here - this will be shown on the Skilzy registry]\n\n---\n\n**Note:** This README is displayed on the Skilzy registry details page. The actual AI agent instructions are in SKILL.md.\n"

/-- The default icon of `generateConvertedSkill`. -/
def convertedIcon : String :=
  "<svg xmlns=\"http://www.w3.org/2000/svg\" width=\"100\" height=\"100\" viewBox=\"0 0 24 24\"><path d=\"M12 2L2 7v10l10 5 10-5V7L12 2zm0 2.23L19.77 7 12 11.77 4.23 7 12 4.23zM3 8.5l9 5.06v9.44L3 17.5V8.5zm18 0v9l-9 5.06v-9.44L21 8.5z\"/></svg>"

/-- The text of `README.md` that `scaffold.Create` writes. -/
def scaffold.readmeContent (skillTitle description name license author : String) : String :=
  "# " ++ skillTitle ++ "\n\n## Overview\n\n" ++ description ++
    "\n\n## Features\n\n- Feature 1: [Describe key capability]\n- Feature 2: [Describe another capability]\n- Feature 3: [Describe additional functionality]\n\n## Usage\n\n[Provide examples of how to use this skill]\n\n## Requirements\n\n- Python >= 3.9\n- [List any other dependencies]\n\n## Installation\n\nThis skill is available through the Skilzy Registry. Install it using:\n\n```bash\nskilzy install your-username/" ++
    name ++ "\n```\n\n## License\n\n" ++ license ++ "\n\n## Author\n\n" ++ author ++
    "\n\n---\n\n**Note:** This README is displayed on the Skilzy registry details page. The actual AI agent instructions are in SKILL.md.\n"

/-- The text of `SKILL.md` that `scaffold.Create` writes. -/
def scaffold.skillMDContent (name description skillTitle : String) : String :=
  "---\nname: " ++ name ++ "\ndescription: " ++ description ++ "\n---\n\n# " ++ skillTitle ++
    "\n\n## Overview\n\nThis skill is designed to...\n\n## When to Use This Skill\n\nThis skill should be used when...\n\n## Instructions\n\nRun 'skilzy validate' when ready\n\n## Resources\n\n[Reference any scripts, references, or assets included with this skill]\n"

/-- The text of the license file that `scaffold.Create` writes. -/
def scaffold.licenseContent (license : String) : String :=
  "This project is licensed under the " ++ license ++ " license."

/-- The icon that `scaffold.Create` writes. -/
def scaffold.iconContent : String :=
  "<?xml version=\"1.0\" encoding=\"UTF-8\"?><svg id=\"a\" xmlns=\"http://www.w3.org/2000/svg\" width=\"12.52mm\" height=\"12.09mm\" viewBox=\"0 0 35.48 34.27\"><rect x=\"0\" y=\"0\" width=\"35.48\" height=\"34.27\" style=\"fill:#755541;\"/><path d=\"M6.13,26.42v-2.85h9.88v2.85H6.13Z\" style=\"fill:#fff;\"/><path d=\"M24.09,23.93c-1.56,0-2.82-.25-3.78-.76-.96-.51-1.69-1.12-2.19-1.85-.5-.73-.82-1.44-.96-2.13l3.52-1.15c.16.63.51,1.19,1.03,1.69s1.32.74,2.37.74c.95,0,1.6-.15,1.96-.44.35-.29.53-.61.53-.96,0-.4-.21-.76-.64-1.06-.42-.3-1.28-.51-2.55-.61-1.68-.14-3.03-.59-4.04-1.34-1.01-.75-1.52-1.83-1.52-3.25v-.18c0-.99.27-1.83.82-2.52.55-.69,1.26-1.21,2.13-1.56s1.79-.53,2.76-.53c1.28,0,2.33.2,3.16.59.83.39,1.48.89,1.96,1.47.48.59.81,1.17,1.02,1.76l-3.46,1.4c-.18-.55-.5-.98-.94-1.29-.45-.31-1.02-.47-1.73-.47-.63,0-1.11.12-1.44.35-.33.23-.5.52-.5.87,0,.49.25.83.76,1.03.51.2,1.43.38,2.76.55,1.54.16,2.79.62,3.77,1.38.97.76,1.46,1.82,1.46,3.17v.18c0,1.48-.55,2.67-1.64,3.57-1.09.9-2.63,1.35-4.62,1.35Z\" style=\"fill:#fff;\"/></svg>"

/-! ## Conversion (`cmd/convert.go`) -/

/-- What a call that gets `data *scaffold.SkillData` leaves: the filesystem, the record
behind the pointer, and the error it returns (`none` for `nil`). -/
structure GenResult where
  fs : Node
  data : SkillData
  err : Option Err

/-- The walk function of `generateConvertedSkill`, with `destDir` resolved in the
working directory. The state is the filesystem: the walk lists the directories as they
are when it starts, and every file is read when it is visited. -/
def copyWalkFn (data : SkillData) (sourceDir destDir : Path) (path : Path)
    (info : Except Errno FileInfo) (fs : Node) : Node × WalkRes :=
  match info with
  | .error e => (fs, .err e)
  | .ok info =>
    let relPath := Rel sourceDir path
    let destPath := joinPath destDir relPath
    if info.isDir then
      match MkdirAll fs destPath with
      | .error e => (fs, .err e)
      | .ok fs1 => (fs1, .nil)
    else
      match ReadFile fs path with
      | .error e => (fs, .err e)
      | .ok content =>
        if info.name = "SKILL.md" then
          let parts := SplitN content "---" 3
          let content := if parts.length ≥ 3 then parts.getD 2 "" else content
          let readmeContent := convertedReadme data.Name data.Description
          let readmePath := joinPath destDir "README.md"
          match WriteFile fs readmePath readmeContent with
          | .error e => (fs, .err e)
          | .ok fs1 =>
            match WriteFile fs1 destPath content with
            | .error e => (fs1, .err e)
            | .ok fs2 => (fs2, .nil)
        else
          match WriteFile fs destPath content with
          | .error e => (fs, .err e)
          | .ok fs1 => (fs1, .nil)

/-- The destination directory has the synthesized `README.md` and a file `SKILL.md`. -/
def HasReadmeAndSkill (data : SkillData) (destDir : Path) (fs : Node) : Prop :=
  (∃ r, fs.lookup (destDir ++ ["README.md"]) =
    .ok (.file (convertedReadme data.Name data.Description) r)) ∧
  ∃ c r, fs.lookup (destDir ++ ["SKILL.md"]) = .ok (.file c r)

/-- Whether `os.Stat` succeeds on the path. -/
def statOk (fs : Node) (p : Path) : Bool :=
  match Stat fs p with
  | .ok _ => true
  | .error _ => false

/-- `findLicenseFileInDir` of `cmd/convert.go`. -/
def findLicenseFileInDir (fs : Node) (dir : Path) : String :=
  match ["LICENSE.txt", "LICENSE.md", "LICENSE"].find? fun name =>
      statOk fs (joinPath dir name) with
  | some name => name
  | none => ""

/-- The license step of `generateConvertedSkill`: a license file found in the
destination is adopted, otherwise a placeholder is written, whose error is dropped. -/
def licenseStep (fs : Node) (destDir : Path) (data : SkillData) : Node × SkillData :=
  let foundLicenseFile := findLicenseFileInDir fs destDir
  if foundLicenseFile ≠ "" then (fs, { data with LicenseFile := foundLicenseFile })
  else
    let defaultLicensePath := joinPath destDir "LICENSE"
    let fs1 := match WriteFile fs defaultLicensePath "License content to be added here." with
      | .ok fs1 => fs1
      | .error _ => fs
    (fs1, { data with LicenseFile := "LICENSE" })

/-- The icon step of `generateConvertedSkill`: the default icon is written when the
icon path does not exist; the error of `os.MkdirAll` is dropped. -/
def iconStep (fs : Node) (destDir : Path) (data : SkillData) : Except Errno Node :=
  let iconPath := joinPath destDir data.Icon
  if NotExist fs iconPath then
    let assetsDir := Dir iconPath
    let fs1 := match MkdirAll fs assetsDir with
      | .ok fs1 => fs1
      | .error _ => fs
    WriteFile fs1 iconPath convertedIcon
  else .ok fs

/-- The error `directory '<name>' already exists`. -/
def alreadyExists (name : String) : Err := .text ("directory '" ++ name ++ "' already exists")

/-- `generateConvertedSkill` of `cmd/convert.go`, called in the working directory
`cwd`. -/
def generateConvertedSkill (C : ConvLibs) (fs : Node) (cwd : Path) (data : SkillData)
    (sourceDir : Path) : GenResult :=
  match osPath cwd data.Name with
  | .error e =>
    if !IsNotExist e then { fs := fs, data := data, err := some (alreadyExists data.Name) }
    else { fs := fs, data := data, err := some (.os "" e) }
  | .ok destDir =>
    if !NotExist fs destDir then
      { fs := fs, data := data, err := some (alreadyExists data.Name) }
    else
      match Mkdir fs destDir with
      | .error e => { fs := fs, data := data, err := some (.os "" e) }
      | .ok fs1 =>
        let r := Walk fs1 sourceDir (copyWalkFn data sourceDir destDir) fs1
        match r.2 with
        | .err e =>
          { fs := r.1, data := data, err := some (.os "failed to copy skill files: " e) }
        | _ =>
          let l := licenseStep r.1 destDir data
          match iconStep l.1 destDir l.2 with
          | .error e =>
            { fs := l.1, data := l.2, err := some (.os "failed to create default icon: " e) }
          | .ok fs4 =>
            match scaffold.WriteManifest C fs4 destDir l.2 with
            | .error err => { fs := fs4, data := l.2, err := some err }
            | .ok fs5 => { fs := fs5, data := l.2, err := none }

/-- The loop of `scaffold.Create` over `subDirs`: the filesystem it leaves, and the
directory and error it stops at. -/
def scaffold.mkSubDirs (skillDir : Path) : List String → Node → Node × Option (String × Errno)
  | [], fs => (fs, none)
  | dir :: rest, fs =>
    match Mkdir fs (joinPath skillDir dir) with
    | .error e => (fs, some (dir, e))
    | .ok fs1 => scaffold.mkSubDirs skillDir rest fs1

/-- What `scaffold.Create` leaves: the filesystem and the error it returns. -/
structure CreateResult where
  fs : Node
  err : Option Err

/-- `scaffold.Create`, called in the working directory `cwd`. -/
def scaffold.Create (C : ConvLibs) (fs : Node) (cwd : Path) (data : SkillData) :
    CreateResult :=
  match osPath cwd data.Name with
  | .error e =>
    if !IsNotExist e then { fs := fs, err := some (alreadyExists data.Name) }
    else { fs := fs, err := some (.os "failed to create skill directory: " e) }
  | .ok skillDir =>
    if !NotExist fs skillDir then { fs := fs, err := some (alreadyExists data.Name) }
    else
      match Mkdir fs skillDir with
      | .error e => { fs := fs, err := some (.os "failed to create skill directory: " e) }
      | .ok fs1 =>
        match scaffold.WriteManifest C fs1 skillDir data with
        | .error err => { fs := fs1, err := some err }
        | .ok fs2 =>
          let readmePath := joinPath skillDir data.Entrypoint
          let skillTitle := ToTitle (ReplaceAll data.Name '-' ' ')
          let readmeContent := scaffold.readmeContent skillTitle data.Description data.Name
            data.License data.Author
          match WriteFile fs2 readmePath readmeContent with
          | .error e => { fs := fs2, err := some (.os "failed to write README.md: " e) }
          | .ok fs3 =>
            let skillMDPath := joinPath skillDir "SKILL.md"
            let skillMDContent := scaffold.skillMDContent data.Name data.Description skillTitle
            match WriteFile fs3 skillMDPath skillMDContent with
            | .error e => { fs := fs3, err := some (.os "failed to write SKILL.md: " e) }
            | .ok fs4 =>
              let licensePath := joinPath skillDir data.LicenseFile
              match WriteFile fs4 licensePath (scaffold.licenseContent data.License) with
              | .error e => { fs := fs4, err := some (.os "failed to write LICENSE: " e) }
              | .ok fs5 =>
                match scaffold.mkSubDirs skillDir ["assets", "scripts", "reference"] fs5 with
                | (fs6, some (dir, e)) =>
                  { fs := fs6, err := some (.os ("failed to create directory " ++ dir ++ ": ") e) }
                | (fs6, none) =>
                  let iconPath := joinPath skillDir data.Icon
                  match WriteFile fs6 iconPath scaffold.iconContent with
                  | .error e => { fs := fs6, err := some (.os "failed to write icon.svg: " e) }
                  | .ok fs7 => { fs := fs7, err := none }

/-- A file of the source archive, as `archive/zip` gives it: the `Name` of its header,
whether it stands for a directory, and the content that `Open` and `io.Copy` deliver,
or their error. -/
structure ZipFile where
  Name : String
  isDir : Bool
  content : Except String String

/-- The loop of `unzipSource` over `reader.File`. -/
def unzipFiles (dest : Path) : List ZipFile → Node → Node × Option Err
  | [], fs => (fs, none)
  | file :: rest, fs =>
    let path := joinPath dest file.Name
    if file.isDir then
      match MkdirAll fs path with
      | .error _ => unzipFiles dest rest fs
      | .ok fs1 => unzipFiles dest rest fs1
    else
      match MkdirAll fs (Dir path) with
      | .error e => (fs, some (.os "" e))
      | .ok fs1 =>
        match WriteFile fs1 path "" with
        | .error e => (fs1, some (.os "" e))
        | .ok fs2 =>
          match file.content with
          | .error err => (fs2, some (.text err))
          | .ok c =>
            match WriteFile fs2 path c with
            | .error e => (fs2, some (.os "" e))
            | .ok fs3 => unzipFiles dest rest fs3

/-- `unzipSource` of `cmd/convert.go`; `reader` is what `zip.OpenReader(source)`
returns. -/
def unzipSource (reader : Except String (List ZipFile)) (fs : Node) (dest : Path) :
    Node × Option Err :=
  match reader with
  | .error err => (fs, some (.text err))
  | .ok files => unzipFiles dest files fs

/-- The answers that the prompts of a survey end with. -/
structure Answers where
  Name : String
  Description : String
  Author : String
  License : String
  RepositoryURL : String
  Keywords : String
  deriving DecidableEq, Repr

/-- `runConversionSurvey` of `cmd/convert.go`; `asked` is what `survey.Ask` and the two
calls of `survey.AskOne` leave in `answers`, or the error of `survey.Ask`. -/
def runConversionSurvey (C : ConvLibs) (asked : Except String Answers) (data : SkillData) :
    Except String SkillData :=
  match asked with
  | .error err => .error err
  | .ok answers =>
    let data := { data with
      Name := answers.Name, Description := answers.Description, Author := answers.Author,
      License := answers.License, Version := "1.0.0", Entrypoint := "README.md",
      Icon := "assets/icon.svg" }
    let data := if answers.RepositoryURL ≠ "" then
        { data with Repository := some { Typ := "git", URL := answers.RepositoryURL } }
      else data
    let data := { data with Runtime := { Typ := "python", Version := ">=3.9" } }
    let data := if answers.Keywords ≠ "" then
        { data with Keywords := C.splitKeywords answers.Keywords }
      else data
    .ok data

/-- What `runConvert` starts from: the filesystem, the working directory, the path
`os.MkdirTemp` settles on, the source archive as `zip.OpenReader` gives it, and the
outcome of the survey. -/
structure ConvertEnv where
  fs : Node
  cwd : Path
  tempDir : Path
  reader : Except String (List ZipFile)
  asked : Except String Answers

/-- What a run of `runConvert` leaves: the exit code of the process and the
filesystem. -/
structure ConvertResult where
  exitCode : Nat
  fs : Node

/-- `runConvert` of `cmd/convert.go`. The deferred `os.RemoveAll(tempDir)` runs when
the function returns and when it panics; `os.Exit` ends the process without running
it. -/
def runConvert (L : Libs) (C : ConvLibs) (env : ConvertEnv) : ConvertResult :=
  match Mkdir env.fs env.tempDir with
  | .error _ => { exitCode := 1, fs := env.fs }
  | .ok fs1 =>
    let tempDir := env.tempDir
    match unzipSource env.reader fs1 tempDir with
    | (fs2, some _) => { exitCode := 1, fs := fs2 }
    | (fs2, none) =>
      match analyzeSource L fs2 tempDir with
      | .panic => { exitCode := 2, fs := RemoveAll fs2 tempDir }
      | .error _ => { exitCode := 1, fs := fs2 }
      | .ok sourceSkillDir _ =>
        match runConversionSurvey C env.asked SkillData.zero with
        | .error _ => { exitCode := 1, fs := fs2 }
        | .ok finalSkillData =>
          let g := generateConvertedSkill C fs2 env.cwd finalSkillData sourceSkillDir
          match g.err with
          | some _ => { exitCode := 1, fs := g.fs }
          | none => { exitCode := 0, fs := RemoveAll g.fs tempDir }

/-- The text `s` is `a`, the separator and `b`, and the separator occurs nowhere
further left in `s`: it splits at its first occurrence of the separator. -/
def SplitsAtFirst (sep s a b : List Char) : Prop :=
  s = a ++ sep ++ b ∧ ∀ a1 b1 : List Char, s = a1 ++ sep ++ b1 → a.length ≤ a1.length

/-- The specification's reading of a document with a preamble: `a` is the text before
the first occurrence of the three-hyphen marker, `pre` the text between the first and
the second occurrence, and `rest` the text that follows the second occurrence. -/
def MarkedParts (content a pre rest : String) : Prop :=
  ∃ tail : List Char, SplitsAtFirst "---".toList content.toList a.toList tail ∧
    SplitsAtFirst "---".toList tail pre.toList rest.toList

mutual
/-- The specification's reading of the search of `analyzeSource`: the first file named
`SKILL.md` in the depth-first traversal of the tree. -/
def firstSkillMD : Path → Node → Option Path
  | path, .file _ _ => if Base path = "SKILL.md" then some path else none
  | path, .dir cs => firstSkillMDNames path cs
/-- The first file named `SKILL.md` below the entries of a directory, in their order. -/
def firstSkillMDNames : Path → List (String × Node) → Option Path
  | _, [] => none
  | path, (name, child) :: rest =>
    match firstSkillMD (joinPath path name) child with
    | some p => some p
    | none => firstSkillMDNames path rest
end

/-- The specification's reading of the search of `analyzeSource` from `searchDir`, with
the entries of every directory in lexical order. -/
def specFirstSkillMD (fs : Node) (searchDir : Path) : Option Path :=
  match fs.lookup searchDir with
  | .error _ => none
  | .ok n => firstSkillMD searchDir n.sorted

/-! ## Example inputs of the conversion -/

/-- Libraries for the examples: the encoder writes the name and the license file of
the record. -/
def exConvLibs : ConvLibs where
  jsonEncode := fun d =>
    .ok ("\x7b\"name\": \"" ++ d.Name ++ "\", \"licenseFile\": \"" ++ d.LicenseFile ++ "\"\x7d\n")
  splitKeywords := fun s => [s]

/-- The record the survey of the examples leaves for the skill `bar`. -/
def exData : SkillData :=
  { SkillData.zero with
    Name := "bar", Version := "1.0.0",
    Description := "a valid twenty-plus character description", Author := "me",
    License := "MIT", Icon := "assets/icon.svg", Entrypoint := "README.md",
    Runtime := { Typ := "python", Version := ">=3.9" } }

/-- The source skill of the examples, with a `README.md` and a `skill.json` of its
own. -/
def exSource : Node :=
  .dir [("SKILL.md",
      .file "---\nname: bar\ndescription: a valid twenty-plus character description\n---\n# Bar\n" true),
    ("README.md", .file "# Old" true), ("run.py", .file "print(1)" true),
    ("skill.json", .file "old manifest" true),
    ("tools", .dir [("SKILL.md", .file "no markers" true), ("z.bin", .file "secret" false)])]

/-- A filesystem with the source skill extracted to `/tmp/x/bar` and an empty working
directory `/work`. -/
def exConvFs : Node :=
  .dir [("tmp", .dir [("x", .dir [("bar", exSource)])]), ("work", .dir [])]

/-- A filesystem like `exConvFs` in which every file of the source can be read and the
source has no `skill.json`. -/
def exGoodFs : Node :=
  .dir [("tmp", .dir [("x", .dir [("bar", .dir [("SKILL.md",
      .file "---\nname: bar\ndescription: a valid twenty-plus character description\n---\n# Bar\n" true),
    ("README.md", .file "# Old" true), ("run.py", .file "print(1)" true),
    ("docs", .dir [("SKILL.md", .file "no markers" true)])])])]),
    ("work", .dir [])]

/-- The filesystem `exGoodFs` with the new, empty directory `/work/bar`. -/
def exGoodFs1 : Node :=
  .dir [("tmp", .dir [("x", .dir [("bar", .dir [("SKILL.md",
      .file "---\nname: bar\ndescription: a valid twenty-plus character description\n---\n# Bar\n" true),
    ("README.md", .file "# Old" true), ("run.py", .file "print(1)" true),
    ("docs", .dir [("SKILL.md", .file "no markers" true)])])])]),
    ("work", .dir [("bar", .dir [])])]

/-- An extracted archive in `/tmp/p` whose `SKILL.md` has a heading before its first
marker. -/
def exLateMarker : Node :=
  .dir [("tmp", .dir [("p", .dir [("bar", .dir [("SKILL.md",
    .file "# Bar\n---\nname: bar\ndescription: a valid twenty-plus character description\n---\nbody\n" true)])])])]

/-- The answers of the examples. -/
def exAnswers : Answers where
  Name := "bar"
  Description := "a valid twenty-plus character description"
  Author := "me"
  License := "MIT"
  RepositoryURL := ""
  Keywords := ""

/-- A run of `skilzy convert` in `/work` on an archive that has one file `notes.txt` and
no `SKILL.md`; `os.MkdirTemp` settles on `/tmp/skilzy-convert-1`. -/
def exConvertEnv : ConvertEnv where
  fs := exConvFs
  cwd := ["work"]
  tempDir := ["tmp", "skilzy-convert-1"]
  reader := .ok [⟨"notes.txt", false, .ok "hi"⟩]
  asked := .ok exAnswers

/-! ## The contents of the archive -/

/-- The name of the archive entry for the node at the relative path `rel` below the skill
directory, in an archive for the skill named `n`: the name of the skill, a slash, the
names of `rel` joined by slashes, and one more slash for a directory. -/
def entryName (n : String) (rel : Path) (isDir : Bool) : String :=
  n ++ "/" ++ joinSlash rel ++ (if isDir then "/" else "")

mutual
/-- The nodes at and below a node found at the relative path `rel`, each with its
relative path and whether it is a directory, in the order in which a walk meets them. -/
def allItems : Path → Node → List (Path × Bool)
  | rel, .file _ _ => [(rel, false)]
  | rel, .dir cs => (rel, true) :: allItemsNames rel cs
/-- The nodes below the entries of a directory found at the relative path `rel`. -/
def allItemsNames : Path → List (String × Node) → List (Path × Bool)
  | _, [] => []
  | rel, (name, child) :: rest => allItems (rel ++ [name]) child ++ allItemsNames rel rest
end

/-- The relative path is neither `d` nor below it. -/
def outside (d : Path) (x : Path × Bool) : Bool := !d.isPrefixOf x.1

/-! ## Default data (`cmd/init.go`) -/

/-- `populateDefaultData` of `cmd/init.go`; `gitUserName` is what
`utils.GetGitUserName()` returns, and the record is returned instead of written through
the pointer. -/
def populateDefaultData (gitUserName : String) (data : SkillData) (skillName : String) :
    SkillData :=
  let data := { data with Name := skillName }
  let data := { data with Version := "0.1.0" }
  let data := { data with Description :=
    "A new Skilzy skill. Please provide a detailed description of its capabilities." }
  let data := { data with Author := gitUserName }
  let data := if data.Author = "" then { data with Author := "Author Name" } else data
  let data := { data with License := "MIT" }
  let data := { data with LicenseFile := "LICENSE" }
  let data := { data with Entrypoint := "README.md" }
  let data := { data with Icon := "assets/icon.svg" }
  let data := { data with Runtime := { data.Runtime with Typ := "python" } }
  let data := { data with Runtime := { data.Runtime with Version := ">=3.9" } }
  let data := { data with Keywords := [] }
  { data with Dependencies := some { System := [], Python := [], Skills := [] } }

/-! ## Example inputs of the checks on scaffolded and converted skills -/

/-- A manifest whose icon is `assets`. -/
def exDirManifest : String :=
  "\x7b\"name\": \"foo\", \"version\": \"1.0.0\", \"icon\": \"assets\", \"licenseFile\": \"LICENSE\", \"entrypoint\": \"README.md\"\x7d"

/-- Libraries that know `exDirManifest`. -/
def exDirLibs : Libs where
  schemaValidate := fun s =>
    if s = exDirManifest then .ok [] else .ok ["(root): name is required"]
  jsonField := fun s k =>
    if s = exDirManifest then
      (if k = "name" then "foo" else if k = "version" then "1.0.0"
       else if k = "icon" then "assets" else if k = "licenseFile" then "LICENSE"
       else if k = "entrypoint" then "README.md" else "")
    else ""
  yamlUnmarshal := fun _ => .error "not used"

/-- A filesystem with the skill directory `/home/foo`, whose manifest `exDirManifest`
declares the directory `assets` as the icon. -/
def exDirFs : Node :=
  .dir [("home", .dir [("foo", .dir [("skill.json", .file exDirManifest true),
    ("README.md", .file "# foo" true), ("LICENSE", .file "MIT" true),
    ("assets", .dir [("a.txt", .file "a" true)])])])]

/-- An encoder for the examples that writes the four fields the checks read. -/
def exFieldLibs : ConvLibs where
  jsonEncode := fun d =>
    .ok ("\x7b\"name\": \"" ++ d.Name ++ "\", \"icon\": \"" ++ d.Icon ++
      "\", \"licenseFile\": \"" ++ d.LicenseFile ++ "\", \"entrypoint\": \"" ++ d.Entrypoint ++
      "\"\x7d\n")
  splitKeywords := fun s => [s]

/-- The manifest `exFieldLibs` writes for a skill of the given name with the icon
`assets/icon.svg`, the license file `LICENSE` and the entry point `README.md`. -/
def exFieldManifest (name : String) : String :=
  "\x7b\"name\": \"" ++ name ++
    "\", \"icon\": \"assets/icon.svg\", \"licenseFile\": \"LICENSE\", \"entrypoint\": \"README.md\"\x7d\n"

/-- A decoder for the examples: it knows the manifests that `exFieldLibs` writes for the
skills `my-skill` and `bar`. -/
def exFieldDecoder : Libs where
  schemaValidate := fun _ => .ok []
  jsonField := fun s k =>
    if s = exFieldManifest "my-skill" ∨ s = exFieldManifest "bar" then
      (if k = "name" then (if s = exFieldManifest "bar" then "bar" else "my-skill")
       else if k = "icon" then "assets/icon.svg"
       else if k = "licenseFile" then "LICENSE"
       else if k = "entrypoint" then "README.md" else "")
    else ""
  yamlUnmarshal := fun _ => .error "not used"

/-- A filesystem with an empty working directory `/work`. -/
def exWorkFs : Node := .dir [("work", .dir [])]

/-! ## The manifest read back -/

/-- The decoder reads back what the encoder wrote: from the manifest `text` of the
record, `json.Unmarshal` sets the fields tagged `name`, `icon`, `licenseFile` and
`entrypoint`, the tags of these fields in `SkillData`, to the values of the record. -/
def ReadsBack (L : Libs) (data : SkillData) (text : String) : Prop :=
  L.jsonField text "name" = data.Name ∧ L.jsonField text "icon" = data.Icon ∧
  L.jsonField text "licenseFile" = data.LicenseFile ∧
  L.jsonField text "entrypoint" = data.Entrypoint

/-! ## Example inputs: a declared path through a file, an archive beside the output -/

/-- A manifest whose icon is `README.md/x`. -/
def exThroughFileManifest : String :=
  "\x7b\"name\": \"foo\", \"version\": \"1.0.0\", \"icon\": \"README.md/x\", \"licenseFile\": \"LICENSE\", \"entrypoint\": \"README.md\"\x7d"

/-- Libraries that know `exThroughFileManifest`. -/
def exThroughFileLibs : Libs where
  schemaValidate := fun s =>
    if s = exThroughFileManifest then .ok [] else .ok ["(root): name is required"]
  jsonField := fun s k =>
    if s = exThroughFileManifest then
      (if k = "name" then "foo" else if k = "version" then "1.0.0"
       else if k = "icon" then "README.md/x" else if k = "licenseFile" then "LICENSE"
       else if k = "entrypoint" then "README.md" else "")
    else ""
  yamlUnmarshal := fun _ => .error "not used"

/-- A filesystem with the skill directory `/home/foo`, whose manifest
`exThroughFileManifest` declares as the icon a path through the regular file
`README.md`. -/
def exThroughFileFs : Node :=
  .dir [("home", .dir [("foo", .dir [("skill.json", .file exThroughFileManifest true),
    ("README.md", .file "# foo" true), ("LICENSE", .file "MIT" true)])])]
/-! ## Theorems -/

/-! ### Skill names -/

theorem char_le_iff_toNat (a b : Char) : a ≤ b ↔ a.toNat ≤ b.toNat := Iff.rfl

theorem mem_nameChars_of_range (n : Nat)
    (h : (97 ≤ n ∧ n ≤ 122) ∨ (48 ≤ n ∧ n ≤ 57)) : Char.ofNat n ∈ nameChars := by
  rcases h with ⟨h1, h2⟩ | ⟨h1, h2⟩ <;> interval_cases n <;> decide

theorem mem_nameChars_iff (c : Char) : c ∈ nameChars ↔ isLowerAlnum c = true := by
  constructor
  · intro h
    simp only [nameChars] at h
    revert c
    decide
  · intro h
    simp only [isLowerAlnum, Bool.or_eq_true, Bool.and_eq_true, decide_eq_true_eq,
      char_le_iff_toNat] at h
    have := mem_nameChars_of_range c.toNat h
    rwa [Char.ofNat_toNat] at this

theorem charClass_matches (cs : List Char) (x : List Char) :
    x ∈ (charClass cs).matches' ↔ ∃ c ∈ cs, x = [c] := by
  induction cs with
  | nil => simp [charClass, RegularExpression.matches']
  | cons a t ih =>
    have : charClass (a :: t) = .plus (.char a) (charClass t) := rfl
    rw [this, RegularExpression.matches', Language.mem_add, ih]
    simp only [RegularExpression.matches', List.mem_cons, exists_eq_or_imp]
    exact Iff.rfl

theorem rePlus_charClass_matches (cs : List Char) (x : List Char) :
    x ∈ (rePlus (charClass cs)).matches' ↔ x ≠ [] ∧ ∀ c ∈ x, c ∈ cs := by
  unfold rePlus
  rw [RegularExpression.matches', RegularExpression.matches', Language.mem_mul]
  constructor
  · rintro ⟨a, ha, b, hb, rfl⟩
    rw [charClass_matches] at ha
    obtain ⟨c, hc, rfl⟩ := ha
    rw [Language.mem_kstar] at hb
    obtain ⟨L, rfl, hL⟩ := hb
    refine ⟨by simp, ?_⟩
    intro d hd
    simp only [List.singleton_append, List.mem_cons, List.mem_flatten] at hd
    rcases hd with rfl | ⟨y, hy, hdy⟩
    · exact hc
    · obtain ⟨e, he, rfl⟩ := (charClass_matches cs y).1 (hL y hy)
      simp at hdy
      exact hdy ▸ he
  · rintro ⟨hne, hall⟩
    cases x with
    | nil => exact absurd rfl hne
    | cons c t =>
      refine ⟨[c], (charClass_matches cs _).2 ⟨c, hall c (by simp), rfl⟩, t, ?_, rfl⟩
      rw [Language.mem_kstar]
      refine ⟨t.map (fun d => [d]), ?_, ?_⟩
      · clear hne hall
        induction t with
        | nil => rfl
        | cons d t ih => simpa using ih
      · intro y hy
        simp only [List.mem_map] at hy
        obtain ⟨d, hd, rfl⟩ := hy
        exact (charClass_matches cs _).2 ⟨d, hall d (by simp [hd]), rfl⟩

theorem exists_runs_of_forall (L : List (List Char))
    (h : ∀ y ∈ L, ∃ r, IsRun r ∧ y = '-' :: r) :
    ∃ rs : List (List Char), (∀ r ∈ rs, IsRun r) ∧ L = rs.map (fun r => '-' :: r) := by
  induction L with
  | nil => exact ⟨[], by simp, rfl⟩
  | cons y L ih =>
    obtain ⟨r, hr, rfl⟩ := h y (by simp)
    obtain ⟨rs, hrs, rfl⟩ := ih (fun z hz => h z (by simp [hz]))
    exact ⟨r :: rs, by simpa [hr] using hrs, rfl⟩

/-- The language of the name pattern: a first run, then any number of hyphen-led runs. -/
theorem skillNameRe_matches (x : List Char) :
    x ∈ skillNameRe.matches' ↔
      ∃ (r0 : List Char) (rs : List (List Char)), IsRun r0 ∧ (∀ r ∈ rs, IsRun r) ∧
        x = r0 ++ (rs.map (fun r => '-' :: r)).flatten := by
  have hseg : ∀ y : List Char,
      y ∈ (RegularExpression.comp (.char '-') (rePlus (charClass nameChars))).matches' ↔
        ∃ r, IsRun r ∧ y = '-' :: r := by
    intro y
    rw [RegularExpression.matches', Language.mem_mul]
    constructor
    · rintro ⟨a, ha, b, hb, rfl⟩
      rw [RegularExpression.matches'] at ha
      have ha : a = ['-'] := ha
      subst ha
      exact ⟨b, (rePlus_charClass_matches _ _).1 hb, rfl⟩
    · rintro ⟨r, hr, rfl⟩
      exact ⟨['-'], rfl, r, (rePlus_charClass_matches _ _).2 hr, rfl⟩
  unfold skillNameRe
  rw [RegularExpression.matches', Language.mem_mul]
  constructor
  · rintro ⟨a, ha, b, hb, rfl⟩
    rw [RegularExpression.matches', Language.mem_kstar] at hb
    obtain ⟨L, rfl, hL⟩ := hb
    obtain ⟨rs, hrs, rfl⟩ := exists_runs_of_forall L (fun y hy => (hseg y).1 (hL y hy))
    exact ⟨a, rs, (rePlus_charClass_matches _ _).1 ha, hrs, rfl⟩
  · rintro ⟨r0, rs, h0, hrs, rfl⟩
    refine ⟨r0, (rePlus_charClass_matches _ _).2 h0, _, ?_, rfl⟩
    rw [RegularExpression.matches', Language.mem_kstar]
    refine ⟨_, rfl, ?_⟩
    intro y hy
    simp only [List.mem_map] at hy
    obtain ⟨r, hr, rfl⟩ := hy
    exact (hseg _).2 ⟨r, hrs r hr, rfl⟩

theorem intercalate_cons_eq (sep : List Char) (r0 : List Char) (rs : List (List Char)) :
    List.intercalate sep (r0 :: rs) = r0 ++ (rs.map (fun r => sep ++ r)).flatten := by
  induction rs generalizing r0 with
  | nil => simp [List.intercalate, List.intersperse]
  | cons r1 rs ih =>
    have := ih r1
    simp only [List.intercalate, List.intersperse, List.flatten_cons, List.map_cons] at this ⊢
    rw [this]
    simp

theorem hyphenCase_iff_matches (x : List Char) :
    HyphenCase x ↔ x ∈ skillNameRe.matches' := by
  rw [skillNameRe_matches]
  constructor
  · rintro ⟨runs, hne, hruns, rfl⟩
    cases runs with
    | nil => exact absurd rfl hne
    | cons r0 rs =>
      refine ⟨r0, rs, ?_, ?_, ?_⟩
      · obtain ⟨h1, h2⟩ := hruns r0 (by simp)
        exact ⟨h1, fun c hc => (mem_nameChars_iff c).2 (h2 c hc)⟩
      · intro r hr
        obtain ⟨h1, h2⟩ := hruns r (by simp [hr])
        exact ⟨h1, fun c hc => (mem_nameChars_iff c).2 (h2 c hc)⟩
      · rw [intercalate_cons_eq]
        rfl
  · rintro ⟨r0, rs, h0, hrs, rfl⟩
    refine ⟨r0 :: rs, by simp, ?_, ?_⟩
    · intro r hr
      have hrun : IsRun r := by
        rcases List.mem_cons.1 hr with rfl | h
        · exact h0
        · exact hrs r h
      exact ⟨hrun.1, fun c hc => (mem_nameChars_iff c).1 (hrun.2 c hc)⟩
    · rw [intercalate_cons_eq]
      rfl

theorem hyphen_not_mem_nameChars : '-' ∉ nameChars := by decide

theorem runs_chars (r0 : List Char) (rs : List (List Char)) (h0 : IsRun r0)
    (hrs : ∀ r ∈ rs, IsRun r) :
    ∀ c ∈ r0 ++ (rs.map (fun r => '-' :: r)).flatten, c ∈ nameChars ∨ c = '-' := by
  intro c hc
  simp only [List.mem_append, List.mem_flatten, List.mem_map] at hc
  rcases hc with hc | ⟨y, ⟨r, hr, rfl⟩, hcy⟩
  · exact Or.inl (h0.2 c hc)
  · rcases List.mem_cons.1 hcy with rfl | h
    · exact Or.inr rfl
    · exact Or.inl ((hrs r hr).2 c h)

theorem runs_head (r0 : List Char) (t : List Char) (h0 : IsRun r0) :
    ∃ c u, r0 ++ t = c :: u ∧ c ∈ nameChars := by
  cases r0 with
  | nil => exact absurd rfl h0.1
  | cons c r => exact ⟨c, r ++ t, rfl, h0.2 c (by simp)⟩

/-- In a hyphen-case text every hyphen is followed by a character of the class. -/
theorem runs_hyphen_followed (rs : List (List Char)) :
    ∀ r0 : List Char, IsRun r0 → (∀ r ∈ rs, IsRun r) → ∀ p q : List Char,
      r0 ++ (rs.map (fun r => '-' :: r)).flatten = p ++ '-' :: q →
      ∃ c u, q = c :: u ∧ c ∈ nameChars := by
  induction rs with
  | nil =>
    intro r0 h0 _ p q h
    simp only [List.map_nil, List.flatten_nil, List.append_nil] at h
    exact absurd (h0.2 '-' (by simp [h])) hyphen_not_mem_nameChars
  | cons r1 rs ih =>
    intro r0 h0 hrs p q h
    have h1 : IsRun r1 := hrs r1 (by simp)
    have hrs1 : ∀ r ∈ rs, IsRun r := fun r hr => hrs r (by simp [hr])
    simp only [List.map_cons, List.flatten_cons, List.cons_append] at h
    rcases List.append_eq_append_iff.1 h with ⟨a, hp, ha⟩ | ⟨a, hr0, ha⟩
    · cases a with
      | nil =>
        simp only [List.nil_append, List.cons.injEq, true_and] at ha
        subst ha
        exact runs_head r1 _ h1
      | cons d a =>
        simp only [List.cons_append, List.cons.injEq] at ha
        exact ih r1 h1 hrs1 a q ha.2
    · cases a with
      | nil =>
        simp only [List.nil_append, List.cons.injEq, true_and] at ha
        subst ha
        exact runs_head r1 _ h1
      | cons d a =>
        simp only [List.cons_append, List.cons.injEq] at ha
        exact absurd (h0.2 '-' (by rw [hr0, ha.1]; simp)) hyphen_not_mem_nameChars

theorem utf8Size_eq_one_of_ascii (c : Char) (h : c.toNat ≤ 127) : c.utf8Size = 1 := by
  have h1 : c.val ≤ UInt32.ofNatCore 127 (by decide) := h
  unfold Char.utf8Size
  simp only [h1, if_true]

theorem utf8ByteSize_go_eq_length (cs : List Char) (h : ∀ c ∈ cs, c.toNat ≤ 127) :
    String.utf8ByteSize.go cs = cs.length := by
  induction cs with
  | nil => rfl
  | cons c cs ih =>
    rw [String.utf8ByteSize.go, ih (fun d hd => h d (by simp [hd])),
      utf8Size_eq_one_of_ascii c (h c (by simp)), List.length_cons]

theorem nameChars_ascii : ∀ c ∈ nameChars, c.toNat ≤ 127 := by decide

/-- A text that matches the name pattern is ASCII, so Go's `len` counts its characters. -/
theorem utf8ByteSize_of_matches (s : String) (h : s.toList ∈ skillNameRe.matches') :
    s.utf8ByteSize = s.length := by
  obtain ⟨r0, rs, h0, hrs, hx⟩ := (skillNameRe_matches _).1 h
  have hall : ∀ c ∈ s.toList, c.toNat ≤ 127 := by
    intro c hc
    rw [hx] at hc
    rcases runs_chars r0 rs h0 hrs c hc with h | rfl
    · exact nameChars_ascii c h
    · decide
  exact utf8ByteSize_go_eq_length s.toList hall

theorem validateSkillName_eq_none_iff (s : String) :
    validateSkillName s = none ↔ (s.toList ∈ skillNameRe.matches' ∧ s.length ≤ 40) := by
  have hm : MatchString skillNameRe s = true ↔ s.toList ∈ skillNameRe.matches' := by
    unfold MatchString
    exact RegularExpression.rmatch_iff_matches' _ _
  constructor
  · intro h
    unfold validateSkillName at h
    split_ifs at h with h1 h2 h3
    have h2 : MatchString skillNameRe s = true := by simpa using h2
    have hmem := hm.1 h2
    refine ⟨hmem, ?_⟩
    rw [← utf8ByteSize_of_matches s hmem]
    omega
  · rintro ⟨hmem, hlen⟩
    have hne : s ≠ "" := by
      rintro rfl
      obtain ⟨r0, rs, h0, _, hx⟩ := (skillNameRe_matches _).1 hmem
      cases r0 with
      | nil => exact h0.1 rfl
      | cons c r => simp at hx
    have hb : ¬ s.utf8ByteSize > 40 := by
      rw [utf8ByteSize_of_matches s hmem]
      omega
    unfold validateSkillName
    simp [hne, hm.2 hmem, hb]

theorem not_matches_of_bad_char (s : String)
    (h : ∃ c ∈ s.toList, c.isUpper = true ∨ 128 ≤ c.toNat) :
    s.toList ∉ skillNameRe.matches' := by
  intro hmem
  obtain ⟨c, hc, hbad⟩ := h
  obtain ⟨r0, rs, h0, hrs, hx⟩ := (skillNameRe_matches _).1 hmem
  rw [hx] at hc
  have hgood : ∀ d ∈ nameChars, ¬ (d.isUpper = true ∨ 128 ≤ d.toNat) := by decide
  rcases runs_chars r0 rs h0 hrs c hc with h | rfl
  · exact hgood c h hbad
  · revert hbad
    decide

/-- C3: `validateSkillName s` returns no error exactly when `s` matches
`^[a-z0-9]+(-[a-z0-9]+)*$` and has at most 40 characters, where matching the pattern
is being one or more non-empty runs of lowercase ASCII letters or digits joined by
single hyphens. The empty string, a leading, trailing or doubled hyphen, an uppercase
or non-ASCII character and a matching text of 41 or more characters are rejected; a
matching text of exactly 40 characters is accepted. -/
theorem validateSkillName_accepts_iff (s : String) :
    (validateSkillName s = none ↔ (s.toList ∈ skillNameRe.matches' ∧ s.length ≤ 40)) ∧
    (s.toList ∈ skillNameRe.matches' ↔ HyphenCase s.toList) ∧
    (s = "" → validateSkillName s ≠ none) ∧
    (s.toList.head? = some '-' → validateSkillName s ≠ none) ∧
    (s.toList.getLast? = some '-' → validateSkillName s ≠ none) ∧
    (['-', '-'] <:+: s.toList → validateSkillName s ≠ none) ∧
    ((∃ c ∈ s.toList, c.isUpper = true ∨ 128 ≤ c.toNat) → validateSkillName s ≠ none) ∧
    (s.toList ∈ skillNameRe.matches' → 41 ≤ s.length → validateSkillName s ≠ none) ∧
    (s.toList ∈ skillNameRe.matches' → s.length = 40 → validateSkillName s = none) := by
  have hiff := validateSkillName_eq_none_iff s
  have hdecomp : validateSkillName s = none →
      ∃ (r0 : List Char) (rs : List (List Char)), IsRun r0 ∧ (∀ r ∈ rs, IsRun r) ∧
        s.toList = r0 ++ (rs.map (fun r => '-' :: r)).flatten :=
    fun h => (skillNameRe_matches _).1 (hiff.1 h).1
  refine ⟨hiff, (hyphenCase_iff_matches _).symm, ?_, ?_, ?_, ?_, ?_, ?_, ?_⟩
  · rintro rfl
    decide
  · intro hhead h
    obtain ⟨r0, rs, h0, _, hx⟩ := hdecomp h
    obtain ⟨c, u, hcu, hc⟩ := runs_head r0 ((rs.map (fun r => '-' :: r)).flatten) h0
    rw [hx, hcu] at hhead
    simp only [List.head?_cons, Option.some.injEq] at hhead
    exact hyphen_not_mem_nameChars (hhead ▸ hc)
  · intro hlast h
    obtain ⟨r0, rs, h0, hrs, hx⟩ := hdecomp h
    obtain ⟨p, hp⟩ := List.getLast?_eq_some_iff.1 hlast
    obtain ⟨c, u, hq, _⟩ := runs_hyphen_followed rs r0 h0 hrs p [] (hx ▸ hp)
    exact List.noConfusion hq
  · rintro ⟨p, q, hpq⟩ h
    obtain ⟨r0, rs, h0, hrs, hx⟩ := hdecomp h
    have hform : r0 ++ (rs.map (fun r => '-' :: r)).flatten = p ++ '-' :: ('-' :: q) := by
      rw [← hx, ← hpq]
      simp
    obtain ⟨c, u, hq, hc⟩ := runs_hyphen_followed rs r0 h0 hrs p ('-' :: q) hform
    simp only [List.cons.injEq] at hq
    exact hyphen_not_mem_nameChars (hq.1 ▸ hc)
  · intro hbad h
    exact not_matches_of_bad_char s hbad (hiff.1 h).1
  · intro _ hlen h
    have := (hiff.1 h).2
    omega
  · intro hmem hlen
    exact hiff.2 ⟨hmem, by omega⟩

/-- C3 at concrete names: a 40-character hyphen-case name is accepted, a name with a
doubled hyphen is rejected. -/
theorem validateSkillName_accepts_iff_witness :
    validateSkillName "abcdefghij-0123456789-abcdefghij-0123456" = none ∧
    validateSkillName "my--skill" ≠ none :=
  ⟨(validateSkillName_accepts_iff "abcdefghij-0123456789-abcdefghij-0123456").2.2.2.2.2.2.2.2
      ((validateSkillName_accepts_iff _).2.1.2
        ⟨["abcdefghij".toList, "0123456789".toList, "abcdefghij".toList, "0123456".toList],
          by decide, by decide, by decide⟩)
      (by decide),
   (validateSkillName_accepts_iff "my--skill").2.2.2.2.2.1 ⟨"my".toList, "skill".toList, by decide⟩⟩


/-! ### Validation -/

theorem isNotExist_iff (e : Errno) : IsNotExist e = true ↔ e = .ENOENT := by
  cases e <;> simp [IsNotExist]

theorem notExist_iff (fs : Node) (p : Path) :
    NotExist fs p = true ↔ Stat fs p = .error .ENOENT := by
  unfold NotExist
  cases hs : Stat fs p with
  | ok info => simp
  | error e => cases e <;> simp [IsNotExist]

theorem fileMissing_not_dirNameMismatch (p f : String) : ¬ IsDirNameMismatch (fileMissing p f) := by
  rintro ⟨a, b, h⟩
  have h2 := congrArg (fun s : String => s.data.head?) h
  simp [fileMissing, dirNameMismatch, String.data_append] at h2

/-- One pass of the loop body adds the report of that file at the end. -/
theorem checkFile_eq (fs : Node) (d : Path) (errors : List String) (value field : String) :
    checkFile fs d errors (value, field) = errors ++ missingFileReport fs d value field := by
  unfold checkFile missingFileReport
  by_cases hv : value = ""
  · simp [hv]
  · simp only [ne_eq, hv, not_false_eq_true, if_true, true_and, NotExist]
    cases hs : Stat fs (joinPath d value) with
    | ok info => simp
    | error e =>
      cases e <;> simp [IsNotExist, fileMissing]

theorem missingFileReport_not_mismatch (fs : Node) (d : Path) (value field : String) :
    ∀ v ∈ missingFileReport fs d value field, ¬ IsDirNameMismatch v := by
  intro v hv
  unfold missingFileReport at hv
  split_ifs at hv
  · simp only [List.mem_singleton] at hv
    subst hv
    exact fileMissing_not_dirNameMismatch value field
  · simp at hv

/-- The violations of `performFileSystemChecks` in the order it reports them. -/
theorem performFileSystemChecks_eq (L : Libs) (fs : Node) (d m : Path) :
    performFileSystemChecks L fs d m =
      (if Base d ≠ L.jsonField (readFileOrEmpty fs m) "name" then
        [dirNameMismatch (Base d) (L.jsonField (readFileOrEmpty fs m) "name")] else []) ++
      (missingFileReport fs d (L.jsonField (readFileOrEmpty fs m) "icon") "icon" ++
       (missingFileReport fs d (L.jsonField (readFileOrEmpty fs m) "licenseFile") "licenseFile" ++
        missingFileReport fs d (L.jsonField (readFileOrEmpty fs m) "entrypoint") "entrypoint")) := by
  unfold performFileSystemChecks
  simp only [List.foldl_cons, List.foldl_nil, checkFile_eq, List.nil_append, List.append_assoc]

/-- C4: `performFileSystemChecks` reports the directory-name violation exactly when
the basename of the skill directory differs from the manifest name under exact string
comparison. When the two are equal no violation of that kind is reported; when they
differ exactly one is reported, first in the list, and it quotes the basename and the
manifest name. -/
theorem performFileSystemChecks_dirName (L : Libs) (fs : Node) (d m : Path) (n : String)
    (hn : L.jsonField (readFileOrEmpty fs m) "name" = n) :
    (Base d = n → ∀ v ∈ performFileSystemChecks L fs d m, ¬ IsDirNameMismatch v) ∧
    (Base d ≠ n → ∃ rest,
      performFileSystemChecks L fs d m =
        ("Directory name ('" ++ Base d ++ "') does not match 'name' in skill.json ('"
          ++ n ++ "').") :: rest ∧
      ∀ v ∈ rest, ¬ IsDirNameMismatch v) := by
  have hrest : ∀ v ∈
      missingFileReport fs d (L.jsonField (readFileOrEmpty fs m) "icon") "icon" ++
       (missingFileReport fs d (L.jsonField (readFileOrEmpty fs m) "licenseFile") "licenseFile" ++
        missingFileReport fs d (L.jsonField (readFileOrEmpty fs m) "entrypoint") "entrypoint"),
      ¬ IsDirNameMismatch v := by
    intro v hv
    simp only [List.mem_append] at hv
    rcases hv with hv | hv | hv <;> exact missingFileReport_not_mismatch _ _ _ _ v hv
  rw [performFileSystemChecks_eq, hn]
  constructor
  · intro heq v hv
    rw [if_neg (by simpa using heq), List.nil_append] at hv
    exact hrest v hv
  · intro hne
    rw [if_pos hne]
    exact ⟨_, rfl, hrest⟩

/-- C4 on the example skill: walked from `/home/foo`, whose manifest names `foo`, no
directory-name violation; from `/home`, one that quotes `home` and `foo`. -/
theorem performFileSystemChecks_dirName_witness :
    exLibs.jsonField (readFileOrEmpty exFs ["home", "foo", "skill.json"]) "name" = "foo" ∧
    (∀ v ∈ performFileSystemChecks exLibs exFs ["home", "foo"] ["home", "foo", "skill.json"],
      ¬ IsDirNameMismatch v) ∧
    (∃ rest, performFileSystemChecks exLibs exFs ["home"] ["home", "foo", "skill.json"] =
        ("Directory name ('" ++ Base ["home"] ++ "') does not match 'name' in skill.json ('"
          ++ "foo" ++ "').") :: rest ∧
      ∀ v ∈ rest, ¬ IsDirNameMismatch v) :=
  ⟨by decide,
   (performFileSystemChecks_dirName exLibs exFs ["home", "foo"] ["home", "foo", "skill.json"]
      "foo" (by decide)).1 (by decide),
   (performFileSystemChecks_dirName exLibs exFs ["home"] ["home", "foo", "skill.json"]
      "foo" (by decide)).2 (by decide)⟩

/-- The report of the declared files: after the directory-name check,
`performFileSystemChecks` reports on `icon`, `licenseFile` and `entrypoint` in that
order; for each of them it adds the violation
`File '<value>' declared in '<field>' field does not exist.` exactly when the value is
not empty and `os.Stat` fails with `ENOENT` on the path joined from the skill directory
and the value, and nothing otherwise; an empty value adds nothing. -/
theorem performFileSystemChecks_files (L : Libs) (fs : Node) (d m : Path)
    (icon licenseFile entrypoint : String)
    (hi : L.jsonField (readFileOrEmpty fs m) "icon" = icon)
    (hl : L.jsonField (readFileOrEmpty fs m) "licenseFile" = licenseFile)
    (he : L.jsonField (readFileOrEmpty fs m) "entrypoint" = entrypoint) :
    (∃ nameReport, (∀ v ∈ nameReport, IsDirNameMismatch v) ∧
      performFileSystemChecks L fs d m =
        nameReport ++ (missingFileReport fs d icon "icon" ++
          (missingFileReport fs d licenseFile "licenseFile" ++
            missingFileReport fs d entrypoint "entrypoint"))) ∧
    (∀ value field : String,
      (value ≠ "" ∧ Stat fs (joinPath d value) = .error .ENOENT →
        missingFileReport fs d value field =
          ["File '" ++ value ++ "' declared in '" ++ field ++ "' field does not exist."]) ∧
      (¬ (value ≠ "" ∧ Stat fs (joinPath d value) = .error .ENOENT) →
        missingFileReport fs d value field = []) ∧
      (value = "" → missingFileReport fs d value field = [])) := by
  constructor
  · refine ⟨_, ?_, by rw [performFileSystemChecks_eq, hi, hl, he]⟩
    intro v hv
    split_ifs at hv
    · simp only [List.mem_singleton] at hv
      exact ⟨_, _, hv⟩
    · simp at hv
  · intro value field
    unfold missingFileReport
    rw [← notExist_iff]
    refine ⟨fun h => if_pos h, fun h => if_neg h, fun h => if_neg (fun h2 => h2.1 h)⟩

/-- The report of the declared files of the example manifest checked against `/home`,
where none of its three files exists: the three violations, in the order icon,
licenseFile, entrypoint. -/
theorem performFileSystemChecks_files_witness :
    exLibs.jsonField (readFileOrEmpty exFs ["home", "foo", "skill.json"]) "icon" = "icon.svg" ∧
    (∃ nameReport, (∀ v ∈ nameReport, IsDirNameMismatch v) ∧
      performFileSystemChecks exLibs exFs ["home"] ["home", "foo", "skill.json"] =
        nameReport ++ (missingFileReport exFs ["home"] "icon.svg" "icon" ++
          (missingFileReport exFs ["home"] "LICENSE" "licenseFile" ++
            missingFileReport exFs ["home"] "README.md" "entrypoint"))) ∧
    missingFileReport exFs ["home"] "icon.svg" "icon" =
      ["File 'icon.svg' declared in 'icon' field does not exist."] :=
  ⟨by decide,
   (performFileSystemChecks_files exLibs exFs ["home"] ["home", "foo", "skill.json"]
      "icon.svg" "LICENSE" "README.md" (by decide) (by decide) (by decide)).1,
   by decide⟩

theorem doValidation_of_read_error (L : Libs) (fs : Node) (d : Path) (e : Errno)
    (hread : ReadFile fs (joinPath d "skill.json") = .error e) :
    doValidation L fs d = [manifestNotFound] := by
  unfold doValidation
  simp only [hread]
  rfl

theorem doValidation_of_schema_error (L : Libs) (fs : Node) (d : Path) (content err : String)
    (hread : ReadFile fs (joinPath d "skill.json") = .ok content)
    (hval : L.schemaValidate content = .error err) :
    doValidation L fs d = ["Error during validation: " ++ err] := by
  unfold doValidation
  simp only [hread, hval]
  rfl

/-- The result of `doValidation` when the schema validator returns a result. -/
theorem doValidation_of_schema_result (L : Libs) (fs : Node) (d : Path) (content : String)
    (errs : List String)
    (hread : ReadFile fs (joinPath d "skill.json") = .ok content)
    (hval : L.schemaValidate content = .ok errs) :
    doValidation L fs d =
      if errs = [] then
        (if performFileSystemChecks L fs d (joinPath d "skill.json") = [] then []
         else fsHeader :: (performFileSystemChecks L fs d (joinPath d "skill.json")).map bullet)
      else schemaHeader :: (errs.map bullet ++
        (performFileSystemChecks L fs d (joinPath d "skill.json")).map bullet) := by
  unfold doValidation
  simp only [hread, hval]
  generalize performFileSystemChecks L fs d (joinPath d "skill.json") = fsv
  cases errs with
  | nil =>
    cases fsv with
    | nil => simp
    | cons v vs => simp
  | cons e es =>
    cases fsv with
    | nil => simp
    | cons v vs => simp

/-- C6: when `skill.json` is read and the schema validator processes it,
`doValidation` returns the empty list exactly when the schema reports no error and the
filesystem checks report no violation; with schema errors it returns the schema header,
the schema errors in the validator's order, then the filesystem violations in the
checker's order; with no schema error and some filesystem violation it returns the
filesystem header and those violations. -/
theorem doValidation_order (L : Libs) (fs : Node) (d : Path) (content : String)
    (errs : List String)
    (hread : ReadFile fs (joinPath d "skill.json") = .ok content)
    (hval : L.schemaValidate content = .ok errs) :
    (doValidation L fs d = [] ↔
      errs = [] ∧ performFileSystemChecks L fs d (joinPath d "skill.json") = []) ∧
    (errs ≠ [] → doValidation L fs d =
      schemaHeader :: (errs.map bullet ++
        (performFileSystemChecks L fs d (joinPath d "skill.json")).map bullet)) ∧
    (errs = [] → performFileSystemChecks L fs d (joinPath d "skill.json") ≠ [] →
      doValidation L fs d =
        fsHeader :: (performFileSystemChecks L fs d (joinPath d "skill.json")).map bullet) := by
  rw [doValidation_of_schema_result L fs d content errs hread hval]
  generalize performFileSystemChecks L fs d (joinPath d "skill.json") = fsv
  refine ⟨?_, fun he => if_neg he, fun he hf => by rw [if_pos he, if_neg hf]⟩
  by_cases he : errs = []
  · by_cases hf : fsv = []
    · simp [he, hf]
    · simp [he, hf]
  · simp [he]

/-- C6 on the example skill, in which the validator finds no error and the filesystem
checks find no violation: `doValidation` returns the empty list. -/
theorem doValidation_order_witness :
    ReadFile exFs (joinPath ["home", "foo"] "skill.json") = .ok exManifest ∧
    exLibs.schemaValidate exManifest = .ok [] ∧
    doValidation exLibs exFs ["home", "foo"] = [] :=
  ⟨rfl, rfl,
   (doValidation_order exLibs exFs ["home", "foo"] exManifest [] rfl rfl).1.2
     ⟨rfl, by decide⟩⟩

/-- C7: when `skill.json` cannot be read, `doValidation` returns the one diagnostic
that `skill.json` was not found, whatever the schema validator and the JSON decoder
would answer: neither the schema validation nor the filesystem checks contribute. -/
theorem doValidation_unreadable (fs : Node) (d : Path) (e : Errno)
    (hread : ReadFile fs (joinPath d "skill.json") = .error e) :
    ∀ L : Libs, doValidation L fs d =
      ["Validation failed: skill.json not found in the current directory. Ensure you are in a valid skill directory."] := by
  intro L
  exact doValidation_of_read_error L fs d e hread

/-- C7 on `/home` of the example, which has no `skill.json`. -/
theorem doValidation_unreadable_witness :
    ReadFile exFs (joinPath ["home"] "skill.json") = .error .ENOENT ∧
    doValidation exLibs exFs ["home"] =
      ["Validation failed: skill.json not found in the current directory. Ensure you are in a valid skill directory."] :=
  ⟨rfl, doValidation_unreadable exFs ["home"] .ENOENT rfl exLibs⟩

/-- C8, as amended: when `skill.json` is readable and the schema validator returns a
result, with or without errors, every filesystem violation appears in the result of
`doValidation`; when the validator fails on the document itself, `doValidation`
returns only that failure and no filesystem violation. -/
theorem doValidation_fs_violations (L : Libs) (fs : Node) (d : Path) (content : String)
    (hread : ReadFile fs (joinPath d "skill.json") = .ok content) :
    (∀ errs, L.schemaValidate content = .ok errs →
      ∀ v ∈ performFileSystemChecks L fs d (joinPath d "skill.json"),
        bullet v ∈ doValidation L fs d) ∧
    (∀ err, L.schemaValidate content = .error err →
      doValidation L fs d = ["Error during validation: " ++ err]) := by
  constructor
  · intro errs hval v hv
    have hne : performFileSystemChecks L fs d (joinPath d "skill.json") ≠ [] :=
      List.ne_nil_of_mem hv
    rw [doValidation_of_schema_result L fs d content errs hread hval]
    by_cases he : errs = []
    · rw [if_pos he, if_neg hne]
      exact List.mem_cons_of_mem _ (List.mem_map_of_mem _ hv)
    · rw [if_neg he]
      exact List.mem_cons_of_mem _ (List.mem_append_right _ (List.mem_map_of_mem _ hv))
  · intro err hval
    exact doValidation_of_schema_error L fs d content err hread hval

/-- C8, as amended, on the directory with the cut-off manifest: the validator fails on
the document and `doValidation` returns that failure alone. -/
theorem doValidation_fs_violations_witness :
    ReadFile exBrokenFs (joinPath ["home", "bar"] "skill.json") = .ok "\x7b" ∧
    doValidation exLibs exBrokenFs ["home", "bar"] =
      ["Error during validation: " ++ "unexpected EOF"] :=
  ⟨rfl, (doValidation_fs_violations exLibs exBrokenFs ["home", "bar"] "\x7b" rfl).2
    "unexpected EOF" rfl⟩

/-- C8 as stated fails: in `/home/bar` the manifest is readable, the filesystem checks
report a directory-name violation, and the result of `doValidation` is the failure of
the validator on the document alone, without that violation. -/
theorem doValidation_schema_failure_drops_fs_violations :
    ReadFile exBrokenFs (joinPath ["home", "bar"] "skill.json") = .ok "\x7b" ∧
    dirNameMismatch "bar" "" ∈
      performFileSystemChecks exLibs exBrokenFs ["home", "bar"]
        (joinPath ["home", "bar"] "skill.json") ∧
    doValidation exLibs exBrokenFs ["home", "bar"] =
      ["Error during validation: unexpected EOF"] ∧
    bullet (dirNameMismatch "bar" "") ∉ doValidation exLibs exBrokenFs ["home", "bar"] ∧
    dirNameMismatch "bar" "" ∉ doValidation exLibs exBrokenFs ["home", "bar"] :=
  ⟨rfl, by decide, by decide, by decide, by decide⟩

/-! ### Paths -/

theorem validName_iff (s : String) :
    validName s = true ↔ s ≠ "" ∧ s ≠ "." ∧ s ≠ ".." ∧ '/' ∉ s.toList := by
  simp [validName, and_assoc]

theorem splitOnSlash_ne_nil (cs : List Char) : splitOnSlash cs ≠ [] := by
  cases cs with
  | nil => simp [splitOnSlash]
  | cons c cs =>
    unfold splitOnSlash
    split_ifs
    · simp
    · split <;> simp

theorem splitOnSlash_of_not_mem (cs : List Char) (h : '/' ∉ cs) : splitOnSlash cs = [cs] := by
  induction cs with
  | nil => rfl
  | cons c cs ih =>
    have hc : c ≠ '/' := fun hc => h (by simp [hc])
    have hcs : '/' ∉ cs := fun hcs => h (by simp [hcs])
    simp [splitOnSlash, hc, ih hcs]

theorem splitOnSlash_append_slash (a b : List Char) (h : '/' ∉ a) :
    splitOnSlash (a ++ '/' :: b) = a :: splitOnSlash b := by
  induction a with
  | nil => simp [splitOnSlash]
  | cons c a ih =>
    have hc : c ≠ '/' := fun hc => h (by simp [hc])
    have ha : '/' ∉ a := fun ha => h (by simp [ha])
    simp [splitOnSlash, hc, ih ha]

theorem splitOnSlash_not_mem (cs : List Char) : ∀ e ∈ splitOnSlash cs, '/' ∉ e := by
  induction cs with
  | nil => simp [splitOnSlash]
  | cons c cs ih =>
    intro e he
    unfold splitOnSlash at he
    split_ifs at he with hc
    · rcases List.mem_cons.1 he with rfl | he
      · simp
      · exact ih e he
    · revert he
      cases hs : splitOnSlash cs with
      | nil => exact absurd hs (splitOnSlash_ne_nil cs)
      | cons x xs =>
        intro he
        simp only [List.mem_cons] at he
        rcases he with rfl | he
        · intro hmem
          rcases List.mem_cons.1 hmem with h1 | h1
          · exact hc h1.symm
          · exact ih x (by simp [hs]) h1
        · exact ih e (by simp [hs, he])

/-- Splitting the join of slash-free elements gives the elements back. -/
theorem splitOnSlash_intercalate (c : List Char) (cs : List (List Char))
    (h : ∀ e ∈ c :: cs, '/' ∉ e) :
    splitOnSlash (List.intercalate ['/'] (c :: cs)) = c :: cs := by
  induction cs generalizing c with
  | nil =>
    simp only [List.intercalate, List.intersperse, List.flatten_cons, List.flatten_nil,
      List.append_nil]
    exact splitOnSlash_of_not_mem c (h c (by simp))
  | cons d cs ih =>
    have hd := ih d (fun e he => h e (by simp [List.mem_cons.1 he]))
    rw [intercalate_cons_eq] at hd ⊢
    simp only [List.map_cons, List.flatten_cons, List.singleton_append, List.cons_append,
      List.nil_append] at hd ⊢
    rw [splitOnSlash_append_slash _ _ (h c (by simp)), hd]

theorem pathElems_not_mem (s : String) : ∀ e ∈ pathElems s, '/' ∉ e.toList := by
  intro e he
  simp only [pathElems, List.mem_map] at he
  obtain ⟨x, hx, rfl⟩ := he
  exact splitOnSlash_not_mem _ x hx

theorem joinSlash_toList (cs : List String) :
    (joinSlash cs).toList = List.intercalate ['/'] (cs.map String.toList) := rfl

theorem pathElems_joinSlash (c : String) (cs : List String)
    (h : ∀ e ∈ c :: cs, validName e = true) : pathElems (joinSlash (c :: cs)) = c :: cs := by
  unfold pathElems
  rw [joinSlash_toList, List.map_cons, splitOnSlash_intercalate]
  · simp only [List.map_cons, List.map_map, List.cons.injEq]
    refine ⟨rfl, ?_⟩
    have : (String.mk ∘ String.toList) = id := funext fun s => rfl
    rw [this, List.map_id]
  · intro e he
    rw [← List.map_cons, List.mem_map] at he
    obtain ⟨s, hs, rfl⟩ := he
    exact ((validName_iff s).1 (h s hs)).2.2.2

theorem cleanStep_valid (rooted : Bool) (stack : List String) (e : String)
    (h : validName e = true) : cleanStep rooted stack e = stack ++ [e] := by
  obtain ⟨h1, h2, h3, _⟩ := (validName_iff e).1 h
  simp [cleanStep, h1, h2, h3]

theorem foldl_cleanStep_valid (rooted : Bool) (es : List String)
    (h : ∀ e ∈ es, validName e = true) (stack : List String) :
    es.foldl (cleanStep rooted) stack = stack ++ es := by
  induction es generalizing stack with
  | nil => simp
  | cons e es ih =>
    rw [List.foldl_cons, cleanStep_valid rooted stack e (h e (by simp)),
      ih (fun x hx => h x (by simp [hx]))]
    simp

theorem pathElems_valid (name : String) (h : validName name = true) :
    pathElems name = [name] := by
  unfold pathElems
  rw [splitOnSlash_of_not_mem _ ((validName_iff name).1 h).2.2.2]
  rfl

/-- Joining a directory with the name of one of its entries appends the name. -/
theorem joinPath_valid (p : Path) (name : String) (h : validName name = true) :
    joinPath p name = p ++ [name] := by
  unfold joinPath
  rw [pathElems_valid name h, List.foldl_cons, List.foldl_nil, cleanStep_valid _ _ _ h]

theorem cleanStep_rooted_allValid (stack : List String) (e : String)
    (hs : ∀ c ∈ stack, validName c = true) (he : '/' ∉ e.toList) :
    ∀ c ∈ cleanStep true stack e, validName c = true := by
  unfold cleanStep
  by_cases h1 : e = "" ∨ e = "."
  · rw [if_pos h1]
    exact hs
  · rw [if_neg h1]
    by_cases h2 : e = ".."
    · rw [if_pos h2]
      cases hl : stack.getLast? with
      | none => simpa using hs
      | some t =>
        have ht : t ∈ stack := List.mem_of_getLast?_eq_some hl
        have hv := (validName_iff t).1 (hs t ht)
        simp only [ne_eq, hv.2.2.1, not_false_eq_true, if_true]
        intro c hc
        exact hs c (List.dropLast_subset _ hc)
    · rw [if_neg h2]
      intro c hc
      rcases List.mem_append.1 hc with hc | hc
      · exact hs c hc
      · simp only [List.mem_singleton] at hc
        subst hc
        rw [validName_iff]
        simp only [not_or] at h1
        exact ⟨h1.1, h1.2, h2, he⟩

theorem joinPath_allValid (p : Path) (s : String) (hp : ∀ c ∈ p, validName c = true) :
    ∀ c ∈ joinPath p s, validName c = true := by
  unfold joinPath
  have hel := pathElems_not_mem s
  generalize pathElems s = es at hel
  induction es generalizing p with
  | nil => simpa using hp
  | cons e es ih =>
    rw [List.foldl_cons]
    exact ih _ (cleanStep_rooted_allValid p e hp (hel e (by simp)))
      (fun x hx => hel x (by simp [hx]))

theorem joinSlash_cons_cons (n c : String) (cs : List String) :
    joinSlash (n :: c :: cs) = n ++ "/" ++ joinSlash (c :: cs) := by
  apply String.ext
  simp only [joinSlash, List.map_cons, String.data_append, intercalate_cons_eq]
  simp

/-- `filepath.Clean` leaves a relative path of valid names as it is. -/
theorem Clean_joinSlash (c : String) (cs : List String)
    (h : ∀ e ∈ c :: cs, validName e = true) :
    Clean (joinSlash (c :: cs)) = joinSlash (c :: cs) := by
  obtain ⟨hc1, _, _, hc4⟩ := (validName_iff c).1 (h c (by simp))
  have hdata : (joinSlash (c :: cs)).toList =
      c.toList ++ ((cs.map String.toList).map (fun r => ['/'] ++ r)).flatten := by
    rw [joinSlash_toList, List.map_cons, intercalate_cons_eq]
  have hcne : c.toList ≠ [] := fun hnil => hc1 (String.ext hnil)
  obtain ⟨x, xs, hx⟩ := List.exists_cons_of_ne_nil hcne
  have hxs : x ≠ '/' := fun hxe => hc4 (by rw [hx, hxe]; simp)
  have hrooted : decide ((joinSlash (c :: cs)).toList.head? = some '/') = false := by
    rw [hdata, hx]
    simpa using hxs
  have hne : joinSlash (c :: cs) ≠ "" := by
    intro hempty
    have := congrArg String.toList hempty
    rw [hdata, hx] at this
    simp at this
  unfold Clean
  simp only [hrooted, Bool.false_eq_true, if_false]
  rw [pathElems_joinSlash c cs h, foldl_cleanStep_valid false _ h, List.nil_append]
  have happ : "" ++ joinSlash (c :: cs) = joinSlash (c :: cs) := String.ext (by simp)
  rw [happ, if_neg hne]

/-- `filepath.Join` of a valid name and a relative path of valid names puts a slash
between them. -/
theorem Join_valid (n c : String) (cs : List String) (hn : validName n = true)
    (h : ∀ e ∈ c :: cs, validName e = true) :
    Join n (joinSlash (c :: cs)) = n ++ "/" ++ joinSlash (c :: cs) := by
  have hn1 := ((validName_iff n).1 hn).1
  unfold Join
  rw [if_pos hn1, ← joinSlash_cons_cons, Clean_joinSlash]
  intro e he
  rcases List.mem_cons.1 he with rfl | he
  · exact hn
  · exact h e he

theorem dropCommon_append (base rel : Path) : dropCommon base (base ++ rel) = ([], rel) := by
  induction base with
  | nil => cases rel <;> rfl
  | cons b bs ih => simp [dropCommon, ih]

/-- `filepath.Rel` of a path below the base is the rest of the path. -/
theorem Rel_append (base : Path) (c : String) (cs : List String) :
    Rel base (base ++ c :: cs) = joinSlash (c :: cs) := by
  unfold Rel
  have hne : base ++ c :: cs ≠ base := by
    intro h
    have := congrArg List.length h
    simp at this
  rw [if_neg hne, dropCommon_append]
  rfl

/-! ### Trees -/

theorem wfChildren_cons (name : String) (n : Node) (rest : List (String × Node)) :
    wfChildren ((name, n) :: rest) = true ↔
      validName name = true ∧ name ∉ rest.map Prod.fst ∧ n.wf = true ∧
        wfChildren rest = true := by
  rw [wfChildren]
  simp [and_assoc]

/-- In a well-formed directory an entry has a valid name, is well formed, and is the
entry found under its name. -/
theorem wfChildren_mem (cs : List (String × Node)) (h : wfChildren cs = true)
    (name : String) (child : Node) (hm : (name, child) ∈ cs) :
    validName name = true ∧ child.wf = true ∧ cs.lookup name = some child := by
  induction cs with
  | nil => simp at hm
  | cons x rest ih =>
    obtain ⟨k, v⟩ := x
    obtain ⟨h1, h2, h3, h4⟩ := (wfChildren_cons k v rest).1 h
    rcases List.mem_cons.1 hm with heq | hm
    · simp only [Prod.mk.injEq] at heq
      obtain ⟨rfl, rfl⟩ := heq
      exact ⟨h1, h3, by simp [List.lookup]⟩
    · obtain ⟨i1, i2, i3⟩ := ih h4 hm
      refine ⟨i1, i2, ?_⟩
      have hne : name ≠ k := by
        intro hk
        exact h2 (List.mem_map.2 ⟨(name, child), hm, hk⟩)
      have hb : (name == k) = false := by simpa using hne
      simp only [List.lookup, hb]
      exact i3

theorem wf_dir (cs : List (String × Node)) : (Node.dir cs).wf = wfChildren cs := by
  rw [Node.wf]

/-- In a well-formed tree a node that is reached is the node the path resolves to, it
is well formed, and the names on the way are valid. -/
theorem Reach.lookup_of_wf {t : Node} {rel : Path} {n : Node} (hr : Reach t rel n)
    (hwf : t.wf = true) :
    t.lookup rel = .ok n ∧ n.wf = true ∧ ∀ c ∈ rel, validName c = true := by
  induction hr with
  | nil n => exact ⟨by cases n <;> rfl, hwf, by simp⟩
  | cons hm _ ih =>
    rw [wf_dir] at hwf
    obtain ⟨h1, h2, h3⟩ := wfChildren_mem _ hwf _ _ hm
    obtain ⟨i1, i2, i3⟩ := ih h2
    refine ⟨?_, i2, ?_⟩
    · rw [Node.lookup, h3]
      exact i1
    · intro c hc
      rcases List.mem_cons.1 hc with rfl | hc
      · exact h1
      · exact i3 c hc

theorem mem_insertByName (x y : String × Node) (l : List (String × Node)) :
    y ∈ insertByName x l ↔ y = x ∨ y ∈ l := by
  induction l with
  | nil => simp [insertByName]
  | cons z l ih =>
    unfold insertByName
    split_ifs
    · simp
    · simp only [List.mem_cons, ih]
      tauto

theorem mem_sortChildren (cs : List (String × Node)) (name : String) (c : Node)
    (h : (name, c) ∈ sortChildren cs) : ∃ c0, (name, c0) ∈ cs ∧ c = c0.sorted := by
  induction cs with
  | nil => simp [sortChildren] at h
  | cons x rest ih =>
    obtain ⟨k, v⟩ := x
    rw [sortChildren, mem_insertByName] at h
    rcases h with heq | h
    · simp only [Prod.mk.injEq] at heq
      obtain ⟨rfl, rfl⟩ := heq
      exact ⟨v, by simp, rfl⟩
    · obtain ⟨c0, hc0, rfl⟩ := ih h
      exact ⟨c0, by simp [hc0], rfl⟩

theorem isDir_sorted (n : Node) : n.sorted.isDir = n.isDir := by
  cases n <;> simp [Node.sorted, Node.isDir]

/-- A node reached in the sorted tree is the sorted form of the node reached by the
same path in the tree. -/
theorem Reach.of_sorted {t : Node} {rel : Path} {n : Node} (hr : Reach t rel n) :
    ∀ t0 : Node, t = t0.sorted → ∃ n0, Reach t0 rel n0 ∧ n = n0.sorted := by
  induction hr with
  | nil n => exact fun t0 h => ⟨t0, Reach.nil t0, h⟩
  | cons hm _ ih =>
    intro t0 ht0
    cases t0 with
    | file c r => simp [Node.sorted] at ht0
    | dir cs0 =>
      simp only [Node.sorted, Node.dir.injEq] at ht0
      subst ht0
      obtain ⟨c0, hc0, rfl⟩ := mem_sortChildren cs0 _ _ hm
      obtain ⟨n0, hn0, rfl⟩ := ih c0 rfl
      exact ⟨n0, Reach.cons hc0 hn0, rfl⟩

theorem lookup_append (t : Node) (p q : Path) (n : Node) (h : t.lookup p = .ok n) :
    t.lookup (p ++ q) = n.lookup q := by
  induction p generalizing t with
  | nil =>
    cases t <;> simp only [Node.lookup, Except.ok.injEq] at h <;> subst h <;> rfl
  | cons c p ih =>
    cases t with
    | file c r => simp [Node.lookup] at h
    | dir cs =>
      simp only [Node.lookup, List.cons_append] at h ⊢
      cases hl : cs.lookup c with
      | none => simp [hl] at h
      | some child =>
        simp only [hl] at h ⊢
        exact ih child h

theorem mem_of_lookup (cs : List (String × Node)) (name : String) (child : Node)
    (h : cs.lookup name = some child) : (name, child) ∈ cs := by
  induction cs with
  | nil => simp [List.lookup] at h
  | cons x rest ih =>
    obtain ⟨k, v⟩ := x
    simp only [List.lookup] at h
    by_cases hk : name = k
    · subst hk
      simp at h
      simp [h]
    · have : (name == k) = false := by simpa using hk
      simp only [this] at h
      exact List.mem_cons_of_mem _ (ih h)

theorem wf_of_lookup (t : Node) (p : Path) (n : Node) (hwf : t.wf = true)
    (h : t.lookup p = .ok n) : n.wf = true := by
  induction p generalizing t with
  | nil =>
    cases t <;> simp only [Node.lookup, Except.ok.injEq] at h <;> subst h <;> exact hwf
  | cons c p ih =>
    cases t with
    | file c r => simp [Node.lookup] at h
    | dir cs =>
      simp only [Node.lookup] at h
      cases hl : cs.lookup c with
      | none => simp [hl] at h
      | some child =>
        simp only [hl] at h
        rw [wf_dir] at hwf
        exact ih child (wfChildren_mem cs hwf c child (mem_of_lookup cs c child hl)).2.1 h

theorem mem_map_fst_setChild (name : String) (n : Node) (cs : List (String × Node))
    (k : String) :
    k ∈ (setChild name n cs).map Prod.fst ↔ k = name ∨ k ∈ cs.map Prod.fst := by
  induction cs with
  | nil => simp [setChild]
  | cons x rest ih =>
    obtain ⟨k0, v0⟩ := x
    unfold setChild
    split_ifs with h
    · subst h
      simp
    · simp only [List.map_cons, List.mem_cons, ih]
      tauto

theorem wfChildren_setChild (name : String) (n : Node) (cs : List (String × Node))
    (hcs : wfChildren cs = true) (hname : validName name = true) (hn : n.wf = true) :
    wfChildren (setChild name n cs) = true := by
  induction cs with
  | nil =>
    rw [setChild, wfChildren_cons]
    exact ⟨hname, by simp, hn, rfl⟩
  | cons x rest ih =>
    obtain ⟨k0, v0⟩ := x
    obtain ⟨h1, h2, h3, h4⟩ := (wfChildren_cons k0 v0 rest).1 hcs
    unfold setChild
    split_ifs with h
    · subst h
      exact (wfChildren_cons _ _ _).2 ⟨h1, h2, hn, h4⟩
    · refine (wfChildren_cons _ _ _).2 ⟨h1, ?_, h3, ih h4⟩
      rw [mem_map_fst_setChild]
      rintro (hk | hk)
      · exact h hk
      · exact h2 hk

/-- `os.MkdirAll` on valid names keeps the tree well formed. -/
theorem wf_mkdirAll (p : Path) : ∀ (t t1 : Node), t.wf = true →
    (∀ c ∈ p, validName c = true) → t.mkdirAll p = .ok t1 → t1.wf = true := by
  induction p with
  | nil =>
    intro t t1 hwf _ h
    cases t with
    | file c r => simp [Node.mkdirAll] at h
    | dir cs =>
      simp only [Node.mkdirAll, Except.ok.injEq] at h
      exact h ▸ hwf
  | cons c rest ih =>
    intro t t1 hwf hp h
    cases t with
    | file c r => simp [Node.mkdirAll] at h
    | dir cs =>
      rw [wf_dir] at hwf
      have hc : validName c = true := hp c (by simp)
      have hrest : ∀ x ∈ rest, validName x = true := fun x hx => hp x (by simp [hx])
      rw [Node.mkdirAll] at h
      cases hl : cs.lookup c with
      | none =>
        simp only [hl] at h
        cases hm : (Node.dir []).mkdirAll rest with
        | error e => simp [hm] at h
        | ok child =>
          simp only [hm, Except.ok.injEq] at h
          subst h
          rw [wf_dir]
          exact wfChildren_setChild c child cs hwf hc (ih _ _ (by rfl) hrest hm)
      | some ch =>
        simp only [hl] at h
        cases hm : ch.mkdirAll rest with
        | error e => simp [hm] at h
        | ok child =>
          simp only [hm, Except.ok.injEq] at h
          subst h
          rw [wf_dir]
          exact wfChildren_setChild c child cs hwf hc
            (ih _ _ (wfChildren_mem cs hwf c ch (mem_of_lookup cs c ch hl)).2.1 hrest hm)

theorem wf_insert (p : Path) : ∀ (t new t1 : Node), t.wf = true → new.wf = true →
    (∀ c ∈ p, validName c = true) → t.insert p new = .ok t1 → t1.wf = true := by
  induction p with
  | nil =>
    intro t new t1 _ hnew _ h
    cases t <;> simp only [Node.insert, Except.ok.injEq] at h <;> exact h ▸ hnew
  | cons c rest ih =>
    intro t new t1 hwf hnew hp h
    have hc : validName c = true := hp c (by simp)
    have hrest : ∀ x ∈ rest, validName x = true := fun x hx => hp x (by simp [hx])
    cases t with
    | file c r => simp [Node.insert] at h
    | dir cs =>
      rw [wf_dir] at hwf
      cases rest with
      | nil =>
        simp only [Node.insert, Except.ok.injEq] at h
        subst h
        rw [wf_dir]
        exact wfChildren_setChild c new cs hwf hc hnew
      | cons c2 rest2 =>
        rw [Node.insert] at h
        cases hl : cs.lookup c with
        | none => simp [hl] at h
        | some ch =>
          simp only [hl] at h
          cases hm : ch.insert (c2 :: rest2) new with
          | error e => simp [hm] at h
          | ok child =>
            simp only [hm, Except.ok.injEq] at h
            subst h
            rw [wf_dir]
            exact wfChildren_setChild c child cs hwf hc
              (ih ch new child (wfChildren_mem cs hwf c ch (mem_of_lookup cs c ch hl)).2.1
                hnew hrest hm)

/-- `os.Create` on valid names keeps the tree well formed. -/
theorem wf_Create (fs fs1 : Node) (p : Path) (hwf : fs.wf = true)
    (hp : ∀ c ∈ p, validName c = true) (h : Create fs p = .ok fs1) : fs1.wf = true := by
  unfold Create at h
  split at h
  · simp at h
  · exact wf_insert p fs _ fs1 hwf (by rfl) hp h
  · exact wf_insert p fs _ fs1 hwf (by rfl) hp h
  · simp at h

/-! ### Walks -/

mutual
/-- An invariant of the state that every call of the walk function on a reached node
keeps is kept by `walk`. -/
theorem walk_invariant {σ : Type} (fn : Path → Except Errno FileInfo → σ → σ × WalkRes)
    (I : σ → Prop) : ∀ (node : Node) (p : Path) (s : σ),
    (∀ rel n, Reach node rel n → ∀ c ∈ rel, validName c = true) →
    (∀ rel n s, Reach node rel n → I s →
      I (fn (p ++ rel) (.ok { name := Base (p ++ rel), isDir := n.isDir }) s).1) →
    I s → I (walk fn p node s).1
  | .file c r, p, s, _, hfn, hs => by
    have := hfn [] (.file c r) s (Reach.nil _) hs
    rw [List.append_nil] at this
    rw [walk]
    exact this
  | .dir cs, p, s, hnames, hfn, hs => by
    have h0 := hfn [] (.dir cs) s (Reach.nil _) hs
    rw [List.append_nil] at h0
    rw [walk]
    have hrec := walkNames_invariant fn I cs p
      (fn p (.ok { name := Base p, isDir := true }) s).1
      (fun name child hm =>
        ⟨hnames [name] child (Reach.cons hm (Reach.nil _)) name (by simp),
         fun rel n hr => fun c hc => hnames (name :: rel) n (Reach.cons hm hr) c
           (List.mem_cons_of_mem _ hc),
         fun rel n s hr hs => hfn (name :: rel) n s (Reach.cons hm hr) hs⟩) h0
    simp only [Node.isDir] at h0
    split
    · exact hrec
    · exact h0
/-- An invariant of the state is kept by the loop of `walk` over a directory. -/
theorem walkNames_invariant {σ : Type}
    (fn : Path → Except Errno FileInfo → σ → σ × WalkRes) (I : σ → Prop) :
    ∀ (cs : List (String × Node)) (p : Path) (s : σ),
    (∀ name child, (name, child) ∈ cs →
      validName name = true ∧
      (∀ rel n, Reach child rel n → ∀ c ∈ rel, validName c = true) ∧
      (∀ rel n s, Reach child rel n → I s →
        I (fn (p ++ name :: rel)
          (.ok { name := Base (p ++ name :: rel), isDir := n.isDir }) s).1)) →
    I s → I (walkNames fn p cs s).1
  | [], p, s, _, hs => by
    rw [walkNames]
    exact hs
  | (name, child) :: rest, p, s, h, hs => by
    obtain ⟨hname, hnames, hfn⟩ := h name child (by simp)
    have hrest : ∀ name child, (name, child) ∈ rest →
      validName name = true ∧
      (∀ rel n, Reach child rel n → ∀ c ∈ rel, validName c = true) ∧
      (∀ rel n s, Reach child rel n → I s →
        I (fn (p ++ name :: rel)
          (.ok { name := Base (p ++ name :: rel), isDir := n.isDir }) s).1) :=
      fun name child hm => h name child (List.mem_cons_of_mem _ hm)
    have h1 : I (walk fn (joinPath p name) child s).1 := by
      rw [joinPath_valid p name hname]
      refine walk_invariant fn I child (p ++ [name]) s hnames ?_ hs
      intro rel n s hr hs
      have := hfn rel n s hr hs
      simpa [List.append_assoc] using this
    have h2 := walkNames_invariant fn I rest p (walk fn (joinPath p name) child s).1 hrest h1
    rw [walkNames]
    split
    · exact h2
    · split_ifs
      · exact h2
      · exact h1
    · exact h1
end

/-! ### Packaging -/

/-- A name that matches the name pattern is a valid name of a directory entry. -/
theorem validName_of_matches (n : String) (h : n.toList ∈ skillNameRe.matches') :
    validName n = true := by
  obtain ⟨r0, rs, h0, hrs, hx⟩ := (skillNameRe_matches _).1 h
  have hchars : ∀ c ∈ n.toList, c ∈ nameChars ∨ c = '-' := by
    rw [hx]
    exact runs_chars r0 rs h0 hrs
  have hgood : ∀ c ∈ nameChars, c ≠ '/' ∧ c ≠ '.' := by decide
  have hno : ∀ c ∈ n.toList, c ≠ '/' ∧ c ≠ '.' := by
    intro c hc
    rcases hchars c hc with h | rfl
    · exact hgood c h
    · decide
  rw [validName_iff]
  refine ⟨?_, ?_, ?_, ?_⟩
  · rintro rfl
    cases r0 with
    | nil => exact h0.1 rfl
    | cons c r => simp at hx
  · rintro rfl
    exact (hno '.' (by decide)).2 rfl
  · rintro rfl
    exact (hno '.' (by decide)).2 rfl
  · intro hmem
    exact (hno '/' hmem).1 rfl

/-- When `doValidation` reports nothing, `skill.json` was read, the schema validator
found no error in it, and the filesystem checks found no violation. -/
theorem doValidation_eq_nil (L : Libs) (fs : Node) (d : Path)
    (h : doValidation L fs d = []) :
    ∃ content, ReadFile fs (joinPath d "skill.json") = .ok content ∧
      L.schemaValidate content = .ok [] ∧
      performFileSystemChecks L fs d (joinPath d "skill.json") = [] := by
  cases hread : ReadFile fs (joinPath d "skill.json") with
  | error e =>
    rw [doValidation_of_read_error L fs d e hread] at h
    simp at h
  | ok content =>
    cases hval : L.schemaValidate content with
    | error err =>
      rw [doValidation_of_schema_error L fs d content err hread hval] at h
      simp at h
    | ok errs =>
      rw [doValidation_of_schema_result L fs d content errs hread hval] at h
      by_cases he : errs = []
      · subst he
        by_cases hf : performFileSystemChecks L fs d (joinPath d "skill.json") = []
        · exact ⟨content, rfl, hval, hf⟩
        · simp [hf] at h
      · simp [he] at h

theorem readFileOrEmpty_of_ok (fs : Node) (p : Path) (content : String)
    (h : ReadFile fs p = .ok content) : readFileOrEmpty fs p = content := by
  simp [readFileOrEmpty, h]

/-- One call of the walk function of `runPackage` on a reached node adds at most one
entry, named after that node. -/
theorem packageWalkFn_step (fs2 : Node) (skillDir fod : Path) (n : String) (t : Node)
    (hn : validName n = true)
    (ht : ∀ rel node, Reach t rel node → ∀ c ∈ rel, validName c = true)
    (rel : Path) (node : Node) (entries : List ZipEntry) (hr : Reach t rel node)
    (hI : ∀ e ∈ entries, EntryOfReached t n e) :
    ∀ e ∈ (packageWalkFn fs2 skillDir fod n (skillDir ++ rel)
      (.ok { name := Base (skillDir ++ rel), isDir := node.isDir }) entries).1,
      EntryOfReached t n e := by
  unfold packageWalkFn
  simp only
  split_ifs with h1 h2 h3
  · exact hI
  · exact hI
  · cases rel with
    | nil => simp at h2
    | cons c cs =>
      have hname : ToSlash (Join n (Rel skillDir (skillDir ++ c :: cs))) =
          n ++ "/" ++ joinSlash (c :: cs) := by
        rw [Rel_append, ToSlash, Join_valid n c cs hn (ht _ _ hr)]
      intro e he
      rcases List.mem_append.1 he with he | he
      · exact hI e he
      · simp only [List.mem_singleton] at he
        subst he
        exact ⟨c, cs, node, hr, h3.symm, by simp [hname, h3], by simp [h3]⟩
  · cases rel with
    | nil => simp at h2
    | cons c cs =>
      have hname : ToSlash (Join n (Rel skillDir (skillDir ++ c :: cs))) =
          n ++ "/" ++ joinSlash (c :: cs) := by
        rw [Rel_append, ToSlash, Join_valid n c cs hn (ht _ _ hr)]
      have h3 : node.isDir = false := by simpa using h3
      have hnew : ∀ content : String, EntryOfReached t n
          { Name := ToSlash (Join n (Rel skillDir (skillDir ++ c :: cs))),
            Method := .Deflate, isDir := false, content := content } :=
        fun content => ⟨c, cs, node, hr, h3.symm, by simp [hname, h3], fun _ => rfl⟩
      intro e he
      split at he
      · rcases List.mem_append.1 he with he | he
        · exact hI e he
        · simp only [List.mem_singleton] at he
          subst he
          exact hnew _
      · rcases List.mem_append.1 he with he | he
        · exact hI e he
        · simp only [List.mem_singleton] at he
          subst he
          exact hnew _

/-- Every entry the walk of `runPackage` writes is named after an item below the skill
directory. -/
theorem Walk_package_entries (fs2 : Node) (skillDir fod : Path) (n : String)
    (hwf : fs2.wf = true) (hn : validName n = true) :
    ∀ e ∈ (Walk fs2 skillDir (packageWalkFn fs2 skillDir fod n) []).1,
      EntryNamedAfter fs2 skillDir n e := by
  unfold Walk
  cases hl : fs2.lookup skillDir with
  | error err =>
    intro e he
    simp only [packageWalkFn] at he
    simp at he
  | ok N =>
    have hN : N.wf = true := wf_of_lookup fs2 skillDir N hwf hl
    have hT : ∀ rel node, Reach N.sorted rel node → ∀ c ∈ rel, validName c = true := by
      intro rel node hr
      obtain ⟨n0, hr0, _⟩ := hr.of_sorted N rfl
      exact (hr0.lookup_of_wf hN).2.2
    have hinv := walk_invariant (packageWalkFn fs2 skillDir fod n)
      (fun es => ∀ e ∈ es, EntryOfReached N.sorted n e) N.sorted skillDir [] hT
      (fun rel node s hr hs => packageWalkFn_step fs2 skillDir fod n N.sorted hn hT rel node s
        hr hs)
      (by simp)
    have hall : ∀ e ∈ (walk (packageWalkFn fs2 skillDir fod n) skillDir N.sorted []).1,
        EntryNamedAfter fs2 skillDir n e := by
      intro e he
      obtain ⟨c, cs, node, hr, hd, hname, hm⟩ := hinv e he
      obtain ⟨n0, hr0, rfl⟩ := hr.of_sorted N rfl
      obtain ⟨hlook, _, hvalid⟩ := hr0.lookup_of_wf hN
      rw [isDir_sorted] at hd hname hm
      exact ⟨c :: cs, n0, by simp, hvalid, by rw [lookup_append fs2 skillDir _ N hl, hlook],
        hd, hname, hm⟩
    intro e he
    apply hall
    simp only at he
    split at he
    · exact he
    · exact he

theorem splitOnSlash_head (a b : List Char) (h : '/' ∉ a) :
    (splitOnSlash (a ++ '/' :: b)).head? = some a := by
  rw [splitOnSlash_append_slash a b h]
  rfl

/-- C2: for a skill directory that passes validation with manifest name `n`, every
entry `runPackage` writes to the archive is named after an item below the skill
directory: `n`, a slash, the relative path of the item with forward slashes, and one
more slash exactly when the item is a directory; the entry of a file is stored with
Deflate. Hence every entry name begins with `n/` and goes on after it, and the first
element of every entry name is `n`. -/
theorem runPackage_entry_names (L : Libs) (flags : Flags) (w : World) (skillDir : Path)
    (n : String) (hschema : SchemaChecksName L) (hwf : w.fs.wf = true)
    (hdir : ∀ c ∈ skillDir, validName c = true) (hcwd : w.cwd = some skillDir)
    (hvalid : doValidation L w.fs skillDir = [])
    (hn : L.jsonField (readFileOrEmpty w.fs (joinPath skillDir "skill.json")) "name" = n) :
    ∀ archivePath entries, (runPackage L flags w).archive = some (archivePath, entries) →
      ∀ e ∈ entries,
        EntryNamedAfter (runPackage L flags w).fs skillDir n e ∧
        (∃ rest, rest ≠ "" ∧ e.Name = n ++ "/" ++ rest) ∧
        (pathElems e.Name).head? = some n := by
  obtain ⟨content, hread, hval, _⟩ := doValidation_eq_nil L w.fs skillDir hvalid
  have hnv : validName n = true := by
    rw [readFileOrEmpty_of_ok _ _ _ hread] at hn
    exact validName_of_matches n (hn ▸ hschema content hval)
  have hcons : ∀ (fs2 : Node) (e : ZipEntry), EntryNamedAfter fs2 skillDir n e →
      (∃ rest, rest ≠ "" ∧ e.Name = n ++ "/" ++ rest) ∧
      (pathElems e.Name).head? = some n := by
    rintro fs2 e ⟨rel, node, hrel, hvalid, _, _, hname, _⟩
    constructor
    · refine ⟨joinSlash rel ++ (if node.isDir then "/" else ""), ?_, ?_⟩
      · obtain ⟨c, cs, rfl⟩ := List.exists_cons_of_ne_nil hrel
        have hc := ((validName_iff c).1 (hvalid c (by simp))).1
        intro hempty
        have hd : (joinSlash (c :: cs)).toList ++
            (if node.isDir = true then "/" else "").toList = [] := by
          have := congrArg String.toList hempty
          rwa [String.toList, String.data_append] at this
        rw [joinSlash_toList, List.map_cons, intercalate_cons_eq] at hd
        have hcd : c.toList = [] := by
          cases hct : c.toList with
          | nil => rfl
          | cons x xs => rw [hct] at hd; simp at hd
        exact hc (String.ext hcd)
      · rw [hname]
        exact String.ext (by simp [String.data_append])
    · rw [hname]
      unfold pathElems
      have hdata : (n ++ "/" ++ joinSlash rel ++ if node.isDir = true then "/" else "").toList =
          n.toList ++ '/' :: (joinSlash rel ++ if node.isDir = true then "/" else "").toList := by
        simp [String.toList, String.data_append]
      rw [hdata, List.head?_map, splitOnSlash_head _ _ ((validName_iff n).1 hnv).2.2.2]
      rfl
  intro archivePath entries harch e he
  have hfod : ∀ c ∈ joinPath (Dir skillDir) flags.outputDir, validName c = true :=
    joinPath_allValid _ _ (fun c hc => hdir c (List.dropLast_subset _ hc))
  unfold runPackage at harch ⊢
  simp only [hcwd, hvalid, List.length_nil, gt_iff_lt, lt_self_iff_false, if_false, hn]
    at harch ⊢
  cases hmk : MkdirAll w.fs (joinPath (Dir skillDir) flags.outputDir) with
  | error err => simp [hmk] at harch
  | ok fs1 =>
    have hwf1 : fs1.wf = true := wf_mkdirAll _ _ _ hwf hfod hmk
    simp only [hmk] at harch ⊢
    generalize hap : joinPath (joinPath (Dir skillDir) flags.outputDir)
      (if flags.outputName = "" then
        n ++ "-" ++ L.jsonField (readFileOrEmpty w.fs (joinPath skillDir "skill.json")) "version"
          ++ ".skill"
      else flags.outputName) = ap at harch ⊢
    have hapv : ∀ c ∈ ap, validName c = true := hap ▸ joinPath_allValid _ _ hfod
    cases hcr : Create fs1 ap with
    | error err => simp [hcr] at harch
    | ok fs2 =>
      have hwf2 : fs2.wf = true := wf_Create fs1 fs2 ap hwf1 hapv hcr
      simp only [hcr] at harch ⊢
      have hent := Walk_package_entries fs2 skillDir
        (joinPath (Dir skillDir) flags.outputDir) n hwf2 hnv
      have hfs : ∀ r : PackageResult, r.fs = fs2 → r.archive = some (archivePath, entries) →
          (∃ x, r.archive = some (x, (Walk fs2 skillDir (packageWalkFn fs2 skillDir
            (joinPath (Dir skillDir) flags.outputDir) n) []).1)) →
          EntryNamedAfter r.fs skillDir n e := by
        rintro r hr1 hr2 ⟨x, hr3⟩
        rw [hr2] at hr3
        simp only [Option.some.injEq, Prod.mk.injEq] at hr3
        rw [hr1]
        exact hent e (hr3.2 ▸ he)
      have hmain : EntryNamedAfter
          (match (Walk fs2 skillDir (packageWalkFn fs2 skillDir
              (joinPath (Dir skillDir) flags.outputDir) n) []).2 with
            | WalkRes.nil => ({ exitCode := 0, fs := fs2, archive := some (ap,
                (Walk fs2 skillDir (packageWalkFn fs2 skillDir
                  (joinPath (Dir skillDir) flags.outputDir) n) []).1) } : PackageResult)
            | _ => { exitCode := 1, fs := fs2, archive := some (ap,
                (Walk fs2 skillDir (packageWalkFn fs2 skillDir
                  (joinPath (Dir skillDir) flags.outputDir) n) []).1) }).fs skillDir n e := by
        apply hfs _ _ harch
        · split <;> exact ⟨ap, rfl⟩
        · split <;> rfl
      exact ⟨hmain, hcons _ e hmain⟩

theorem exLibs_schemaChecksName : SchemaChecksName exLibs := by
  intro doc h
  by_cases hdoc : doc = exManifest
  · subst hdoc
    exact (RegularExpression.rmatch_iff_matches' _ _).1 (by decide)
  · by_cases hb : doc = "\x7b"
    · subst hb
      have hb2 : exLibs.schemaValidate "\x7b" = .error "unexpected EOF" := rfl
      rw [hb2] at h
      exact Except.noConfusion h
    · simp [exLibs, hdoc, hb] at h

/-- C2 on the example skill `/home/foo`, packaged with the default flags: the six
entries written are named after the items of the directory. -/
theorem runPackage_entry_names_witness :
    SchemaChecksName exLibs ∧ exFs.wf = true ∧
    doValidation exLibs exFs ["home", "foo"] = [] ∧
    ∀ e ∈ [({ Name := "foo/LICENSE", Method := .Deflate, isDir := false,
              content := "MIT" } : ZipEntry),
           { Name := "foo/README.md", Method := .Deflate, isDir := false, content := "# foo" },
           { Name := "foo/assets/", Method := .Store, isDir := true, content := "" },
           { Name := "foo/assets/a.txt", Method := .Deflate, isDir := false, content := "a" },
           { Name := "foo/icon.svg", Method := .Deflate, isDir := false, content := "<svg/>" },
           { Name := "foo/skill.json", Method := .Deflate, isDir := false,
             content := exManifest }],
      EntryNamedAfter
        (runPackage exLibs { outputDir := "dist", outputName := "" }
          { fs := exFs, cwd := some ["home", "foo"] }).fs ["home", "foo"] "foo" e ∧
      (∃ rest, rest ≠ "" ∧ e.Name = "foo" ++ "/" ++ rest) ∧
      (pathElems e.Name).head? = some "foo" :=
  ⟨exLibs_schemaChecksName, by decide, by decide,
   runPackage_entry_names exLibs { outputDir := "dist", outputName := "" }
     { fs := exFs, cwd := some ["home", "foo"] } ["home", "foo"] "foo"
     exLibs_schemaChecksName (by decide) (by decide) rfl (by decide) (by decide)
     ["home", "dist", "foo-1.0.0.skill"] _ (by decide)⟩

/-- C1: when `doValidation` reports at least one violation for the skill directory,
`runPackage` ends with exit code 1 before `os.MkdirAll` and `os.Create`: the filesystem
it leaves is the one it found, no path exists after it that did not exist before, and
no archive was created. A second run on the filesystem it left gives the same result. -/
theorem runPackage_refuses_invalid (L : Libs) (flags : Flags) (w : World) (skillDir : Path)
    (hcwd : w.cwd = some skillDir) (hinvalid : doValidation L w.fs skillDir ≠ []) :
    (runPackage L flags w).exitCode = 1 ∧
    (runPackage L flags w).fs = w.fs ∧
    (runPackage L flags w).archive = none ∧
    (∀ p : Path, (runPackage L flags w).fs.lookup p = w.fs.lookup p) ∧
    runPackage L flags { fs := (runPackage L flags w).fs, cwd := w.cwd } =
      runPackage L flags w := by
  have hlen : (doValidation L w.fs skillDir).length > 0 := List.length_pos.2 hinvalid
  have hrun : runPackage L flags w = { exitCode := 1, fs := w.fs, archive := none } := by
    unfold runPackage
    simp only [hcwd, hlen, if_true]
  rw [hrun]
  refine ⟨rfl, rfl, rfl, fun _ => rfl, ?_⟩
  unfold runPackage
  simp only [hcwd, hlen, if_true]

/-- C1 on `/home` of the example, which has no `skill.json`. -/
theorem runPackage_refuses_invalid_witness :
    doValidation exLibs exFs ["home"] ≠ [] ∧
    (runPackage exLibs { outputDir := "dist", outputName := "" }
      { fs := exFs, cwd := some ["home"] }).exitCode = 1 ∧
    (runPackage exLibs { outputDir := "dist", outputName := "" }
      { fs := exFs, cwd := some ["home"] }).fs = exFs :=
  ⟨by decide,
   (runPackage_refuses_invalid exLibs { outputDir := "dist", outputName := "" }
      { fs := exFs, cwd := some ["home"] } ["home"] rfl (by decide)).1,
   (runPackage_refuses_invalid exLibs { outputDir := "dist", outputName := "" }
      { fs := exFs, cwd := some ["home"] } ["home"] rfl (by decide)).2.1⟩

/-! ### Frontmatter -/

theorem countAux_nil (sep : List Char) (k : Nat) : countAux sep k [] = 0 := by
  cases k <;> rfl

theorem countAux_drop (sep : List Char) (k : Nat) :
    ∀ l : List Char, countAux sep k l = countAux sep 0 (l.drop k) := by
  induction k with
  | zero => intro l; rfl
  | succ k ih =>
    intro l
    cases l with
    | nil => simp [countAux_nil]
    | cons c cs =>
      rw [countAux, ih cs]
      rfl

theorem isPrefixOf_nil_right (sep : List Char) (h : sep ≠ []) :
    sep.isPrefixOf ([] : List Char) = false := by
  cases sep with
  | nil => exact absurd rfl h
  | cons a as => rfl

/-- When the separator does not occur, nothing is counted. -/
theorem countAux_of_cut_none (sep : List Char) :
    ∀ s : List Char, cut sep s = none → countAux sep 0 s = 0 := by
  intro s
  induction s with
  | nil => intro _; rfl
  | cons c cs ih =>
    intro h
    rw [cut] at h
    split_ifs at h with hp
    rw [countAux, if_neg hp]
    cases hc : cut sep cs with
    | none => exact ih hc
    | some ab => simp [hc] at h

/-- After the first occurrence, one more is counted than in the rest. -/
theorem countAux_of_cut_some (sep : List Char) (hsep : sep ≠ []) :
    ∀ (s a b : List Char), cut sep s = some (a, b) →
      countAux sep 0 s = countAux sep 0 b + 1 := by
  intro s
  induction s with
  | nil =>
    intro a b h
    rw [cut, isPrefixOf_nil_right sep hsep] at h
    simp at h
  | cons c cs ih =>
    intro a b h
    rw [cut] at h
    split_ifs at h with hp
    · simp only [Option.some.injEq, Prod.mk.injEq] at h
      obtain ⟨_, rfl⟩ := h
      rw [countAux, if_pos hp, countAux_drop]
      obtain ⟨x, xs, rfl⟩ := List.exists_cons_of_ne_nil hsep
      simp
    · rw [countAux, if_neg hp]
      cases hc : cut sep cs with
      | none => simp [hc] at h
      | some ab =>
        obtain ⟨a1, b1⟩ := ab
        simp only [hc, Option.some.injEq, Prod.mk.injEq] at h
        obtain ⟨_, rfl⟩ := h
        exact ih a1 b1 hc

/-- `SplitN(s, sep, 3)` has fewer than three parts exactly when `sep` occurs fewer than
two times in `s`. -/
theorem splitN_three_length (sep : List Char) (hsep : sep ≠ []) (s : List Char) :
    (splitN sep 3 s).length < 3 ↔ countAux sep 0 s < 2 := by
  rw [splitN]
  cases h1 : cut sep s with
  | none => simp [countAux_of_cut_none sep s h1]
  | some ab =>
    obtain ⟨a, b⟩ := ab
    rw [countAux_of_cut_some sep hsep s a b h1]
    simp only [List.length_cons]
    rw [splitN]
    cases h2 : cut sep b with
    | none => simp [countAux_of_cut_none sep b h2]
    | some ab2 =>
      obtain ⟨a2, b2⟩ := ab2
      rw [countAux_of_cut_some sep hsep b a2 b2 h2]
      simp [splitN]

theorem SplitN_three_length (content : String) :
    (SplitN content "---" 3).length < 3 ↔ Count content "---" < 2 := by
  unfold SplitN Count
  rw [List.length_map]
  exact splitN_three_length _ (by decide) _

mutual
/-- A walk whose walk function does not panic on a node does not panic. -/
theorem walk_ne_panic {σ : Type} (fn : Path → Except Errno FileInfo → σ → σ × WalkRes)
    (hfn : ∀ p i s, (fn p (.ok i) s).2 ≠ .panic) :
    ∀ (node : Node) (p : Path) (s : σ), (walk fn p node s).2 ≠ .panic
  | .file c r, p, s => by
    rw [walk]
    exact hfn _ _ _
  | .dir cs, p, s => by
    rw [walk]
    split
    · exact walkNames_ne_panic fn hfn cs p _
    · exact hfn _ _ _
/-- The loop of such a walk over a directory does not panic. -/
theorem walkNames_ne_panic {σ : Type}
    (fn : Path → Except Errno FileInfo → σ → σ × WalkRes)
    (hfn : ∀ p i s, (fn p (.ok i) s).2 ≠ .panic) :
    ∀ (cs : List (String × Node)) (p : Path) (s : σ), (walkNames fn p cs s).2 ≠ .panic
  | [], p, s => by
    rw [walkNames]
    exact WalkRes.noConfusion
  | (name, child) :: rest, p, s => by
    rw [walkNames]
    split
    · exact walkNames_ne_panic fn hfn rest p _
    · split_ifs
      · exact walkNames_ne_panic fn hfn rest p _
      · exact walk_ne_panic fn hfn child _ s
    · exact walk_ne_panic fn hfn child _ s
end

theorem analyzeWalkFn_ne_panic (p : Path) (i : FileInfo) (s : Option Path) :
    (analyzeWalkFn p (.ok i) s).2 ≠ .panic := by
  unfold analyzeWalkFn
  simp only
  split_ifs <;> exact WalkRes.noConfusion

/-- When the search of `analyzeSource` has found a `SKILL.md`, it did not panic. -/
theorem Walk_analyze_ne_panic (fs : Node) (searchDir p : Path)
    (hfound : (Walk fs searchDir analyzeWalkFn none).1 = some p) :
    (Walk fs searchDir analyzeWalkFn none).2 ≠ .panic := by
  unfold Walk at hfound ⊢
  cases hl : fs.lookup searchDir with
  | error e =>
    simp [hl, analyzeWalkFn] at hfound
  | ok n =>
    simp only
    have := walk_ne_panic analyzeWalkFn analyzeWalkFn_ne_panic n.sorted searchDir none
    split
    · exact WalkRes.noConfusion
    · exact this

/-- The result of `analyzeSource` once `SKILL.md` is found and read. -/
theorem analyzeSource_of_read (L : Libs) (fs : Node) (searchDir p : Path) (content : String)
    (hfound : (Walk fs searchDir analyzeWalkFn none).1 = some p)
    (hread : ReadFile fs p = .ok content) :
    analyzeSource L fs searchDir =
      if (SplitN content "---" 3).length < 3 then .error "SKILL.md has no YAML frontmatter"
      else
        match L.yamlUnmarshal ((SplitN content "---" 3).getD 1 "") with
        | .error err => .error err
        | .ok fm =>
          if fm.Name = "" ∨ fm.Description = "" then
            .error "YAML missing 'name' or 'description'"
          else .ok (Dir p) fm := by
  have hp := Walk_analyze_ne_panic fs searchDir p hfound
  unfold analyzeSource
  simp only [hfound, hread]

/-- A record returned by `analyzeSource` has a name and a description. -/
theorem analyzeSource_ok_nonempty (L : Libs) (fs : Node) (searchDir dir : Path)
    (fm : FrontMatter) (h : analyzeSource L fs searchDir = .ok dir fm) :
    fm.Name ≠ "" ∧ fm.Description ≠ "" := by
  unfold analyzeSource at h
  simp only at h
  split at h
  · exact AnalyzeResult.noConfusion h
  · split at h
    · exact AnalyzeResult.noConfusion h
    · split at h
      · exact AnalyzeResult.noConfusion h
      · split_ifs at h
        split at h
        · exact AnalyzeResult.noConfusion h
        · split_ifs at h with hf
          simp only [AnalyzeResult.ok.injEq] at h
          rw [← h.2]
          exact not_or.1 hf

/-- C9: when the `SKILL.md` that `analyzeSource` has found and read contains the marker
`---` fewer than two times, counted without overlap, `analyzeSource` fails with the
error that `SKILL.md` has no YAML frontmatter, and returns no record. -/
theorem analyzeSource_no_frontmatter (L : Libs) (fs : Node) (searchDir p : Path)
    (content : String)
    (hfound : (Walk fs searchDir analyzeWalkFn none).1 = some p)
    (hread : ReadFile fs p = .ok content)
    (hcount : Count content "---" < 2) :
    analyzeSource L fs searchDir = .error "SKILL.md has no YAML frontmatter" ∧
    ∀ dir fm, analyzeSource L fs searchDir ≠ .ok dir fm := by
  have h : analyzeSource L fs searchDir = .error "SKILL.md has no YAML frontmatter" := by
    rw [analyzeSource_of_read L fs searchDir p content hfound hread,
      if_pos ((SplitN_three_length content).2 hcount)]
  refine ⟨h, fun dir fm hok => ?_⟩
  rw [h] at hok
  exact AnalyzeResult.noConfusion hok

/-- C9 on the extracted skill whose `SKILL.md` has an opening marker and no closing
one. -/
theorem analyzeSource_no_frontmatter_witness :
    (Walk exExtracted ["tmp", "y"] analyzeWalkFn none).1 = some ["tmp", "y", "open", "SKILL.md"] ∧
    ReadFile exExtracted ["tmp", "y", "open", "SKILL.md"] = .ok "---\nname: bar\n# Bar\n" ∧
    Count "---\nname: bar\n# Bar\n" "---" < 2 ∧
    analyzeSource exLibs exExtracted ["tmp", "y"] = .error "SKILL.md has no YAML frontmatter" :=
  ⟨by decide, rfl, by decide,
   (analyzeSource_no_frontmatter exLibs exExtracted ["tmp", "y"]
      ["tmp", "y", "open", "SKILL.md"] "---\nname: bar\n# Bar\n" (by decide) rfl
      (by decide)).1⟩

/-- C10: when the text between the first and the second marker of the `SKILL.md` that
`analyzeSource` has found and read parses, `analyzeSource` fails with the error that
the YAML misses name or description exactly when the parsed name is empty or the
parsed description is empty, and returns the parsed record otherwise; every record
`analyzeSource` returns has a non-empty name and a non-empty description. -/
theorem analyzeSource_missing_fields (L : Libs) (fs : Node) (searchDir p : Path)
    (content a preamble rest : String) (fm : FrontMatter)
    (hfound : (Walk fs searchDir analyzeWalkFn none).1 = some p)
    (hread : ReadFile fs p = .ok content)
    (hparts : SplitN content "---" 3 = [a, preamble, rest])
    (hyaml : L.yamlUnmarshal preamble = .ok fm) :
    (analyzeSource L fs searchDir = .error "YAML missing 'name' or 'description'" ↔
      fm.Name = "" ∨ fm.Description = "") ∧
    (¬ (fm.Name = "" ∨ fm.Description = "") →
      analyzeSource L fs searchDir = .ok (Dir p) fm) ∧
    (∀ dir fm1, analyzeSource L fs searchDir = .ok dir fm1 →
      fm1.Name ≠ "" ∧ fm1.Description ≠ "") := by
  have h := analyzeSource_of_read L fs searchDir p content hfound hread
  rw [hparts] at h
  simp only [List.length_cons, List.length_nil, List.getD_cons_succ, List.getD_cons_zero,
    hyaml] at h
  norm_num at h
  refine ⟨?_, ?_, fun dir fm1 hok => analyzeSource_ok_nonempty L fs searchDir dir fm1 hok⟩
  · rw [h]
    by_cases hf : fm.Name = "" ∨ fm.Description = ""
    · simp [hf]
    · simp [hf]
  · intro hf
    rw [h, if_neg hf]

/-- C10 on the extracted skills: the one with name and description gives its record,
the one without a description gives the error. -/
theorem analyzeSource_missing_fields_witness :
    SplitN "---\nname: bar\n---\n# Bar\n" "---" 3 = ["", "\nname: bar\n", "\n# Bar\n"] ∧
    exLibs.yamlUnmarshal "\nname: bar\n" = .ok { Name := "bar", Description := "" } ∧
    analyzeSource exLibs exExtracted ["tmp", "z"] =
      .error "YAML missing 'name' or 'description'" :=
  ⟨by decide, rfl,
   (analyzeSource_missing_fields exLibs exExtracted ["tmp", "z"]
      ["tmp", "z", "nodesc", "SKILL.md"] "---\nname: bar\n---\n# Bar\n" "" "\nname: bar\n"
      "\n# Bar\n" { Name := "bar", Description := "" } (by decide) rfl (by decide) rfl).1.2
      (Or.inr rfl)⟩

/-! ### Writes and the files they leave alone -/

theorem lookup_setChild_self (c : String) (v : Node) (cs : List (String × Node)) :
    (setChild c v cs).lookup c = some v := by
  induction cs with
  | nil => simp [setChild, List.lookup]
  | cons x rest ih =>
    obtain ⟨k, w⟩ := x
    unfold setChild
    split_ifs with hk
    · simp [List.lookup]
    · have : (c == k) = false := by simpa using fun h => hk h.symm
      simp only [List.lookup, this]
      exact ih

theorem lookup_setChild_ne (c c2 : String) (v : Node) (cs : List (String × Node))
    (h : c2 ≠ c) : (setChild c v cs).lookup c2 = cs.lookup c2 := by
  induction cs with
  | nil =>
    have : (c2 == c) = false := by simpa using h
    simp [setChild, List.lookup, this]
  | cons x rest ih =>
    obtain ⟨k, w⟩ := x
    unfold setChild
    split_ifs with hk
    · subst hk
      have : (c2 == k) = false := by simpa using h
      simp [List.lookup, this]
    · cases hb : c2 == k with
      | true => simp [List.lookup, hb]
      | false =>
        simp only [List.lookup, hb]
        exact ih

/-- A path below a file resolves to no node. -/
theorem lookup_file_cons (c : String) (r : Bool) (x : String) (q : Path) :
    (Node.file c r).lookup (x :: q) = .error .ENOTDIR := rfl

/-- After `insert`, the path resolves to the node put there. -/
theorem lookup_insert_self (p : Path) : ∀ (t new t1 : Node),
    t.insert p new = .ok t1 → t1.lookup p = .ok new := by
  induction p with
  | nil =>
    intro t new t1 h
    cases t <;> simp only [Node.insert, Except.ok.injEq] at h <;> subst h <;> simp [Node.lookup]
  | cons c rest ih =>
    intro t new t1 h
    cases t with
    | file c r => simp [Node.insert] at h
    | dir cs =>
      cases rest with
      | nil =>
        simp only [Node.insert, Except.ok.injEq] at h
        subst h
        simp [Node.lookup, lookup_setChild_self]
      | cons c2 rest2 =>
        rw [Node.insert] at h
        cases hl : cs.lookup c with
        | none => simp [hl] at h
        | some ch =>
          simp only [hl] at h
          cases hm : ch.insert (c2 :: rest2) new with
          | error e => simp [hm] at h
          | ok child =>
            simp only [hm, Except.ok.injEq] at h
            subst h
            rw [Node.lookup]
            simp only [lookup_setChild_self]
            exact ih ch new child hm

theorem noFileBelow_file (c : String) (r : Bool) : NoFileBelow (.file c r) := by
  intro x q c1 r1 h
  rw [lookup_file_cons] at h
  exact Except.noConfusion h

theorem noFileBelow_empty : NoFileBelow (.dir []) := by
  intro x q c1 r1 h
  simp [Node.lookup, List.lookup] at h

/-- Putting a node without files below it at a path that named nothing or a file
leaves every file at another path as it is, and makes no file at another path. -/
theorem insert_files (p : Path) : ∀ (t new t1 : Node),
    t.insert p new = .ok t1 →
    (t.lookup p = .error .ENOENT ∨ ∃ c r, t.lookup p = .ok (.file c r)) →
    NoFileBelow new →
    ∀ (q : Path), q ≠ p → ∀ (c : String) (r : Bool),
      (t1.lookup q = .ok (.file c r) ↔ t.lookup q = .ok (.file c r)) := by
  induction p with
  | nil =>
    intro t new t1 h hp hnew q hq c r
    have ht : ∃ c0 r0, t = .file c0 r0 := by
      rcases hp with hp | ⟨c0, r0, hp⟩
      · simp [Node.lookup] at hp
      · simp only [Node.lookup, Except.ok.injEq] at hp
        exact ⟨c0, r0, hp⟩
    obtain ⟨c0, r0, rfl⟩ := ht
    simp only [Node.insert, Except.ok.injEq] at h
    subst h
    cases q with
    | nil => exact absurd rfl hq
    | cons x q =>
      constructor
      · intro h
        exact absurd h (hnew x q c r)
      · intro h
        rw [lookup_file_cons] at h
        exact Except.noConfusion h
  | cons a rest ih =>
    intro t new t1 h hp hnew q hq c r
    cases t with
    | file c0 r0 => simp [Node.insert] at h
    | dir cs =>
      cases q with
      | nil =>
        have h1 : t1.isDir = true := by
          cases rest with
          | nil =>
            simp only [Node.insert, Except.ok.injEq] at h
            subst h
            rfl
          | cons c2 rest2 =>
            rw [Node.insert] at h
            cases hl : cs.lookup a with
            | none => simp [hl] at h
            | some ch =>
              simp only [hl] at h
              cases hm : ch.insert (c2 :: rest2) new with
              | error e => simp [hm] at h
              | ok child =>
                simp only [hm, Except.ok.injEq] at h
                subst h
                rfl
        constructor
        · intro h2
          simp only [Node.lookup, Except.ok.injEq] at h2
          rw [h2] at h1
          simp [Node.isDir] at h1
        · intro h2
          simp [Node.lookup] at h2
      | cons b q =>
        by_cases hba : b = a
        · subst hba
          have hq1 : q ≠ rest := fun hh => hq (by rw [hh])
          cases rest with
          | nil =>
            simp only [Node.insert, Except.ok.injEq] at h
            subst h
            cases q with
            | nil => exact absurd rfl hq1
            | cons x q =>
              rw [Node.lookup]
              simp only [lookup_setChild_self]
              constructor
              · intro h2
                exact absurd h2 (hnew x q c r)
              · intro h2
                exfalso
                rw [Node.lookup] at h2
                rcases hp with hp | ⟨c0, r0, hp⟩
                · rw [Node.lookup] at hp
                  cases hl : cs.lookup b with
                  | none => simp [hl] at h2
                  | some ch =>
                    simp only [hl] at hp
                    simp [Node.lookup] at hp
                · rw [Node.lookup] at hp
                  cases hl : cs.lookup b with
                  | none => simp [hl] at h2
                  | some ch =>
                    simp only [hl] at hp h2
                    simp only [Node.lookup, Except.ok.injEq] at hp
                    subst hp
                    rw [lookup_file_cons] at h2
                    exact Except.noConfusion h2
          | cons c2 rest2 =>
            rw [Node.insert] at h
            cases hl : cs.lookup b with
            | none => simp [hl] at h
            | some ch =>
              simp only [hl] at h
              cases hm : ch.insert (c2 :: rest2) new with
              | error e => simp [hm] at h
              | ok child =>
                simp only [hm, Except.ok.injEq] at h
                subst h
                rw [Node.lookup, Node.lookup]
                simp only [lookup_setChild_self, hl]
                refine ih ch new child hm ?_ hnew q hq1 c r
                rw [Node.lookup] at hp
                simpa only [hl] using hp
        · have hsame : ∀ v, (Node.dir (setChild a v cs)).lookup (b :: q) =
              (Node.dir cs).lookup (b :: q) := by
            intro v
            rw [Node.lookup, Node.lookup, lookup_setChild_ne a b v cs hba]
          cases rest with
          | nil =>
            simp only [Node.insert, Except.ok.injEq] at h
            subst h
            rw [hsame]
          | cons c2 rest2 =>
            rw [Node.insert] at h
            cases hl : cs.lookup a with
            | none => simp [hl] at h
            | some ch =>
              simp only [hl] at h
              cases hm : ch.insert (c2 :: rest2) new with
              | error e => simp [hm] at h
              | ok child =>
                simp only [hm, Except.ok.injEq] at h
                subst h
                rw [hsame]

/-- `os.MkdirAll` leaves every file as it is and makes no file. -/
theorem mkdirAll_files (p : Path) : ∀ (t t1 : Node), t.mkdirAll p = .ok t1 →
    ∀ (q : Path) (c : String) (r : Bool),
      (t1.lookup q = .ok (.file c r) ↔ t.lookup q = .ok (.file c r)) := by
  induction p with
  | nil =>
    intro t t1 h q c r
    cases t with
    | file c0 r0 => simp [Node.mkdirAll] at h
    | dir cs =>
      simp only [Node.mkdirAll, Except.ok.injEq] at h
      rw [h]
  | cons a rest ih =>
    intro t t1 h q c r
    cases t with
    | file c0 r0 => simp [Node.mkdirAll] at h
    | dir cs =>
      rw [Node.mkdirAll] at h
      cases q with
      | nil =>
        have h1 : t1.isDir = true := by
          cases hl : cs.lookup a with
          | none =>
            simp only [hl] at h
            cases hm : (Node.dir []).mkdirAll rest with
            | error e => simp [hm] at h
            | ok child =>
              simp only [hm, Except.ok.injEq] at h
              subst h
              rfl
          | some ch =>
            simp only [hl] at h
            cases hm : ch.mkdirAll rest with
            | error e => simp [hm] at h
            | ok child =>
              simp only [hm, Except.ok.injEq] at h
              subst h
              rfl
        constructor
        · intro h2
          simp only [Node.lookup, Except.ok.injEq] at h2
          rw [h2] at h1
          simp [Node.isDir] at h1
        · intro h2
          simp [Node.lookup] at h2
      | cons b q =>
        by_cases hba : b = a
        · subst hba
          cases hl : cs.lookup b with
          | none =>
            simp only [hl] at h
            cases hm : (Node.dir []).mkdirAll rest with
            | error e => simp [hm] at h
            | ok child =>
              simp only [hm, Except.ok.injEq] at h
              subst h
              rw [Node.lookup, Node.lookup]
              simp only [lookup_setChild_self, hl]
              rw [ih _ _ hm q c r]
              constructor
              · intro h2
                cases q with
                | nil => simp [Node.lookup] at h2
                | cons x q => simp [Node.lookup, List.lookup] at h2
              · intro h2
                exact Except.noConfusion h2
          | some ch =>
            simp only [hl] at h
            cases hm : ch.mkdirAll rest with
            | error e => simp [hm] at h
            | ok child =>
              simp only [hm, Except.ok.injEq] at h
              subst h
              rw [Node.lookup, Node.lookup]
              simp only [lookup_setChild_self, hl]
              exact ih _ _ hm q c r
        · have hsame : ∀ v, (Node.dir (setChild a v cs)).lookup (b :: q) =
              (Node.dir cs).lookup (b :: q) := by
            intro v
            rw [Node.lookup, Node.lookup, lookup_setChild_ne a b v cs hba]
          cases hl : cs.lookup a with
          | none =>
            simp only [hl] at h
            cases hm : (Node.dir []).mkdirAll rest with
            | error e => simp [hm] at h
            | ok child =>
              simp only [hm, Except.ok.injEq] at h
              subst h
              rw [hsame]
          | some ch =>
            simp only [hl] at h
            cases hm : ch.mkdirAll rest with
            | error e => simp [hm] at h
            | ok child =>
              simp only [hm, Except.ok.injEq] at h
              subst h
              rw [hsame]

theorem MkdirAll_files (fs fs1 : Node) (p : Path) (h : MkdirAll fs p = .ok fs1) (q : Path)
    (c : String) (r : Bool) :
    fs1.lookup q = .ok (.file c r) ↔ fs.lookup q = .ok (.file c r) :=
  mkdirAll_files p fs fs1 h q c r

/-- `os.WriteFile` leaves the path with the content written. -/
theorem WriteFile_self (fs fs1 : Node) (p : Path) (content : String)
    (h : WriteFile fs p content = .ok fs1) : ∃ r, fs1.lookup p = .ok (.file content r) := by
  unfold WriteFile at h
  split at h
  · exact Except.noConfusion h
  · exact ⟨_, lookup_insert_self p _ _ _ h⟩
  · exact ⟨_, lookup_insert_self p _ _ _ h⟩
  · exact Except.noConfusion h

/-- `os.WriteFile` leaves every file at another path as it is, and makes no file at
another path. -/
theorem WriteFile_files (fs fs1 : Node) (p : Path) (content : String)
    (h : WriteFile fs p content = .ok fs1) (q : Path) (hq : q ≠ p) (c : String) (r : Bool) :
    fs1.lookup q = .ok (.file c r) ↔ fs.lookup q = .ok (.file c r) := by
  unfold WriteFile at h
  split at h
  · exact Except.noConfusion h
  · next c0 r0 hl =>
    exact insert_files p _ _ _ h (Or.inr ⟨c0, r0, hl⟩) (noFileBelow_file _ _) q hq c r
  · next hl =>
    exact insert_files p _ _ _ h (Or.inl hl) (noFileBelow_file _ _) q hq c r
  · exact Except.noConfusion h

/-- `os.Create` leaves the path with an empty file. -/
theorem Create_self (fs fs1 : Node) (p : Path) (h : Create fs p = .ok fs1) :
    ∃ r, fs1.lookup p = .ok (.file "" r) := by
  unfold Create at h
  split at h
  · exact Except.noConfusion h
  · exact ⟨_, lookup_insert_self p _ _ _ h⟩
  · exact ⟨_, lookup_insert_self p _ _ _ h⟩
  · exact Except.noConfusion h

/-- `os.Create` leaves every file at another path as it is, and makes no file at
another path. -/
theorem Create_files (fs fs1 : Node) (p : Path) (h : Create fs p = .ok fs1) (q : Path)
    (hq : q ≠ p) (c : String) (r : Bool) :
    fs1.lookup q = .ok (.file c r) ↔ fs.lookup q = .ok (.file c r) := by
  unfold Create at h
  split at h
  · exact Except.noConfusion h
  · next r0 hl =>
    exact insert_files p _ _ _ h (Or.inr ⟨_, r0, hl⟩) (noFileBelow_file _ _) q hq c r
  · next hl =>
    exact insert_files p _ _ _ h (Or.inl hl) (noFileBelow_file _ _) q hq c r
  · exact Except.noConfusion h

/-- `os.Mkdir` leaves the path with an empty directory. -/
theorem Mkdir_self (fs fs1 : Node) (p : Path) (h : Mkdir fs p = .ok fs1) :
    fs1.lookup p = .ok (.dir []) := by
  unfold Mkdir at h
  split at h
  · exact Except.noConfusion h
  · exact lookup_insert_self p _ _ _ h
  · exact Except.noConfusion h

/-- `os.Mkdir` succeeds only on a path that did not exist. -/
theorem Mkdir_notExist (fs fs1 : Node) (p : Path) (h : Mkdir fs p = .ok fs1) :
    fs.lookup p = .error .ENOENT := by
  unfold Mkdir at h
  split at h
  · exact Except.noConfusion h
  · assumption
  · exact Except.noConfusion h

/-- `os.Mkdir` leaves every file as it is and makes no file. -/
theorem Mkdir_files (fs fs1 : Node) (p : Path) (h : Mkdir fs p = .ok fs1) (q : Path)
    (c : String) (r : Bool) :
    fs1.lookup q = .ok (.file c r) ↔ fs.lookup q = .ok (.file c r) := by
  by_cases hq : q = p
  · subst hq
    rw [Mkdir_self fs fs1 q h, Mkdir_notExist fs fs1 q h]
    constructor <;> intro h2
    · simp at h2
    · exact Except.noConfusion h2
  · have hl := Mkdir_notExist fs fs1 p h
    unfold Mkdir at h
    rw [hl] at h
    exact insert_files p _ _ _ h (Or.inl hl) noFileBelow_empty q hq c r

/-! ### Writes and the directories they leave alone -/

theorem insert_isDir (p : Path) : ∀ (t new t1 : Node), p ≠ [] →
    t.insert p new = .ok t1 → t1.isDir = true := by
  intro t new t1 hp h
  cases p with
  | nil => exact absurd rfl hp
  | cons a rest =>
    cases t with
    | file c0 r0 => simp [Node.insert] at h
    | dir cs =>
      cases rest with
      | nil =>
        simp only [Node.insert, Except.ok.injEq] at h
        subst h
        rfl
      | cons c2 rest2 =>
        rw [Node.insert] at h
        cases hl : cs.lookup a with
        | none => simp [hl] at h
        | some ch =>
          simp only [hl] at h
          cases hm : ch.insert (c2 :: rest2) new with
          | error e => simp [hm] at h
          | ok child =>
            simp only [hm, Except.ok.injEq] at h
            subst h
            rfl

theorem isDir_iff (n : Node) : n.isDir = true ↔ ∃ cs, n = .dir cs := by
  cases n with
  | file c r => simp [Node.isDir]
  | dir cs => simp [Node.isDir]

/-- Putting a node at a path that named nothing or a file leaves every directory a
directory. -/
theorem insert_dirs (p : Path) : ∀ (t new t1 : Node),
    t.insert p new = .ok t1 →
    (t.lookup p = .error .ENOENT ∨ ∃ c r, t.lookup p = .ok (.file c r)) →
    ∀ (q : Path) (cs : List (String × Node)), t.lookup q = .ok (.dir cs) →
      ∃ cs1, t1.lookup q = .ok (.dir cs1) := by
  induction p with
  | nil =>
    intro t new t1 h hp q cs hq
    exfalso
    rcases hp with hp | ⟨c0, r0, hp⟩
    · simp [Node.lookup] at hp
    · simp only [Node.lookup, Except.ok.injEq] at hp
      subst hp
      cases q with
      | nil => simp [Node.lookup] at hq
      | cons x q =>
        rw [lookup_file_cons] at hq
        exact Except.noConfusion hq
  | cons a rest ih =>
    intro t new t1 h hp q cs hq
    cases t with
    | file c0 r0 => simp [Node.insert] at h
    | dir cs0 =>
      cases q with
      | nil =>
        obtain ⟨cs1, h1⟩ := (isDir_iff t1).1 (insert_isDir _ _ _ _ (by simp) h)
        exact ⟨cs1, by rw [h1]; simp [Node.lookup]⟩
      | cons b q =>
        by_cases hba : b = a
        · subst hba
          rw [Node.lookup] at hq
          cases hl : cs0.lookup b with
          | none => simp [hl] at hq
          | some ch =>
            simp only [hl] at hq
            cases rest with
            | nil =>
              exfalso
              rw [Node.lookup] at hp
              simp only [hl] at hp
              rcases hp with hp | ⟨c0, r0, hp⟩
              · simp [Node.lookup] at hp
              · simp only [Node.lookup, Except.ok.injEq] at hp
                subst hp
                cases q with
                | nil => simp [Node.lookup] at hq
                | cons x q =>
                  rw [lookup_file_cons] at hq
                  exact Except.noConfusion hq
            | cons c2 rest2 =>
              rw [Node.insert] at h
              simp only [hl] at h
              cases hm : ch.insert (c2 :: rest2) new with
              | error e => simp [hm] at h
              | ok child =>
                simp only [hm, Except.ok.injEq] at h
                subst h
                rw [Node.lookup]
                simp only [lookup_setChild_self]
                refine ih ch new child hm ?_ q cs hq
                rw [Node.lookup] at hp
                simpa only [hl] using hp
        · have hsame : ∀ v, (Node.dir (setChild a v cs0)).lookup (b :: q) =
              (Node.dir cs0).lookup (b :: q) := by
            intro v
            rw [Node.lookup, Node.lookup, lookup_setChild_ne a b v cs0 hba]
          cases rest with
          | nil =>
            simp only [Node.insert, Except.ok.injEq] at h
            subst h
            exact ⟨cs, by rw [hsame]; exact hq⟩
          | cons c2 rest2 =>
            rw [Node.insert] at h
            cases hl : cs0.lookup a with
            | none => simp [hl] at h
            | some ch =>
              simp only [hl] at h
              cases hm : ch.insert (c2 :: rest2) new with
              | error e => simp [hm] at h
              | ok child =>
                simp only [hm, Except.ok.injEq] at h
                subst h
                exact ⟨cs, by rw [hsame]; exact hq⟩

theorem mkdirAll_isDir (p : Path) (t t1 : Node) (h : t.mkdirAll p = .ok t1) :
    t1.isDir = true := by
  cases t with
  | file c0 r0 => cases p <;> simp [Node.mkdirAll] at h
  | dir cs =>
    cases p with
    | nil =>
      simp only [Node.mkdirAll, Except.ok.injEq] at h
      subst h
      rfl
    | cons a rest =>
      rw [Node.mkdirAll] at h
      split at h
      · simp only [Except.ok.injEq] at h
        subst h
        rfl
      · exact Except.noConfusion h

/-- `os.MkdirAll` leaves every directory a directory. -/
theorem mkdirAll_dirs (p : Path) : ∀ (t t1 : Node), t.mkdirAll p = .ok t1 →
    ∀ (q : Path) (cs : List (String × Node)), t.lookup q = .ok (.dir cs) →
      ∃ cs1, t1.lookup q = .ok (.dir cs1) := by
  induction p with
  | nil =>
    intro t t1 h q cs hq
    cases t with
    | file c0 r0 => simp [Node.mkdirAll] at h
    | dir cs0 =>
      simp only [Node.mkdirAll, Except.ok.injEq] at h
      subst h
      exact ⟨cs, hq⟩
  | cons a rest ih =>
    intro t t1 h q cs hq
    cases t with
    | file c0 r0 => simp [Node.mkdirAll] at h
    | dir cs0 =>
      cases q with
      | nil =>
        obtain ⟨cs1, h1⟩ := (isDir_iff t1).1 (mkdirAll_isDir _ _ _ h)
        exact ⟨cs1, by rw [h1]; simp [Node.lookup]⟩
      | cons b q =>
        rw [Node.mkdirAll] at h
        by_cases hba : b = a
        · subst hba
          rw [Node.lookup] at hq
          cases hl : cs0.lookup b with
          | none => simp [hl] at hq
          | some ch =>
            simp only [hl] at hq h
            cases hm : ch.mkdirAll rest with
            | error e => simp [hm] at h
            | ok child =>
              simp only [hm, Except.ok.injEq] at h
              subst h
              rw [Node.lookup]
              simp only [lookup_setChild_self]
              exact ih ch child hm q cs hq
        · have hsame : ∀ v, (Node.dir (setChild a v cs0)).lookup (b :: q) =
              (Node.dir cs0).lookup (b :: q) := by
            intro v
            rw [Node.lookup, Node.lookup, lookup_setChild_ne a b v cs0 hba]
          split at h
          · simp only [Except.ok.injEq] at h
            subst h
            exact ⟨cs, by rw [hsame]; exact hq⟩
          · exact Except.noConfusion h

theorem MkdirAll_dirs (fs fs1 : Node) (p : Path) (h : MkdirAll fs p = .ok fs1) (q : Path)
    (cs : List (String × Node)) (hq : fs.lookup q = .ok (.dir cs)) :
    ∃ cs1, fs1.lookup q = .ok (.dir cs1) :=
  mkdirAll_dirs p fs fs1 h q cs hq

/-- `os.WriteFile` leaves every directory a directory. -/
theorem WriteFile_dirs (fs fs1 : Node) (p : Path) (content : String)
    (h : WriteFile fs p content = .ok fs1) (q : Path) (cs : List (String × Node))
    (hq : fs.lookup q = .ok (.dir cs)) : ∃ cs1, fs1.lookup q = .ok (.dir cs1) := by
  unfold WriteFile at h
  split at h
  · exact Except.noConfusion h
  · next c0 r0 hl => exact insert_dirs p _ _ _ h (Or.inr ⟨c0, r0, hl⟩) q cs hq
  · next hl => exact insert_dirs p _ _ _ h (Or.inl hl) q cs hq
  · exact Except.noConfusion h

/-- A node can be put under every name in a directory that exists. -/
theorem insert_ok_of_dir (d : Path) : ∀ (t new : Node) (x : String)
    (cs : List (String × Node)), t.lookup d = .ok (.dir cs) →
    ∃ t1, t.insert (d ++ [x]) new = .ok t1 := by
  induction d with
  | nil =>
    intro t new x cs h
    simp only [Node.lookup, Except.ok.injEq] at h
    subst h
    exact ⟨_, rfl⟩
  | cons a rest ih =>
    intro t new x cs h
    cases t with
    | file c0 r0 =>
      rw [lookup_file_cons] at h
      exact Except.noConfusion h
    | dir cs0 =>
      rw [Node.lookup] at h
      cases hl : cs0.lookup a with
      | none => simp [hl] at h
      | some ch =>
        simp only [hl] at h
        obtain ⟨t1, h1⟩ := ih ch new x cs h
        cases hr : rest ++ [x] with
        | nil => simp at hr
        | cons c2 rest2 =>
          rw [hr] at h1
          refine ⟨.dir (setChild a t1 cs0), ?_⟩
          rw [List.cons_append, hr, Node.insert]
          simp only [hl, h1]

/-- `os.WriteFile` succeeds on a name that does not exist in a directory that
exists. -/
theorem WriteFile_new (fs : Node) (d : Path) (x content : String)
    (cs : List (String × Node)) (hd : fs.lookup d = .ok (.dir cs))
    (hx : statOk fs (d ++ [x]) = false) :
    ∃ fs1, WriteFile fs (d ++ [x]) content = .ok fs1 ∧
      fs1.lookup (d ++ [x]) = .ok (.file content true) := by
  have hl : fs.lookup (d ++ [x]) = .error .ENOENT := by
    rw [lookup_append fs d [x] _ hd, Node.lookup]
    unfold statOk Stat at hx
    rw [lookup_append fs d [x] _ hd, Node.lookup] at hx
    cases hc : cs.lookup x with
    | none => rfl
    | some ch =>
      simp only [hc] at hx
      simp [Node.lookup] at hx
  obtain ⟨fs1, h1⟩ := insert_ok_of_dir d fs (.file content true) x cs hd
  refine ⟨fs1, ?_, lookup_insert_self _ _ _ _ h1⟩
  unfold WriteFile
  rw [hl]
  exact h1

mutual
/-- An invariant that every call of the walk function keeps is kept by the walk. -/
theorem walk_invariant_all {σ : Type} (fn : Path → Except Errno FileInfo → σ → σ × WalkRes)
    (I : σ → Prop) (hfn : ∀ p i s, I s → I (fn p i s).1) :
    ∀ (node : Node) (p : Path) (s : σ), I s → I (walk fn p node s).1
  | .file c r, p, s, hs => by
    rw [walk]
    exact hfn _ _ _ hs
  | .dir cs, p, s, hs => by
    rw [walk]
    split
    · exact walkNames_invariant_all fn I hfn cs p _ (hfn _ _ _ hs)
    · exact hfn _ _ _ hs
/-- An invariant that every call of the walk function keeps is kept by the loop of the
walk over a directory. -/
theorem walkNames_invariant_all {σ : Type}
    (fn : Path → Except Errno FileInfo → σ → σ × WalkRes)
    (I : σ → Prop) (hfn : ∀ p i s, I s → I (fn p i s).1) :
    ∀ (cs : List (String × Node)) (p : Path) (s : σ), I s → I (walkNames fn p cs s).1
  | [], p, s, hs => by
    rw [walkNames]
    exact hs
  | (name, child) :: rest, p, s, hs => by
    have h1 := walk_invariant_all fn I hfn child (joinPath p name) s hs
    rw [walkNames]
    split
    · exact walkNames_invariant_all fn I hfn rest p _ h1
    · split_ifs
      · exact walkNames_invariant_all fn I hfn rest p _ h1
      · exact h1
    · exact h1
end

theorem Walk_ok {σ : Type} (fs : Node) (root : Path)
    (fn : Path → Except Errno FileInfo → σ → σ × WalkRes) (s : σ) (n : Node)
    (h : fs.lookup root = .ok n) :
    Walk fs root fn s = ((walk fn root n.sorted s).1, endOfWalk (walk fn root n.sorted s).2) := by
  unfold Walk
  rw [h]
  simp only
  generalize walk fn root n.sorted s = r
  obtain ⟨a, b⟩ := r
  cases b <;> rfl

theorem Walk_error {σ : Type} (fs : Node) (root : Path)
    (fn : Path → Except Errno FileInfo → σ → σ × WalkRes) (s : σ) (e : Errno)
    (h : fs.lookup root = .error e) :
    Walk fs root fn s = ((fn root (.error e) s).1, endOfWalk (fn root (.error e) s).2) := by
  unfold Walk
  rw [h]
  simp only
  generalize fn root (.error e) s = r
  obtain ⟨a, b⟩ := r
  cases b <;> rfl

/-- An invariant that every call of the walk function keeps is kept by `filepath.Walk`. -/
theorem Walk_invariant_all {σ : Type} (fs : Node) (root : Path)
    (fn : Path → Except Errno FileInfo → σ → σ × WalkRes)
    (I : σ → Prop) (hfn : ∀ p i s, I s → I (fn p i s).1) (s : σ) (hs : I s) :
    I (Walk fs root fn s).1 := by
  cases hl : fs.lookup root with
  | error e =>
    rw [Walk_error fs root fn s e hl]
    exact hfn _ _ _ hs
  | ok n =>
    rw [Walk_ok fs root fn s n hl]
    exact walk_invariant_all fn I hfn _ _ _ hs

/-! ### The parts of a document -/

theorem isPrefixOf_eq_append (sep s : List Char) (h : sep.isPrefixOf s = true) :
    s = sep ++ s.drop sep.length := by
  have hp : sep <+: s := List.isPrefixOf_iff_prefix.1 h
  exact (List.prefix_iff_eq_append.1 hp).symm

/-- What `cut` returns is the split at the first occurrence of the separator. -/
theorem cut_splits (sep : List Char) : ∀ (s a b : List Char), cut sep s = some (a, b) →
    SplitsAtFirst sep s a b := by
  intro s
  induction s with
  | nil =>
    intro a b h
    rw [cut] at h
    split_ifs at h with hp
    simp only [Option.some.injEq, Prod.mk.injEq] at h
    obtain ⟨rfl, rfl⟩ := h
    have hsep : sep = [] := by
      cases sep with
      | nil => rfl
      | cons x xs => simp [List.isPrefixOf] at hp
    subst hsep
    exact ⟨rfl, fun a1 b1 _ => Nat.zero_le _⟩
  | cons c cs ih =>
    intro a b h
    rw [cut] at h
    split_ifs at h with hp
    · simp only [Option.some.injEq, Prod.mk.injEq] at h
      obtain ⟨rfl, rfl⟩ := h
      refine ⟨?_, fun a1 b1 _ => Nat.zero_le _⟩
      rw [List.nil_append]
      exact isPrefixOf_eq_append sep (c :: cs) hp
    · cases hc : cut sep cs with
      | none => simp [hc] at h
      | some ab =>
        obtain ⟨a0, b0⟩ := ab
        simp only [hc, Option.some.injEq, Prod.mk.injEq] at h
        obtain ⟨rfl, rfl⟩ := h
        obtain ⟨heq, hmin⟩ := ih a0 b0 hc
        refine ⟨by rw [heq]; simp, ?_⟩
        intro a1 b1 h1
        cases a1 with
        | nil =>
          exfalso
          apply hp
          rw [List.nil_append] at h1
          rw [h1]
          exact List.isPrefixOf_iff_prefix.2 (List.prefix_append _ _)
        | cons x a1 =>
          simp only [List.cons_append, List.cons.injEq] at h1
          have := hmin a1 b1 h1.2
          simp only [List.length_cons]
          omega

/-- When `cut` returns nothing, the separator does not occur. -/
theorem cut_none (sep : List Char) : ∀ (s : List Char), cut sep s = none →
    ∀ a1 b1 : List Char, s ≠ a1 ++ sep ++ b1 := by
  intro s
  induction s with
  | nil =>
    intro h a1 b1 h1
    rw [cut] at h
    split_ifs at h with hp
    have h2 : a1 ++ sep ++ b1 = [] := h1.symm
    simp only [List.append_eq_nil] at h2
    apply hp
    rw [h2.1.2]
    rfl
  | cons c cs ih =>
    intro h a1 b1 h1
    rw [cut] at h
    split_ifs at h with hp
    cases hc : cut sep cs with
    | some ab => simp [hc] at h
    | none =>
      cases a1 with
      | nil =>
        apply hp
        rw [List.nil_append] at h1
        rw [h1]
        exact List.isPrefixOf_iff_prefix.2 (List.prefix_append _ _)
      | cons x a1 =>
        simp only [List.cons_append, List.cons.injEq] at h1
        exact ih hc a1 b1 h1.2

/-- The split at the first occurrence of the separator is what `cut` returns. -/
theorem cut_of_splits (sep s a b : List Char) (h : SplitsAtFirst sep s a b) :
    cut sep s = some (a, b) := by
  cases hc : cut sep s with
  | none => exact absurd h.1 (cut_none sep s hc a b)
  | some ab =>
    obtain ⟨a0, b0⟩ := ab
    obtain ⟨heq0, hmin0⟩ := cut_splits sep s a0 b0 hc
    obtain ⟨heq, hmin⟩ := h
    have hlen : a0.length = a.length :=
      Nat.le_antisymm (hmin0 a b heq) (hmin a0 b0 heq0)
    have h2 : a0 ++ (sep ++ b0) = a ++ (sep ++ b) := by
      rw [← List.append_assoc, ← List.append_assoc, ← heq0, ← heq]
    have ha : a0 = a := List.append_inj_left h2 hlen
    subst ha
    have h3 := List.append_cancel_left (List.append_cancel_left h2)
    rw [h3]

theorem splitN_of_cuts (sep s a tail pre rest : List Char) (c1 : cut sep s = some (a, tail))
    (c2 : cut sep tail = some (pre, rest)) : splitN sep 3 s = [a, pre, rest] := by
  rw [splitN, c1]
  simp only
  rw [splitN, c2]
  simp only [splitN]

theorem splitN_length_of_cut_none (sep s : List Char) (c1 : cut sep s = none) :
    (splitN sep 3 s).length = 1 := by
  rw [splitN, c1]
  rfl

theorem splitN_length_of_cut_some_none (sep s a tail : List Char)
    (c1 : cut sep s = some (a, tail)) (c2 : cut sep tail = none) :
    (splitN sep 3 s).length = 2 := by
  rw [splitN, c1]
  simp only
  rw [splitN, c2]
  rfl

/-- The three parts that `strings.SplitN(content, "---", 3)` returns for a document with
the marker twice are the parts around its first two occurrences. -/
theorem SplitN_of_marked (content a pre rest : String) (h : MarkedParts content a pre rest) :
    SplitN content "---" 3 = [a, pre, rest] := by
  obtain ⟨tail, h1, h2⟩ := h
  have c1 := cut_of_splits _ _ _ _ h1
  have c2 := cut_of_splits _ _ _ _ h2
  unfold SplitN
  rw [splitN_of_cuts _ _ _ _ _ _ c1 c2]
  rfl

/-- A document in which the marker occurs twice has the three parts. -/
theorem marked_of_count (content : String) (h : 2 ≤ Count content "---") :
    ∃ a pre rest : String, MarkedParts content a pre rest := by
  have hlen : ¬ (SplitN content "---" 3).length < 3 := by
    rw [SplitN_three_length]
    omega
  unfold SplitN at hlen
  rw [List.length_map] at hlen
  cases c1 : cut "---".toList content.toList with
  | none =>
    rw [splitN_length_of_cut_none _ _ c1] at hlen
    omega
  | some ab =>
    obtain ⟨a, tail⟩ := ab
    cases c2 : cut "---".toList tail with
    | none =>
      rw [splitN_length_of_cut_some_none _ _ _ _ c1 c2] at hlen
      omega
    | some pr =>
      obtain ⟨pre, rest⟩ := pr
      exact ⟨String.mk a, String.mk pre, String.mk rest, tail, cut_splits _ _ _ _ c1,
        cut_splits _ _ _ _ c2⟩

/-- A document with the three parts has the marker twice. -/
theorem count_of_marked (content a pre rest : String) (h : MarkedParts content a pre rest) :
    2 ≤ Count content "---" := by
  by_contra hc
  have hlen := (SplitN_three_length content).2 (by omega)
  rw [SplitN_of_marked content a pre rest h] at hlen
  simp at hlen

/-! ### The copy step of `generateConvertedSkill` -/

theorem joinPath_dot (p : Path) : joinPath p "." = p := by
  simp [joinPath, pathElems, splitOnSlash, cleanStep]

/-- The destination of a node of the source: the same relative path below the
destination directory. -/
theorem destPath_eq (sourceDir destDir rel : Path) (h : ∀ c ∈ rel, validName c = true) :
    joinPath destDir (Rel sourceDir (sourceDir ++ rel)) = destDir ++ rel := by
  cases rel with
  | nil =>
    rw [List.append_nil, List.append_nil]
    unfold Rel
    rw [if_pos rfl]
    exact joinPath_dot destDir
  | cons c cs =>
    rw [Rel_append]
    unfold joinPath
    rw [pathElems_joinSlash c cs h]
    exact foldl_cleanStep_valid true (c :: cs) h destDir

/-- A prefix of a path that resolves resolves. -/
theorem lookup_prefix_ok (p : Path) : ∀ (t : Node) (q : Path) (n : Node),
    t.lookup (p ++ q) = .ok n → ∃ m, t.lookup p = .ok m := by
  induction p with
  | nil =>
    intro t q n _
    exact ⟨t, by simp [Node.lookup]⟩
  | cons a rest ih =>
    intro t q n h
    cases t with
    | file c r =>
      rw [List.cons_append, lookup_file_cons] at h
      exact Except.noConfusion h
    | dir cs =>
      rw [List.cons_append, Node.lookup] at h
      rw [Node.lookup]
      cases hl : cs.lookup a with
      | none => simp [hl] at h
      | some ch =>
        simp only [hl] at h ⊢
        exact ih ch q n h

/-- Nothing is below a path that does not exist. -/
theorem lookup_below_notExist (fs : Node) (p q : Path) (h : NotExist fs p = true) (n : Node) :
    fs.lookup (p ++ q) ≠ .ok n := by
  intro hl
  obtain ⟨m, hm⟩ := lookup_prefix_ok p fs q n hl
  unfold NotExist Stat at h
  rw [hm] at h
  simp at h

/-- `os.WriteFile` leaves a file where a file was. -/
theorem WriteFile_keeps_file (fs fs1 : Node) (p : Path) (content : String)
    (h : WriteFile fs p content = .ok fs1) (q : Path)
    (hq : ∃ c r, fs.lookup q = .ok (.file c r)) : ∃ c r, fs1.lookup q = .ok (.file c r) := by
  by_cases hqp : q = p
  · subst hqp
    obtain ⟨r, hr⟩ := WriteFile_self fs fs1 q content h
    exact ⟨content, r, hr⟩
  · obtain ⟨c, r, hc⟩ := hq
    exact ⟨c, r, (WriteFile_files fs fs1 p content h q hqp c r).2 hc⟩

/-- A call of the walk function of `generateConvertedSkill` on a node of the source
leaves every file as it is, and makes no file, at a path that is neither the destination
of the node, when the node is a file, nor the `README.md` of the destination. -/
theorem copyWalkFn_files (data : SkillData) (sourceDir destDir rel : Path) (info : FileInfo)
    (s : Node) (hvalid : ∀ c ∈ rel, validName c = true) (q : Path)
    (h1 : info.isDir = false → q ≠ destDir ++ rel) (h2 : q ≠ destDir ++ ["README.md"])
    (c : String) (r : Bool) :
    (copyWalkFn data sourceDir destDir (sourceDir ++ rel) (.ok info) s).1.lookup q =
        .ok (.file c r) ↔ s.lookup q = .ok (.file c r) := by
  unfold copyWalkFn
  simp only
  rw [destPath_eq sourceDir destDir rel hvalid, joinPath_valid destDir "README.md" (by decide)]
  split_ifs with hd hn
  · cases hm : MkdirAll s (destDir ++ rel) with
    | error e => exact Iff.rfl
    | ok s1 => exact MkdirAll_files s s1 _ hm q c r
  · have hq := h1 (by simpa using hd)
    cases hr : ReadFile s (sourceDir ++ rel) with
    | error e => exact Iff.rfl
    | ok content =>
      simp only
      cases hw : WriteFile s (destDir ++ ["README.md"])
          (convertedReadme data.Name data.Description) with
      | error e => exact Iff.rfl
      | ok s1 =>
        simp only
        have hs1 := WriteFile_files s s1 _ _ hw q h2 c r
        split
        · exact hs1
        · next s2 hw2 =>
          exact (WriteFile_files s1 s2 _ _ hw2 q hq c r).trans hs1
  · have hq := h1 (by simpa using hd)
    cases hr : ReadFile s (sourceDir ++ rel) with
    | error e => exact Iff.rfl
    | ok content =>
      simp only
      split
      · exact Iff.rfl
      · next s1 hw => exact WriteFile_files s s1 _ _ hw q hq c r

/-- A call of the walk function of `generateConvertedSkill` leaves a file where a file
was. -/
theorem copyWalkFn_keeps_file (data : SkillData) (sourceDir destDir : Path) (p : Path)
    (i : Except Errno FileInfo) (s : Node) (q : Path)
    (h : ∃ c r, s.lookup q = .ok (.file c r)) :
    ∃ c r, (copyWalkFn data sourceDir destDir p i s).1.lookup q = .ok (.file c r) := by
  unfold copyWalkFn
  cases i with
  | error e => exact h
  | ok info =>
    simp only
    split_ifs with hd hn
    · cases hm : MkdirAll s (joinPath destDir (Rel sourceDir p)) with
      | error e => exact h
      | ok s1 =>
        obtain ⟨c, r, hc⟩ := h
        exact ⟨c, r, (MkdirAll_files s s1 _ hm q c r).2 hc⟩
    · cases hr : ReadFile s p with
      | error e => exact h
      | ok content =>
        simp only
        cases hw : WriteFile s (joinPath destDir "README.md")
            (convertedReadme data.Name data.Description) with
        | error e => exact h
        | ok s1 =>
          simp only
          have h1 := WriteFile_keeps_file s s1 _ _ hw q h
          split
          · exact h1
          · next s2 hw2 => exact WriteFile_keeps_file s1 s2 _ _ hw2 q h1
    · cases hr : ReadFile s p with
      | error e => exact h
      | ok content =>
        simp only
        split
        · exact h
        · next s1 hw => exact WriteFile_keeps_file s s1 _ _ hw q h

/-- A call of the walk function of `generateConvertedSkill` on a node of the source
whose destination is not the `README.md` of the destination directory leaves a
synthesized `README.md` as it is. -/
theorem copyWalkFn_keeps_readme (data : SkillData) (sourceDir destDir rel : Path)
    (info : FileInfo) (s : Node) (hvalid : ∀ c ∈ rel, validName c = true)
    (hrel : rel ≠ ["README.md"])
    (h : ∃ r, s.lookup (destDir ++ ["README.md"]) =
      .ok (.file (convertedReadme data.Name data.Description) r)) :
    ∃ r, (copyWalkFn data sourceDir destDir (sourceDir ++ rel) (.ok info) s).1.lookup
      (destDir ++ ["README.md"]) =
        .ok (.file (convertedReadme data.Name data.Description) r) := by
  have hne : destDir ++ ["README.md"] ≠ destDir ++ rel := by
    intro hc
    exact hrel (List.append_cancel_left hc).symm
  unfold copyWalkFn
  simp only
  rw [destPath_eq sourceDir destDir rel hvalid, joinPath_valid destDir "README.md" (by decide)]
  obtain ⟨r, hr0⟩ := h
  split_ifs with hd hn
  · cases hm : MkdirAll s (destDir ++ rel) with
    | error e => exact ⟨r, hr0⟩
    | ok s1 => exact ⟨r, (MkdirAll_files s s1 _ hm _ _ r).2 hr0⟩
  · cases hr : ReadFile s (sourceDir ++ rel) with
    | error e => exact ⟨r, hr0⟩
    | ok content =>
      simp only
      cases hw : WriteFile s (destDir ++ ["README.md"])
          (convertedReadme data.Name data.Description) with
      | error e => exact ⟨r, hr0⟩
      | ok s1 =>
        simp only
        obtain ⟨r1, hr1⟩ := WriteFile_self s s1 _ _ hw
        split
        · exact ⟨r1, hr1⟩
        · next s2 hw2 =>
          exact ⟨r1, (WriteFile_files s1 s2 _ _ hw2 _ hne _ r1).2 hr1⟩
  · cases hr : ReadFile s (sourceDir ++ rel) with
    | error e => exact ⟨r, hr0⟩
    | ok content =>
      simp only
      split
      · exact ⟨r, hr0⟩
      · next s1 hw => exact ⟨r, (WriteFile_files s s1 _ _ hw _ hne _ r).2 hr0⟩

/-! ### The search and the preamble of `analyzeSource`, the destination check, the
scratch directory -/

/-- C11: on the extracted tree `exExtracted`, which has a `SKILL.md` in `x/bar`, in
`y/open` and in `z/nodesc`, the first file named `SKILL.md` of the depth-first, lexically
ordered traversal is the one in `x/bar`, which alone has a complete preamble; the walk of
`analyzeSource` ends with the one in `z/nodesc`, the last it met, and `analyzeSource`
reports that one's missing description instead of returning the skill in `x/bar`. -/
theorem analyzeSource_keeps_last_match :
    specFirstSkillMD exExtracted ["tmp"] = some ["tmp", "x", "bar", "SKILL.md"] ∧
    (Walk exExtracted ["tmp"] analyzeWalkFn none).1 = some ["tmp", "z", "nodesc", "SKILL.md"] ∧
    analyzeSource exLibs exExtracted ["tmp"] = .error "YAML missing 'name' or 'description'" ∧
    analyzeSource exLibs exExtracted ["tmp", "x"] =
      .ok ["tmp", "x", "bar"]
        { Name := "bar", Description := "a valid twenty-plus character description" } := by
  refine ⟨by decide, by decide, by decide, by decide⟩

/-- C12, as stated, fails: the `SKILL.md` of `exLateMarker` begins with a heading, not
with the marker, and `analyzeSource` returns the record of the preamble between its two
markers. -/
theorem analyzeSource_accepts_late_marker :
    ReadFile exLateMarker ["tmp", "p", "bar", "SKILL.md"] =
      .ok "# Bar\n---\nname: bar\ndescription: a valid twenty-plus character description\n---\nbody\n" ∧
    "---".toList.isPrefixOf
      "# Bar\n---\nname: bar\ndescription: a valid twenty-plus character description\n---\nbody\n".toList
      = false ∧
    analyzeSource exLibs exLateMarker ["tmp", "p"] =
      .ok ["tmp", "p", "bar"]
        { Name := "bar", Description := "a valid twenty-plus character description" } := by
  refine ⟨rfl, by decide, by decide⟩

/-- C12, amended: for the `SKILL.md` that `analyzeSource` finds and reads, with fewer
than two occurrences of the three-hyphen marker the extraction fails with the
no-frontmatter diagnostic and returns no record; with two occurrences the document has
the three parts around its first two markers, wherever the first marker stands, and the
outcome is that of decoding the part between them. -/
theorem analyzeSource_preamble (L : Libs) (fs : Node) (searchDir p : Path) (content : String)
    (hfound : (Walk fs searchDir analyzeWalkFn none).1 = some p)
    (hread : ReadFile fs p = .ok content) :
    (Count content "---" < 2 →
      analyzeSource L fs searchDir = .error "SKILL.md has no YAML frontmatter" ∧
      ∀ dir fm, analyzeSource L fs searchDir ≠ .ok dir fm) ∧
    (2 ≤ Count content "---" → ∃ a pre rest : String, MarkedParts content a pre rest) ∧
    (∀ a pre rest : String, MarkedParts content a pre rest →
      analyzeSource L fs searchDir =
        match L.yamlUnmarshal pre with
        | .error err => .error err
        | .ok fm =>
          if fm.Name = "" ∨ fm.Description = "" then
            .error "YAML missing 'name' or 'description'"
          else .ok (Dir p) fm) := by
  have h := analyzeSource_of_read L fs searchDir p content hfound hread
  refine ⟨?_, marked_of_count content, ?_⟩
  · intro hc
    have hlen := (SplitN_three_length content).2 hc
    rw [if_pos hlen] at h
    refine ⟨h, ?_⟩
    intro dir fm h2
    rw [h] at h2
    exact AnalyzeResult.noConfusion h2
  · intro a pre rest hm
    rw [h, SplitN_of_marked content a pre rest hm]
    rfl

theorem analyzeSource_preamble_witness :
    (Walk exLateMarker ["tmp", "p"] analyzeWalkFn none).1 =
      some ["tmp", "p", "bar", "SKILL.md"] ∧
    MarkedParts
      "# Bar\n---\nname: bar\ndescription: a valid twenty-plus character description\n---\nbody\n"
      "# Bar\n" "\nname: bar\ndescription: a valid twenty-plus character description\n"
      "\nbody\n" ∧
    analyzeSource exLibs exLateMarker ["tmp", "p"] =
      .ok ["tmp", "p", "bar"]
        { Name := "bar", Description := "a valid twenty-plus character description" } := by
  have hm : MarkedParts
      "# Bar\n---\nname: bar\ndescription: a valid twenty-plus character description\n---\nbody\n"
      "# Bar\n" "\nname: bar\ndescription: a valid twenty-plus character description\n"
      "\nbody\n" := ⟨_, cut_splits _ _ _ _ (by rfl), cut_splits _ _ _ _ (by rfl)⟩
  refine ⟨by decide, hm, ?_⟩
  rw [(analyzeSource_preamble exLibs exLateMarker ["tmp", "p"]
    ["tmp", "p", "bar", "SKILL.md"] _ (by decide) (by rfl)).2.2 _ _ _ hm]
  rfl

/-- C17: when the name of the manifest exists as a path in the working directory, both
`generateConvertedSkill` and `scaffold.Create` return the error
`directory '<name>' already exists`, and the filesystem and the record are as they
were: nothing was created or written. -/
theorem destination_exists_error (C : ConvLibs) (fs : Node) (cwd dest sourceDir : Path)
    (data : SkillData) (info : FileInfo)
    (hdest : osPath cwd data.Name = .ok dest) (hstat : Stat fs dest = .ok info) :
    generateConvertedSkill C fs cwd data sourceDir =
      { fs := fs, data := data,
        err := some (.text ("directory '" ++ data.Name ++ "' already exists")) } ∧
    scaffold.Create C fs cwd data =
      { fs := fs, err := some (.text ("directory '" ++ data.Name ++ "' already exists")) } := by
  have hne : NotExist fs dest = false := by
    unfold NotExist
    rw [hstat]
  constructor
  · unfold generateConvertedSkill
    simp only [hdest, hne]
    rfl
  · unfold scaffold.Create
    simp only [hdest, hne]
    rfl

theorem destination_exists_error_witness :
    osPath ["tmp", "x"] exData.Name = .ok ["tmp", "x", "bar"] ∧
    Stat exConvFs ["tmp", "x", "bar"] = .ok { name := "bar", isDir := true } ∧
    (generateConvertedSkill exConvLibs exConvFs ["tmp", "x"] exData ["tmp", "x", "bar"]).err =
      some (.text "directory 'bar' already exists") ∧
    (scaffold.Create exConvLibs exConvFs ["tmp", "x"] exData).err =
      some (.text "directory 'bar' already exists") := by
  have h := destination_exists_error exConvLibs exConvFs ["tmp", "x"] ["tmp", "x", "bar"]
    ["tmp", "x", "bar"] exData { name := "bar", isDir := true } (by rfl) (by rfl)
  refine ⟨by rfl, by rfl, ?_, ?_⟩
  · rw [h.1]
    rfl
  · rw [h.2]
    rfl

/-- C18: the run `exConvertEnv` of `runConvert`, on an archive without `SKILL.md`, fails
in the analysis and exits with code 1; the scratch directory `/tmp/skilzy-convert-1` that
it created is still there, with the extracted file in it. -/
theorem runConvert_leaves_tempDir :
    NotExist exConvertEnv.fs ["tmp", "skilzy-convert-1"] = true ∧
    (runConvert exLibs exConvLibs exConvertEnv).exitCode = 1 ∧
    Stat (runConvert exLibs exConvLibs exConvertEnv).fs ["tmp", "skilzy-convert-1"] =
      .ok { name := "skilzy-convert-1", isDir := true } ∧
    ReadFile (runConvert exLibs exConvLibs exConvertEnv).fs
      ["tmp", "skilzy-convert-1", "notes.txt"] = .ok "hi" := by
  refine ⟨by decide, by decide, by rfl, by rfl⟩

/-! ### The license step -/

/-- A call of the walk function of `generateConvertedSkill` leaves every directory a
directory. -/
theorem copyWalkFn_dirs (data : SkillData) (sourceDir destDir : Path) (p : Path)
    (i : Except Errno FileInfo) (s : Node) (q : Path)
    (h : ∃ cs, s.lookup q = .ok (.dir cs)) :
    ∃ cs, (copyWalkFn data sourceDir destDir p i s).1.lookup q = .ok (.dir cs) := by
  obtain ⟨cs, h⟩ := h
  unfold copyWalkFn
  cases i with
  | error e => exact ⟨cs, h⟩
  | ok info =>
    simp only
    split_ifs with hd hn
    · cases hm : MkdirAll s (joinPath destDir (Rel sourceDir p)) with
      | error e => exact ⟨cs, h⟩
      | ok s1 => exact MkdirAll_dirs s s1 _ hm q cs h
    · cases hr : ReadFile s p with
      | error e => exact ⟨cs, h⟩
      | ok content =>
        simp only
        cases hw : WriteFile s (joinPath destDir "README.md")
            (convertedReadme data.Name data.Description) with
        | error e => exact ⟨cs, h⟩
        | ok s1 =>
          simp only
          obtain ⟨cs1, h1⟩ := WriteFile_dirs s s1 _ _ hw q cs h
          split
          · exact ⟨cs1, h1⟩
          · next s2 hw2 => exact WriteFile_dirs s1 s2 _ _ hw2 q cs1 h1
    · cases hr : ReadFile s p with
      | error e => exact ⟨cs, h⟩
      | ok content =>
        simp only
        split
        · exact ⟨cs, h⟩
        · next s1 hw => exact WriteFile_dirs s s1 _ _ hw q cs h

theorem findLicenseFileInDir_eq (fs : Node) (dir : Path) :
    findLicenseFileInDir fs dir =
      if statOk fs (dir ++ ["LICENSE.txt"]) = true then "LICENSE.txt"
      else if statOk fs (dir ++ ["LICENSE.md"]) = true then "LICENSE.md"
      else if statOk fs (dir ++ ["LICENSE"]) = true then "LICENSE"
      else "" := by
  unfold findLicenseFileInDir
  rw [← joinPath_valid dir "LICENSE.txt" (by decide), ← joinPath_valid dir "LICENSE.md" (by decide),
    ← joinPath_valid dir "LICENSE" (by decide)]
  simp only [List.find?]
  cases statOk fs (joinPath dir "LICENSE.txt") <;>
  cases statOk fs (joinPath dir "LICENSE.md") <;>
  cases statOk fs (joinPath dir "LICENSE") <;> rfl

/-- The run of `generateConvertedSkill` when the copy step fails. -/
theorem generateConvertedSkill_of_copy_err (C : ConvLibs) (fs : Node) (cwd : Path)
    (data : SkillData) (sourceDir dest : Path) (fs1 : Node) (e : Errno)
    (hdest : osPath cwd data.Name = .ok dest) (hne : NotExist fs dest = true)
    (hmk : Mkdir fs dest = .ok fs1)
    (hcopy : (Walk fs1 sourceDir (copyWalkFn data sourceDir dest) fs1).2 = .err e) :
    generateConvertedSkill C fs cwd data sourceDir =
      { fs := (Walk fs1 sourceDir (copyWalkFn data sourceDir dest) fs1).1, data := data,
        err := some (.os "failed to copy skill files: " e) } := by
  unfold generateConvertedSkill
  simp only [hdest, hne, hmk, Bool.not_true, Bool.false_eq_true, if_false, hcopy]

/-- The run of `generateConvertedSkill` when the copy step does not fail. -/
theorem generateConvertedSkill_of_copy_ok (C : ConvLibs) (fs : Node) (cwd : Path)
    (data : SkillData) (sourceDir dest : Path) (fs1 : Node)
    (hdest : osPath cwd data.Name = .ok dest) (hne : NotExist fs dest = true)
    (hmk : Mkdir fs dest = .ok fs1)
    (hcopy : ∀ e, (Walk fs1 sourceDir (copyWalkFn data sourceDir dest) fs1).2 ≠ .err e) :
    generateConvertedSkill C fs cwd data sourceDir =
      match iconStep
        (licenseStep (Walk fs1 sourceDir (copyWalkFn data sourceDir dest) fs1).1 dest data).1 dest
        (licenseStep (Walk fs1 sourceDir (copyWalkFn data sourceDir dest) fs1).1 dest data).2 with
      | .error e =>
        { fs := (licenseStep (Walk fs1 sourceDir (copyWalkFn data sourceDir dest) fs1).1 dest
            data).1,
          data := (licenseStep (Walk fs1 sourceDir (copyWalkFn data sourceDir dest) fs1).1 dest
            data).2,
          err := some (.os "failed to create default icon: " e) }
      | .ok fs4 =>
        match scaffold.WriteManifest C fs4 dest
          (licenseStep (Walk fs1 sourceDir (copyWalkFn data sourceDir dest) fs1).1 dest data).2 with
        | .error err =>
          { fs := fs4,
            data := (licenseStep (Walk fs1 sourceDir (copyWalkFn data sourceDir dest) fs1).1 dest
              data).2,
            err := some err }
        | .ok fs5 =>
          { fs := fs5,
            data := (licenseStep (Walk fs1 sourceDir (copyWalkFn data sourceDir dest) fs1).1 dest
              data).2,
            err := none } := by
  unfold generateConvertedSkill
  simp only [hdest, hne, hmk, Bool.not_true, Bool.false_eq_true, if_false]

/-- What `generateConvertedSkill` leaves in the record when the copy step did not fail. -/
theorem generateConvertedSkill_data (C : ConvLibs) (fs : Node) (cwd : Path) (data : SkillData)
    (sourceDir dest : Path) (fs1 : Node)
    (hdest : osPath cwd data.Name = .ok dest) (hne : NotExist fs dest = true)
    (hmk : Mkdir fs dest = .ok fs1)
    (hcopy : ∀ e, (Walk fs1 sourceDir (copyWalkFn data sourceDir dest) fs1).2 ≠ .err e) :
    (generateConvertedSkill C fs cwd data sourceDir).data =
      (licenseStep (Walk fs1 sourceDir (copyWalkFn data sourceDir dest) fs1).1 dest data).2 := by
  rw [generateConvertedSkill_of_copy_ok C fs cwd data sourceDir dest fs1 hdest hne hmk hcopy]
  cases iconStep
      (licenseStep (Walk fs1 sourceDir (copyWalkFn data sourceDir dest) fs1).1 dest data).1 dest
      (licenseStep (Walk fs1 sourceDir (copyWalkFn data sourceDir dest) fs1).1 dest data).2 with
  | error e => rfl
  | ok fs4 =>
    simp only
    cases scaffold.WriteManifest C fs4 dest
      (licenseStep (Walk fs1 sourceDir (copyWalkFn data sourceDir dest) fs1).1 dest data).2 with
    | error err => rfl
    | ok fs5 => rfl

/-- C15: after a copy step that did not fail, `findLicenseFileInDir` returns the first
of `LICENSE.txt`, `LICENSE.md`, `LICENSE` on which `os.Stat` succeeds at the top level of
the destination, and the empty string when it succeeds on none; when a name is found the
record's `LicenseFile` is that name and nothing is written; when none is found the
placeholder file `LICENSE` is written into the destination and `LicenseFile` is
`LICENSE`. In every case `LicenseFile` is one of the three names. -/
theorem generateConvertedSkill_license (C : ConvLibs) (fs : Node) (cwd : Path)
    (data : SkillData) (sourceDir dest : Path) (fs1 : Node)
    (hdest : osPath cwd data.Name = .ok dest) (hne : NotExist fs dest = true)
    (hmk : Mkdir fs dest = .ok fs1)
    (hcopy : ∀ e, (Walk fs1 sourceDir (copyWalkFn data sourceDir dest) fs1).2 ≠ .err e) :
    findLicenseFileInDir (Walk fs1 sourceDir (copyWalkFn data sourceDir dest) fs1).1 dest =
      (if statOk (Walk fs1 sourceDir (copyWalkFn data sourceDir dest) fs1).1
          (dest ++ ["LICENSE.txt"]) = true then "LICENSE.txt"
       else if statOk (Walk fs1 sourceDir (copyWalkFn data sourceDir dest) fs1).1
          (dest ++ ["LICENSE.md"]) = true then "LICENSE.md"
       else if statOk (Walk fs1 sourceDir (copyWalkFn data sourceDir dest) fs1).1
          (dest ++ ["LICENSE"]) = true then "LICENSE"
       else "") ∧
    (findLicenseFileInDir (Walk fs1 sourceDir (copyWalkFn data sourceDir dest) fs1).1 dest ≠ "" →
      (generateConvertedSkill C fs cwd data sourceDir).data.LicenseFile =
        findLicenseFileInDir (Walk fs1 sourceDir (copyWalkFn data sourceDir dest) fs1).1 dest ∧
      (licenseStep (Walk fs1 sourceDir (copyWalkFn data sourceDir dest) fs1).1 dest data).1 =
        (Walk fs1 sourceDir (copyWalkFn data sourceDir dest) fs1).1) ∧
    (findLicenseFileInDir (Walk fs1 sourceDir (copyWalkFn data sourceDir dest) fs1).1 dest = "" →
      (generateConvertedSkill C fs cwd data sourceDir).data.LicenseFile = "LICENSE" ∧
      (licenseStep (Walk fs1 sourceDir (copyWalkFn data sourceDir dest) fs1).1 dest data).1.lookup
        (dest ++ ["LICENSE"]) = .ok (.file "License content to be added here." true)) ∧
    (generateConvertedSkill C fs cwd data sourceDir).data.LicenseFile ∈
      ["LICENSE.txt", "LICENSE.md", "LICENSE"] := by
  rw [generateConvertedSkill_data C fs cwd data sourceDir dest fs1 hdest hne hmk hcopy]
  have hdir : ∃ cs, (Walk fs1 sourceDir (copyWalkFn data sourceDir dest) fs1).1.lookup dest =
      .ok (.dir cs) :=
    Walk_invariant_all fs1 sourceDir (copyWalkFn data sourceDir dest)
      (fun s => ∃ cs, s.lookup dest = .ok (.dir cs))
      (fun p i s hs => copyWalkFn_dirs data sourceDir dest p i s dest hs) fs1
      ⟨[], Mkdir_self fs fs1 dest hmk⟩
  generalize (Walk fs1 sourceDir (copyWalkFn data sourceDir dest) fs1).1 = fs2 at hdir ⊢
  obtain ⟨cs, hdir⟩ := hdir
  have heq := findLicenseFileInDir_eq fs2 dest
  have h2 : findLicenseFileInDir fs2 dest ≠ "" →
      (licenseStep fs2 dest data).2.LicenseFile = findLicenseFileInDir fs2 dest ∧
      (licenseStep fs2 dest data).1 = fs2 := by
    intro hfound
    unfold licenseStep
    simp only [hfound, ne_eq, not_false_eq_true, if_true, and_self]
  have h3 : findLicenseFileInDir fs2 dest = "" →
      (licenseStep fs2 dest data).2.LicenseFile = "LICENSE" ∧
      (licenseStep fs2 dest data).1.lookup (dest ++ ["LICENSE"]) =
        .ok (.file "License content to be added here." true) := by
    intro hfound
    unfold licenseStep
    simp only [hfound, ne_eq, not_true_eq_false, if_false, true_and]
    have hno : statOk fs2 (dest ++ ["LICENSE"]) = false := by
      by_contra hc
      have hc1 : statOk fs2 (dest ++ ["LICENSE"]) = true := by simpa using hc
      have hne : findLicenseFileInDir fs2 dest ≠ "" := by
        rw [heq, hc1]
        split_ifs <;> simp_all
      exact hne hfound
    obtain ⟨fs3, hw, hl⟩ := WriteFile_new fs2 dest "LICENSE" "License content to be added here."
      cs hdir hno
    rw [joinPath_valid dest "LICENSE" (by decide), hw]
    exact hl
  refine ⟨heq, h2, h3, ?_⟩
  by_cases hfound : findLicenseFileInDir fs2 dest = ""
  · rw [(h3 hfound).1]
    simp
  · rw [(h2 hfound).1, heq]
    split_ifs with a b c
    · simp
    · simp
    · simp
    · exact absurd (by rw [heq, if_neg a, if_neg b, if_neg c]) hfound

theorem generateConvertedSkill_license_witness :
    Mkdir exGoodFs ["work", "bar"] = .ok exGoodFs1 ∧
    (Walk exGoodFs1 ["tmp", "x", "bar"] (copyWalkFn exData ["tmp", "x", "bar"] ["work", "bar"])
      exGoodFs1).2 = .nil ∧
    findLicenseFileInDir (Walk exGoodFs1 ["tmp", "x", "bar"]
      (copyWalkFn exData ["tmp", "x", "bar"] ["work", "bar"]) exGoodFs1).1 ["work", "bar"] = "" ∧
    (generateConvertedSkill exConvLibs exGoodFs ["work"] exData
      ["tmp", "x", "bar"]).data.LicenseFile = "LICENSE" := by
  have h0 : (Walk exGoodFs1 ["tmp", "x", "bar"]
      (copyWalkFn exData ["tmp", "x", "bar"] ["work", "bar"]) exGoodFs1).2 = .nil := by decide
  refine ⟨rfl, h0, by decide, ?_⟩
  refine ((generateConvertedSkill_license exConvLibs exGoodFs ["work"] exData ["tmp", "x", "bar"]
    ["work", "bar"] exGoodFs1 (by rfl) (by decide) rfl ?_).2.2.1 (by decide)).1
  intro e h
  rw [h0] at h
  exact WalkRes.noConfusion h

/-! ### The archive file of `runPackage` -/

/-- C20: for a validated manifest with name `n` and version `v`, the archive that
`runPackage` creates is at the path joined from the parent of the skill directory, the
output-dir setting and the file name, which is `n-v.skill` when no output name is given
and the given output name otherwise. The archive is created whenever `os.MkdirAll` and
`os.Create` succeed, as they do in every run that ends with exit code 0; the file is
there afterwards, and every other file is as it was before the run: no second file is
created. -/
theorem runPackage_archive_path (L : Libs) (flags : Flags) (w : World) (skillDir : Path)
    (n v : String) (hcwd : w.cwd = some skillDir)
    (hvalid : doValidation L w.fs skillDir = [])
    (hn : L.jsonField (readFileOrEmpty w.fs (joinPath skillDir "skill.json")) "name" = n)
    (hv : L.jsonField (readFileOrEmpty w.fs (joinPath skillDir "skill.json")) "version" = v) :
    (∀ p es, (runPackage L flags w).archive = some (p, es) →
      p = joinPath (joinPath (Dir skillDir) flags.outputDir)
        (if flags.outputName = "" then n ++ "-" ++ v ++ ".skill" else flags.outputName) ∧
      (∃ r, (runPackage L flags w).fs.lookup p = .ok (.file "" r)) ∧
      ∀ q, q ≠ p → ∀ c r, ((runPackage L flags w).fs.lookup q = .ok (.file c r) ↔
        w.fs.lookup q = .ok (.file c r))) ∧
    (∀ fs1 fs2, MkdirAll w.fs (joinPath (Dir skillDir) flags.outputDir) = .ok fs1 →
      Create fs1 (joinPath (joinPath (Dir skillDir) flags.outputDir)
        (if flags.outputName = "" then n ++ "-" ++ v ++ ".skill" else flags.outputName))
        = .ok fs2 →
      ∃ es, (runPackage L flags w).archive = some
        (joinPath (joinPath (Dir skillDir) flags.outputDir)
          (if flags.outputName = "" then n ++ "-" ++ v ++ ".skill" else flags.outputName),
          es)) ∧
    ((runPackage L flags w).exitCode = 0 → ∃ p es, (runPackage L flags w).archive = some (p, es)) := by
  subst hn hv
  unfold runPackage
  simp only [hcwd, hvalid, List.length_nil, gt_iff_lt, Nat.lt_irrefl, if_false]
  cases hmk : MkdirAll w.fs (joinPath (Dir skillDir) flags.outputDir) with
  | error e => simp
  | ok fs1 =>
    simp only
    cases hcr : Create fs1 (joinPath (joinPath (Dir skillDir) flags.outputDir)
        (if flags.outputName = "" then
          L.jsonField (readFileOrEmpty w.fs (joinPath skillDir "skill.json")) "name" ++ "-" ++
            L.jsonField (readFileOrEmpty w.fs (joinPath skillDir "skill.json")) "version" ++
            ".skill"
         else flags.outputName)) with
    | error e =>
      simp only [reduceCtorEq, false_implies, implies_true, true_and, Nat.succ_ne_zero,
        exists_false, and_true]
      intro f1 f2 h1 h2
      simp only [Except.ok.injEq] at h1
      subst h1
      rw [hcr] at h2
      exact Except.noConfusion h2
    | ok fs2 =>
      simp only
      have hfiles : ∀ q, q ≠ joinPath (joinPath (Dir skillDir) flags.outputDir)
          (if flags.outputName = "" then
            L.jsonField (readFileOrEmpty w.fs (joinPath skillDir "skill.json")) "name" ++ "-" ++
              L.jsonField (readFileOrEmpty w.fs (joinPath skillDir "skill.json")) "version" ++
              ".skill"
           else flags.outputName) → ∀ c r,
          (fs2.lookup q = .ok (.file c r) ↔ w.fs.lookup q = .ok (.file c r)) := by
        intro q hq c r
        rw [Create_files fs1 fs2 _ hcr q hq c r, MkdirAll_files w.fs fs1 _ hmk q c r]
      refine ⟨?_, ?_, ?_⟩
      · intro p es h
        split at h <;>
        · simp only [Option.some.injEq, Prod.mk.injEq] at h
          obtain ⟨rfl, _⟩ := h
          exact ⟨rfl, Create_self fs1 fs2 _ hcr, hfiles⟩
      · intro f1 f2 _ _
        split <;> exact ⟨_, rfl⟩
      · intro _
        split <;> exact ⟨_, _, rfl⟩

theorem runPackage_archive_path_witness :
    doValidation exLibs exFs ["home", "foo"] = [] ∧
    (∃ es, (runPackage exLibs { outputDir := "dist", outputName := "" }
      { fs := exFs, cwd := some ["home", "foo"] }).archive =
        some (["home", "dist", "foo-1.0.0.skill"], es)) ∧
    (∃ es, (runPackage exLibs { outputDir := "dist", outputName := "out.zip" }
      { fs := exFs, cwd := some ["home", "foo"] }).archive =
        some (["home", "dist", "out.zip"], es)) := by
  have h1 := (runPackage_archive_path exLibs { outputDir := "dist", outputName := "" }
    { fs := exFs, cwd := some ["home", "foo"] } ["home", "foo"] "foo" "1.0.0" rfl
    (by decide) (by decide) (by decide)).2.2 (by decide)
  have h2 := (runPackage_archive_path exLibs { outputDir := "dist", outputName := "out.zip" }
    { fs := exFs, cwd := some ["home", "foo"] } ["home", "foo"] "foo" "1.0.0" rfl
    (by decide) (by decide) (by decide)).2.2 (by decide)
  refine ⟨by decide, ?_, ?_⟩
  · obtain ⟨p, es, h⟩ := h1
    have hp := ((runPackage_archive_path exLibs { outputDir := "dist", outputName := "" }
      { fs := exFs, cwd := some ["home", "foo"] } ["home", "foo"] "foo" "1.0.0" rfl
      (by decide) (by decide) (by decide)).1 p es h).1
    exact ⟨es, by rw [h, hp]; rfl⟩
  · obtain ⟨p, es, h⟩ := h2
    have hp := ((runPackage_archive_path exLibs { outputDir := "dist", outputName := "out.zip" }
      { fs := exFs, cwd := some ["home", "foo"] } ["home", "foo"] "foo" "1.0.0" rfl
      (by decide) (by decide) (by decide)).1 p es h).1
    exact ⟨es, by rw [h, hp]; rfl⟩

/-! ### What the copy of a file writes -/

/-- The file that the walk function of `generateConvertedSkill` leaves at the destination
of a file it copied. -/
theorem copyWalkFn_written (data : SkillData) (sourceDir destDir rel : Path) (name : String)
    (fs : Node) (content : String) (hvalid : ∀ c ∈ rel, validName c = true)
    (hread : ReadFile fs (sourceDir ++ rel) = .ok content)
    (hok : (copyWalkFn data sourceDir destDir (sourceDir ++ rel)
      (.ok { name := name, isDir := false }) fs).2 = .nil) :
    ∃ r, (copyWalkFn data sourceDir destDir (sourceDir ++ rel)
        (.ok { name := name, isDir := false }) fs).1.lookup (destDir ++ rel) =
      .ok (.file (if name = "SKILL.md" ∧ 3 ≤ (SplitN content "---" 3).length then
        (SplitN content "---" 3).getD 2 "" else content) r) := by
  unfold copyWalkFn at hok ⊢
  simp only [hread, destPath_eq sourceDir destDir rel hvalid, Bool.false_eq_true, if_false]
    at hok ⊢
  by_cases hn : name = "SKILL.md"
  · simp only [hn, if_true, true_and] at hok ⊢
    cases hw : WriteFile fs (joinPath destDir "README.md")
        (convertedReadme data.Name data.Description) with
    | error e =>
      rw [hw] at hok
      exact WalkRes.noConfusion hok
    | ok fs1 =>
      simp only [hw] at hok ⊢
      cases hw2 : WriteFile fs1 (destDir ++ rel)
          (if (SplitN content "---" 3).length ≥ 3 then (SplitN content "---" 3).getD 2 ""
            else content) with
      | error e =>
        rw [hw2] at hok
        exact WalkRes.noConfusion hok
      | ok fs2 =>
        simp only
        exact WriteFile_self fs1 fs2 _ _ hw2
  · simp only [hn, if_false, false_and] at hok ⊢
    cases hw : WriteFile fs (destDir ++ rel) content with
    | error e =>
      rw [hw] at hok
      exact WalkRes.noConfusion hok
    | ok fs1 =>
      simp only
      exact WriteFile_self fs fs1 _ _ hw

/-- C13: when the walk function of `generateConvertedSkill` has copied a file of the
source, found at the relative path `rel`, the destination has a file at the same relative
path. For a file named `SKILL.md` whose content has the three-hyphen marker at least
twice, that file holds exactly the text `rest` that follows the second occurrence of the
marker; for a `SKILL.md` with fewer than two markers and for a file of any other name it
holds the content that was read, unchanged. -/
theorem copyWalkFn_file_content (data : SkillData) (sourceDir destDir rel : Path) (fs : Node)
    (content : String) (hvalid : ∀ c ∈ rel, validName c = true)
    (hread : ReadFile fs (sourceDir ++ rel) = .ok content)
    (hok : (copyWalkFn data sourceDir destDir (sourceDir ++ rel)
      (.ok { name := Base (sourceDir ++ rel), isDir := false }) fs).2 = .nil) :
    (Base (sourceDir ++ rel) = "SKILL.md" → 2 ≤ Count content "---" →
      ∃ a pre rest : String, MarkedParts content a pre rest ∧
        ∃ r, (copyWalkFn data sourceDir destDir (sourceDir ++ rel)
          (.ok { name := Base (sourceDir ++ rel), isDir := false }) fs).1.lookup
            (destDir ++ rel) = .ok (.file rest r)) ∧
    (Base (sourceDir ++ rel) = "SKILL.md" →
      ∀ a pre rest : String, MarkedParts content a pre rest →
        ∃ r, (copyWalkFn data sourceDir destDir (sourceDir ++ rel)
          (.ok { name := Base (sourceDir ++ rel), isDir := false }) fs).1.lookup
            (destDir ++ rel) = .ok (.file rest r)) ∧
    (Base (sourceDir ++ rel) = "SKILL.md" → Count content "---" < 2 →
      ∃ r, (copyWalkFn data sourceDir destDir (sourceDir ++ rel)
        (.ok { name := Base (sourceDir ++ rel), isDir := false }) fs).1.lookup
          (destDir ++ rel) = .ok (.file content r)) ∧
    (Base (sourceDir ++ rel) ≠ "SKILL.md" →
      ∃ r, (copyWalkFn data sourceDir destDir (sourceDir ++ rel)
        (.ok { name := Base (sourceDir ++ rel), isDir := false }) fs).1.lookup
          (destDir ++ rel) = .ok (.file content r)) := by
  obtain ⟨r, hr⟩ := copyWalkFn_written data sourceDir destDir rel (Base (sourceDir ++ rel)) fs
    content hvalid hread hok
  have hmarked : Base (sourceDir ++ rel) = "SKILL.md" →
      ∀ a pre rest : String, MarkedParts content a pre rest →
        ∃ r, (copyWalkFn data sourceDir destDir (sourceDir ++ rel)
          (.ok { name := Base (sourceDir ++ rel), isDir := false }) fs).1.lookup
            (destDir ++ rel) = .ok (.file rest r) := by
    intro hn a pre rest hm
    have hs := SplitN_of_marked content a pre rest hm
    rw [hs, if_pos ⟨hn, by simp⟩] at hr
    exact ⟨r, hr⟩
  refine ⟨?_, hmarked, ?_, ?_⟩
  · intro hn hc
    obtain ⟨a, pre, rest, hm⟩ := marked_of_count content hc
    exact ⟨a, pre, rest, hm, hmarked hn a pre rest hm⟩
  · intro hn hc
    have hlen := (SplitN_three_length content).2 hc
    rw [if_neg (fun h => by omega)] at hr
    exact ⟨r, hr⟩
  · intro hn
    rw [if_neg (fun h => hn h.1)] at hr
    exact ⟨r, hr⟩

theorem copyWalkFn_file_content_witness :
    ReadFile exGoodFs1 (["tmp", "x", "bar"] ++ ["SKILL.md"]) =
      .ok "---\nname: bar\ndescription: a valid twenty-plus character description\n---\n# Bar\n" ∧
    MarkedParts
      "---\nname: bar\ndescription: a valid twenty-plus character description\n---\n# Bar\n"
      "" "\nname: bar\ndescription: a valid twenty-plus character description\n" "\n# Bar\n" ∧
    ∃ r, (copyWalkFn exData ["tmp", "x", "bar"] ["work", "bar"] (["tmp", "x", "bar"] ++ ["SKILL.md"])
      (.ok { name := Base (["tmp", "x", "bar"] ++ ["SKILL.md"]), isDir := false })
        exGoodFs1).1.lookup (["work", "bar"] ++ ["SKILL.md"]) = .ok (.file "\n# Bar\n" r) := by
  have hm : MarkedParts
      "---\nname: bar\ndescription: a valid twenty-plus character description\n---\n# Bar\n"
      "" "\nname: bar\ndescription: a valid twenty-plus character description\n" "\n# Bar\n" :=
    ⟨_, cut_splits _ _ _ _ (by rfl), cut_splits _ _ _ _ (by rfl)⟩
  exact ⟨by rfl, hm,
    (copyWalkFn_file_content exData ["tmp", "x", "bar"] ["work", "bar"] ["SKILL.md"] exGoodFs1
      _ (by decide) (by rfl) (by decide)).2.1 (by decide) _ _ _ hm⟩

/-! ### The steps of `generateConvertedSkill` and the files of the destination -/

theorem osPath_valid (cwd dest : Path) (s : String) (h : osPath cwd s = .ok dest)
    (hcwd : ∀ c ∈ cwd, validName c = true) : ∀ c ∈ dest, validName c = true := by
  unfold osPath at h
  split_ifs at h
  · simp only [Except.ok.injEq] at h
    subst h
    exact joinPath_allValid [] s (by simp)
  · simp only [Except.ok.injEq] at h
    subst h
    exact joinPath_allValid cwd s hcwd

/-- The valid names of the nodes that the walk of a well-formed tree reaches, and the
paths under which they are found. -/
theorem reach_sorted_lookup (fs : Node) (root : Path) (n : Node) (hwf : fs.wf = true)
    (hl : fs.lookup root = .ok n) (rel : Path) (nd : Node) (hr : Reach n.sorted rel nd) :
    (∀ c ∈ rel, validName c = true) ∧
    ∃ n0, fs.lookup (root ++ rel) = .ok n0 ∧ nd.isDir = n0.isDir := by
  have hN : n.wf = true := wf_of_lookup fs root n hwf hl
  obtain ⟨n0, hr0, rfl⟩ := hr.of_sorted n rfl
  obtain ⟨hlook, _, hvalid⟩ := hr0.lookup_of_wf hN
  exact ⟨hvalid, n0, by rw [lookup_append fs root rel n hl, hlook], isDir_sorted n0⟩

/-- The copy step of `generateConvertedSkill` makes no file at a path that is neither the
destination of a file of the source nor the `README.md` of the destination. -/
theorem Walk_copy_no_file (data : SkillData) (fs1 : Node) (sourceDir destDir q : Path)
    (hwf : fs1.wf = true) (hq2 : q ≠ destDir ++ ["README.md"])
    (hq1 : ∀ rel n, fs1.lookup (sourceDir ++ rel) = .ok n → n.isDir = false →
      q ≠ destDir ++ rel)
    (h : ∀ c r, fs1.lookup q ≠ .ok (.file c r)) :
    ∀ c r, (Walk fs1 sourceDir (copyWalkFn data sourceDir destDir) fs1).1.lookup q ≠
      .ok (.file c r) := by
  cases hl : fs1.lookup sourceDir with
  | error e =>
    rw [Walk_error fs1 sourceDir _ fs1 e hl]
    exact h
  | ok n =>
    rw [Walk_ok fs1 sourceDir _ fs1 n hl]
    refine walk_invariant (copyWalkFn data sourceDir destDir)
      (fun s => ∀ c r, s.lookup q ≠ .ok (.file c r)) n.sorted sourceDir fs1
      (fun rel nd hr => (reach_sorted_lookup fs1 sourceDir n hwf hl rel nd hr).1) ?_ h
    intro rel nd s hr hs c r
    obtain ⟨hvalid, n0, hn0, hd⟩ := reach_sorted_lookup fs1 sourceDir n hwf hl rel nd hr
    intro hc
    exact hs c r ((copyWalkFn_files data sourceDir destDir rel
      { name := Base (sourceDir ++ rel), isDir := nd.isDir } s hvalid q
      (fun hfile => hq1 rel n0 hn0 (by rw [← hd]; exact hfile)) hq2 c r).1 hc)

/-- The license step leaves every file at a path other than the `LICENSE` of the
destination as it is, and makes no file there. -/
theorem licenseStep_files (fs : Node) (destDir : Path) (data : SkillData) (q : Path)
    (hq : q ≠ destDir ++ ["LICENSE"]) (c : String) (r : Bool) :
    (licenseStep fs destDir data).1.lookup q = .ok (.file c r) ↔
      fs.lookup q = .ok (.file c r) := by
  unfold licenseStep
  simp only
  split_ifs
  · exact Iff.rfl
  · simp only
    rw [joinPath_valid destDir "LICENSE" (by decide)]
    split
    · next fs1 hw => exact WriteFile_files fs fs1 _ _ hw q hq c r
    · exact Iff.rfl

theorem licenseStep_icon (fs : Node) (destDir : Path) (data : SkillData) :
    (licenseStep fs destDir data).2.Icon = data.Icon ∧
    (licenseStep fs destDir data).2.Name = data.Name ∧
    (licenseStep fs destDir data).2.Description = data.Description := by
  unfold licenseStep
  simp only
  split_ifs <;> exact ⟨rfl, rfl, rfl⟩

/-- The icon step leaves every file at a path other than the icon path as it is, and
makes no file there. -/
theorem iconStep_files (fs fs4 : Node) (destDir : Path) (data : SkillData)
    (h : iconStep fs destDir data = .ok fs4) (q : Path) (hq : q ≠ joinPath destDir data.Icon)
    (c : String) (r : Bool) :
    fs4.lookup q = .ok (.file c r) ↔ fs.lookup q = .ok (.file c r) := by
  unfold iconStep at h
  simp only at h
  split_ifs at h
  · cases hm : MkdirAll fs (Dir (joinPath destDir data.Icon)) with
    | error e =>
      simp only [hm] at h
      exact WriteFile_files fs fs4 _ _ h q hq c r
    | ok fs1 =>
      simp only [hm] at h
      exact (WriteFile_files fs1 fs4 _ _ h q hq c r).trans (MkdirAll_files fs fs1 _ hm q c r)
  · simp only [Except.ok.injEq] at h
    rw [h]

/-- The icon step writes only at a path that did not exist: every file stays as it is. -/
theorem iconStep_keeps (fs fs4 : Node) (destDir : Path) (data : SkillData)
    (h : iconStep fs destDir data = .ok fs4) (q : Path) (c : String) (r : Bool)
    (hq : fs.lookup q = .ok (.file c r)) : fs4.lookup q = .ok (.file c r) := by
  by_cases hqi : q = joinPath destDir data.Icon
  · unfold iconStep at h
    simp only at h
    split_ifs at h with hne
    · exfalso
      rw [← hqi] at hne
      unfold NotExist Stat at hne
      rw [hq] at hne
      simp at hne
    · simp only [Except.ok.injEq] at h
      rw [← h]
      exact hq
  · exact (iconStep_files fs fs4 destDir data h q hqi c r).2 hq

/-- What `scaffold.WriteManifest` leaves when it succeeds: the encoded record in
`skill.json`, and every other file as it was. -/
theorem WriteManifest_ok (C : ConvLibs) (fs fs5 : Node) (skillDir : Path) (data : SkillData)
    (h : scaffold.WriteManifest C fs skillDir data = .ok fs5) :
    (∃ text r, C.jsonEncode data = .ok text ∧
      fs5.lookup (skillDir ++ ["skill.json"]) = .ok (.file text r)) ∧
    ∀ q, q ≠ skillDir ++ ["skill.json"] → ∀ c r,
      (fs5.lookup q = .ok (.file c r) ↔ fs.lookup q = .ok (.file c r)) := by
  unfold scaffold.WriteManifest at h
  simp only at h
  rw [joinPath_valid skillDir "skill.json" (by decide)] at h
  cases he : C.jsonEncode data with
  | error err => simp [he] at h
  | ok text =>
    simp only [he] at h
    cases hw : WriteFile fs (skillDir ++ ["skill.json"]) text with
    | error e => simp [hw] at h
    | ok fs1 =>
      simp only [hw, Except.ok.injEq] at h
      subst h
      obtain ⟨r, hr⟩ := WriteFile_self fs fs1 _ _ hw
      exact ⟨⟨text, r, rfl, hr⟩, fun q hq c r => WriteFile_files fs fs1 _ _ hw q hq c r⟩

/-- `os.Mkdir` on valid names keeps the tree well formed. -/
theorem wf_Mkdir (fs fs1 : Node) (p : Path) (hwf : fs.wf = true)
    (hp : ∀ c ∈ p, validName c = true) (h : Mkdir fs p = .ok fs1) : fs1.wf = true := by
  unfold Mkdir at h
  split at h
  · exact Except.noConfusion h
  · exact wf_insert p fs (.dir []) fs1 hwf (by rfl) hp h
  · exact Except.noConfusion h

/-- The run of `generateConvertedSkill` when `os.Mkdir` fails. -/
theorem generateConvertedSkill_of_mkdir_err (C : ConvLibs) (fs : Node) (cwd : Path)
    (data : SkillData) (sourceDir dest : Path) (e : Errno)
    (hdest : osPath cwd data.Name = .ok dest) (hne : NotExist fs dest = true)
    (hmk : Mkdir fs dest = .error e) :
    generateConvertedSkill C fs cwd data sourceDir =
      { fs := fs, data := data, err := some (.os "" e) } := by
  unfold generateConvertedSkill
  simp only [hdest, hne, hmk, Bool.not_true, Bool.false_eq_true, if_false]

/-- C16, as stated, fails: the source `/tmp/x/bar` of `exConvFs` has a `skill.json` of its
own and, later in the walk, a file that cannot be read; `generateConvertedSkill` returns
the error of the copy, and the destination `/work/bar` holds the `skill.json` that was
copied from the source. -/
theorem generateConvertedSkill_error_with_manifest :
    NotExist exConvFs ["work", "bar"] = true ∧
    (generateConvertedSkill exConvLibs exConvFs ["work"] exData ["tmp", "x", "bar"]).err =
      some (.os "failed to copy skill files: " .EACCES) ∧
    ReadFile (generateConvertedSkill exConvLibs exConvFs ["work"] exData ["tmp", "x", "bar"]).fs
      ["work", "bar", "skill.json"] = .ok "old manifest" := by
  refine ⟨by decide, by decide, by rfl⟩

/-- C16, amended: `generateConvertedSkill` serializes the manifest as its last step. In
a run whose destination did not exist before, whose source directory has no file
`skill.json` at its top level and whose icon path is not the manifest path, a run that
returns an error leaves no file `skill.json` in the destination directory, and a run that
returns no error leaves there the encoding of the final record. -/
theorem generateConvertedSkill_manifest_last (C : ConvLibs) (fs : Node) (cwd : Path)
    (data : SkillData) (sourceDir dest : Path) (hwf : fs.wf = true)
    (hcwd : ∀ c ∈ cwd, validName c = true)
    (hdest : osPath cwd data.Name = .ok dest) (hne : NotExist fs dest = true)
    (hsrc : ∀ c r, fs.lookup (sourceDir ++ ["skill.json"]) ≠ .ok (.file c r))
    (hicon : joinPath dest data.Icon ≠ dest ++ ["skill.json"]) :
    ((generateConvertedSkill C fs cwd data sourceDir).err ≠ none →
      ∀ c r, (generateConvertedSkill C fs cwd data sourceDir).fs.lookup
        (dest ++ ["skill.json"]) ≠ .ok (.file c r)) ∧
    ((generateConvertedSkill C fs cwd data sourceDir).err = none →
      ∃ text r, C.jsonEncode (generateConvertedSkill C fs cwd data sourceDir).data = .ok text ∧
        (generateConvertedSkill C fs cwd data sourceDir).fs.lookup (dest ++ ["skill.json"]) =
          .ok (.file text r)) := by
  cases hmk : Mkdir fs dest with
  | error e =>
    rw [generateConvertedSkill_of_mkdir_err C fs cwd data sourceDir dest e hdest hne hmk]
    exact ⟨fun _ c r => lookup_below_notExist fs dest _ hne _, fun h => Option.noConfusion h⟩
  | ok fs1 =>
    have hdv := osPath_valid cwd dest data.Name hdest hcwd
    have hwf1 : fs1.wf = true := wf_Mkdir fs fs1 dest hwf hdv hmk
    have hQ1 : ∀ c r, fs1.lookup (dest ++ ["skill.json"]) ≠ .ok (.file c r) :=
      fun c r h => lookup_below_notExist fs dest _ hne _ ((Mkdir_files fs fs1 dest hmk _ c r).1 h)
    have hq1 : ∀ rel n, fs1.lookup (sourceDir ++ rel) = .ok n → n.isDir = false →
        dest ++ ["skill.json"] ≠ dest ++ rel := by
      intro rel n hl hfile heq
      have hrel : ["skill.json"] = rel := List.append_cancel_left heq
      subst hrel
      cases n with
      | dir cs => simp [Node.isDir] at hfile
      | file c r => exact hsrc c r ((Mkdir_files fs fs1 dest hmk _ c r).1 hl)
    have hQ2 := Walk_copy_no_file data fs1 sourceDir dest (dest ++ ["skill.json"]) hwf1
      (by simp) hq1 hQ1
    by_cases hcopy : ∃ e, (Walk fs1 sourceDir (copyWalkFn data sourceDir dest) fs1).2 = .err e
    · obtain ⟨e, he⟩ := hcopy
      rw [generateConvertedSkill_of_copy_err C fs cwd data sourceDir dest fs1 e hdest hne hmk he]
      exact ⟨fun _ => hQ2, fun h => Option.noConfusion h⟩
    · have hcopy1 : ∀ e, (Walk fs1 sourceDir (copyWalkFn data sourceDir dest) fs1).2 ≠ .err e :=
        fun e he => hcopy ⟨e, he⟩
      rw [generateConvertedSkill_of_copy_ok C fs cwd data sourceDir dest fs1 hdest hne hmk hcopy1]
      have hQ3 : ∀ c r,
          (licenseStep (Walk fs1 sourceDir (copyWalkFn data sourceDir dest) fs1).1 dest
            data).1.lookup (dest ++ ["skill.json"]) ≠ .ok (.file c r) :=
        fun c r h => hQ2 c r ((licenseStep_files _ dest data _ (by simp) c r).1 h)
      cases hi : iconStep
          (licenseStep (Walk fs1 sourceDir (copyWalkFn data sourceDir dest) fs1).1 dest data).1
          dest
          (licenseStep (Walk fs1 sourceDir (copyWalkFn data sourceDir dest) fs1).1 dest data).2 with
      | error e => exact ⟨fun _ => hQ3, fun h => Option.noConfusion h⟩
      | ok fs4 =>
        have hQ4 : ∀ c r, fs4.lookup (dest ++ ["skill.json"]) ≠ .ok (.file c r) := by
          intro c r h
          refine hQ3 c r ((iconStep_files _ fs4 dest _ hi _ ?_ c r).1 h)
          rw [(licenseStep_icon _ dest data).1]
          exact fun hc => hicon hc.symm
        simp only
        cases hm : scaffold.WriteManifest C fs4 dest
            (licenseStep (Walk fs1 sourceDir (copyWalkFn data sourceDir dest) fs1).1 dest
              data).2 with
        | error err => exact ⟨fun _ => hQ4, fun h => Option.noConfusion h⟩
        | ok fs5 =>
          exact ⟨fun h => absurd rfl h, fun _ => (WriteManifest_ok C fs4 fs5 dest _ hm).1⟩

theorem generateConvertedSkill_manifest_last_witness :
    exGoodFs.wf = true ∧ osPath ["work"] exData.Name = .ok ["work", "bar"] ∧
    NotExist exGoodFs ["work", "bar"] = true ∧
    (generateConvertedSkill exConvLibs exGoodFs ["work"] exData ["tmp", "x", "bar"]).err = none ∧
    ∃ text r, exConvLibs.jsonEncode
        (generateConvertedSkill exConvLibs exGoodFs ["work"] exData ["tmp", "x", "bar"]).data =
          .ok text ∧
      (generateConvertedSkill exConvLibs exGoodFs ["work"] exData ["tmp", "x", "bar"]).fs.lookup
        (["work", "bar"] ++ ["skill.json"]) = .ok (.file text r) := by
  have herr : (generateConvertedSkill exConvLibs exGoodFs ["work"] exData
      ["tmp", "x", "bar"]).err = none := by decide
  refine ⟨by decide, by rfl, by decide, herr, ?_⟩
  refine (generateConvertedSkill_manifest_last exConvLibs exGoodFs ["work"] exData
    ["tmp", "x", "bar"] ["work", "bar"] (by decide) (by decide) (by rfl) (by decide) ?_
    (by decide)).2 herr
  intro c r h
  have h0 : exGoodFs.lookup (["tmp", "x", "bar"] ++ ["skill.json"]) = .error .ENOENT := by rfl
  rw [h0] at h
  exact Except.noConfusion h

/-! ### The order of the walk -/

theorem charsLE_total : ∀ x y : List Char, charsLE x y = true ∨ charsLE y x = true
  | [], _ => Or.inl (by simp [charsLE])
  | _ :: _, [] => Or.inr (by simp [charsLE])
  | a :: as, b :: bs => by
    rw [charsLE, charsLE]
    by_cases h1 : a.toNat < b.toNat
    · simp [h1]
    · by_cases h2 : b.toNat < a.toNat
      · simp [h2]
      · simp only [h1, h2, if_false]
        exact charsLE_total as bs

theorem charsLE_trans : ∀ x y z : List Char, charsLE x y = true → charsLE y z = true →
    charsLE x z = true
  | [], _, _, _, _ => by simp [charsLE]
  | _ :: _, [], _, h, _ => by simp [charsLE] at h
  | _ :: _, _ :: _, [], _, h => by simp [charsLE] at h
  | a :: as, b :: bs, c :: cs, h1, h2 => by
    rw [charsLE] at h1 h2 ⊢
    by_cases hab : a.toNat < b.toNat
    · by_cases hbc : b.toNat < c.toNat
      · have : a.toNat < c.toNat := by omega
        simp [this]
      · by_cases hcb : c.toNat < b.toNat
        · simp [hbc, hcb] at h2
        · have : a.toNat < c.toNat := by omega
          simp [this]
    · by_cases hba : b.toNat < a.toNat
      · simp [hab, hba] at h1
      · simp only [hab, hba, if_false] at h1
        by_cases hbc : b.toNat < c.toNat
        · have : a.toNat < c.toNat := by omega
          simp [this]
        · by_cases hcb : c.toNat < b.toNat
          · simp [hbc, hcb] at h2
          · simp only [hbc, hcb, if_false] at h2
            have h3 : ¬ a.toNat < c.toNat := by omega
            have h4 : ¬ c.toNat < a.toNat := by omega
            simp only [h3, h4, if_false]
            exact charsLE_trans as bs cs h1 h2

theorem insertByName_sorted (x : String × Node) (l : List (String × Node))
    (h : NamesSorted l) : NamesSorted (insertByName x l) := by
  induction l with
  | nil => simp [insertByName, NamesSorted]
  | cons y ys ih =>
    unfold NamesSorted at h ih ⊢
    rw [List.pairwise_cons] at h
    unfold insertByName
    split_ifs with hxy
    · rw [List.pairwise_cons]
      refine ⟨?_, List.pairwise_cons.2 h⟩
      intro z hz
      rcases List.mem_cons.1 hz with rfl | hz
      · exact hxy
      · exact charsLE_trans _ _ _ hxy (h.1 z hz)
    · rw [List.pairwise_cons]
      refine ⟨?_, ih h.2⟩
      intro z hz
      rcases (mem_insertByName x z ys).1 hz with rfl | hz
      · rcases charsLE_total z.1.toList y.1.toList with h1 | h1
        · exact absurd h1 hxy
        · exact h1
      · exact h.1 z hz

theorem sortChildren_sorted : ∀ cs : List (String × Node), NamesSorted (sortChildren cs)
  | [] => by simp [sortChildren, NamesSorted]
  | (name, n) :: rest => by
    rw [sortChildren]
    exact insertByName_sorted _ _ (sortChildren_sorted rest)

theorem mem_sortChildren_of_mem : ∀ (cs : List (String × Node)) (name : String) (c0 : Node),
    (name, c0) ∈ cs → (name, c0.sorted) ∈ sortChildren cs
  | [], _, _, h => by simp at h
  | (k, v) :: rest, name, c0, h => by
    rw [sortChildren, mem_insertByName]
    rcases List.mem_cons.1 h with heq | h
    · simp only [Prod.mk.injEq] at heq
      obtain ⟨rfl, rfl⟩ := heq
      exact Or.inl rfl
    · exact Or.inr (mem_sortChildren_of_mem rest name c0 h)

mutual
/-- A walk whose walk function returns `nil` or an error returns `nil` or an error. -/
theorem walk_nil_or_err {σ : Type} (fn : Path → Except Errno FileInfo → σ → σ × WalkRes)
    (hfn : ∀ p i s, (fn p i s).2 = .nil ∨ ∃ e, (fn p i s).2 = .err e) :
    ∀ (node : Node) (p : Path) (s : σ),
      (walk fn p node s).2 = .nil ∨ ∃ e, (walk fn p node s).2 = .err e
  | .file c r, p, s => by
    rw [walk]
    exact hfn _ _ _
  | .dir cs, p, s => by
    rw [walk]
    split
    · exact walkNames_nil_or_err fn hfn cs p _
    · exact hfn _ _ _
/-- The loop of such a walk over a directory returns `nil` or an error. -/
theorem walkNames_nil_or_err {σ : Type}
    (fn : Path → Except Errno FileInfo → σ → σ × WalkRes)
    (hfn : ∀ p i s, (fn p i s).2 = .nil ∨ ∃ e, (fn p i s).2 = .err e) :
    ∀ (cs : List (String × Node)) (p : Path) (s : σ),
      (walkNames fn p cs s).2 = .nil ∨ ∃ e, (walkNames fn p cs s).2 = .err e
  | [], p, s => by
    rw [walkNames]
    exact Or.inl rfl
  | (name, child) :: rest, p, s => by
    rw [walkNames]
    split
    · exact walkNames_nil_or_err fn hfn rest p _
    · split_ifs
      · exact walkNames_nil_or_err fn hfn rest p _
      · exact walk_nil_or_err fn hfn child _ s
    · exact walk_nil_or_err fn hfn child _ s
end

theorem copyWalkFn_nil_or_err (data : SkillData) (sourceDir destDir : Path) (p : Path)
    (i : Except Errno FileInfo) (s : Node) :
    (copyWalkFn data sourceDir destDir p i s).2 = .nil ∨
      ∃ e, (copyWalkFn data sourceDir destDir p i s).2 = .err e := by
  unfold copyWalkFn
  cases i with
  | error e => exact Or.inr ⟨e, rfl⟩
  | ok info =>
    simp only
    split_ifs
    · split
      · exact Or.inr ⟨_, rfl⟩
      · exact Or.inl rfl
    · split
      · exact Or.inr ⟨_, rfl⟩
      · split
        · exact Or.inr ⟨_, rfl⟩
        · split
          · exact Or.inr ⟨_, rfl⟩
          · exact Or.inl rfl
    · split
      · exact Or.inr ⟨_, rfl⟩
      · split
        · exact Or.inr ⟨_, rfl⟩
        · exact Or.inl rfl

/-! ### The overview document of the converted skill -/

theorem walk_dir_nil {σ : Type} (fn : Path → Except Errno FileInfo → σ → σ × WalkRes)
    (p : Path) (cs : List (String × Node)) (s : σ)
    (h : (fn p (.ok { name := Base p, isDir := true }) s).2 = .nil) :
    walk fn p (.dir cs) s = walkNames fn p cs (fn p (.ok { name := Base p, isDir := true }) s).1 := by
  rw [walk]
  simp only [h]

theorem walk_dir_err {σ : Type} (fn : Path → Except Errno FileInfo → σ → σ × WalkRes)
    (p : Path) (cs : List (String × Node)) (s : σ) (e : Errno)
    (h : (fn p (.ok { name := Base p, isDir := true }) s).2 = .err e) :
    walk fn p (.dir cs) s = fn p (.ok { name := Base p, isDir := true }) s := by
  rw [walk]
  simp only [h]

theorem walkNames_cons_nil {σ : Type} (fn : Path → Except Errno FileInfo → σ → σ × WalkRes)
    (p : Path) (name : String) (child : Node) (rest : List (String × Node)) (s : σ)
    (h : (walk fn (joinPath p name) child s).2 = .nil) :
    walkNames fn p ((name, child) :: rest) s =
      walkNames fn p rest (walk fn (joinPath p name) child s).1 := by
  rw [walkNames]
  simp only [h]

theorem walkNames_cons_err {σ : Type} (fn : Path → Except Errno FileInfo → σ → σ × WalkRes)
    (p : Path) (name : String) (child : Node) (rest : List (String × Node)) (s : σ) (e : Errno)
    (h : (walk fn (joinPath p name) child s).2 = .err e) :
    walkNames fn p ((name, child) :: rest) s = walk fn (joinPath p name) child s := by
  rw [walkNames]
  simp only [h]

theorem Base_append_singleton (p : Path) (x : String) : Base (p ++ [x]) = x := by
  simp [Base]

/-- The copy of a `SKILL.md` at the top level of the source leaves the synthesized
`README.md` and a file `SKILL.md` in the destination. -/
theorem copyWalkFn_skill (data : SkillData) (sourceDir destDir : Path) (s : Node)
    (h : (copyWalkFn data sourceDir destDir (sourceDir ++ ["SKILL.md"])
      (.ok { name := "SKILL.md", isDir := false }) s).2 = .nil) :
    HasReadmeAndSkill data destDir (copyWalkFn data sourceDir destDir (sourceDir ++ ["SKILL.md"])
      (.ok { name := "SKILL.md", isDir := false }) s).1 := by
  have hne : destDir ++ ["README.md"] ≠ destDir ++ ["SKILL.md"] := by
    intro hc
    have := List.append_cancel_left hc
    simp at this
  unfold copyWalkFn at h ⊢
  simp only [destPath_eq sourceDir destDir ["SKILL.md"] (by decide),
    joinPath_valid destDir "README.md" (by decide), Bool.false_eq_true, if_false, if_true]
    at h ⊢
  cases hr : ReadFile s (sourceDir ++ ["SKILL.md"]) with
  | error e =>
    rw [hr] at h
    exact WalkRes.noConfusion h
  | ok content =>
    simp only [hr] at h ⊢
    cases hw : WriteFile s (destDir ++ ["README.md"])
        (convertedReadme data.Name data.Description) with
    | error e =>
      rw [hw] at h
      exact WalkRes.noConfusion h
    | ok s1 =>
      simp only [hw] at h ⊢
      cases hw2 : WriteFile s1 (destDir ++ ["SKILL.md"])
          (if (SplitN content "---" 3).length ≥ 3 then (SplitN content "---" 3).getD 2 ""
            else content) with
      | error e =>
        rw [hw2] at h
        exact WalkRes.noConfusion h
      | ok s2 =>
        simp only
        obtain ⟨r1, hr1⟩ := WriteFile_self s s1 _ _ hw
        obtain ⟨r2, hr2⟩ := WriteFile_self s1 s2 _ _ hw2
        exact ⟨⟨r1, (WriteFile_files s1 s2 _ _ hw2 _ hne _ r1).2 hr1⟩, _, r2, hr2⟩

/-- The copy of a node whose destination is not the `README.md` of the destination
directory keeps the synthesized `README.md` and the file `SKILL.md`. -/
theorem copyWalkFn_keeps (data : SkillData) (sourceDir destDir rel : Path) (info : FileInfo)
    (s : Node) (hvalid : ∀ c ∈ rel, validName c = true) (hrel : rel ≠ ["README.md"])
    (h : HasReadmeAndSkill data destDir s) :
    HasReadmeAndSkill data destDir
      (copyWalkFn data sourceDir destDir (sourceDir ++ rel) (.ok info) s).1 :=
  ⟨copyWalkFn_keeps_readme data sourceDir destDir rel info s hvalid hrel h.1,
    copyWalkFn_keeps_file data sourceDir destDir _ _ s _ h.2⟩

/-- The loop of the copy over sorted entries among which is a file `SKILL.md` leaves,
when it does not fail, the synthesized `README.md` and a file `SKILL.md`. -/
theorem walkNames_copy_readme (data : SkillData) (sourceDir destDir : Path) (c0 : String)
    (r0 : Bool) : ∀ (l : List (String × Node)) (s : Node), NamesSorted l →
    (∀ name child, (name, child) ∈ l → validName name = true ∧
      ∀ rel n, Reach child rel n → ∀ c ∈ rel, validName c = true) →
    ("SKILL.md", Node.file c0 r0) ∈ l →
    (∀ e, (walkNames (copyWalkFn data sourceDir destDir) sourceDir l s).2 ≠ .err e) →
    HasReadmeAndSkill data destDir
      (walkNames (copyWalkFn data sourceDir destDir) sourceDir l s).1 := by
  intro l
  induction l with
  | nil =>
    intro s _ _ hm _
    simp at hm
  | cons x rest ih =>
    intro s hsorted hvalid hm hne
    obtain ⟨name, child⟩ := x
    unfold NamesSorted at hsorted
    rw [List.pairwise_cons] at hsorted
    have hrestValid : ∀ name child, (name, child) ∈ rest → validName name = true ∧
        ∀ rel n, Reach child rel n → ∀ c ∈ rel, validName c = true :=
      fun n c h => hvalid n c (List.mem_cons_of_mem _ h)
    rcases walk_nil_or_err (copyWalkFn data sourceDir destDir)
      (copyWalkFn_nil_or_err data sourceDir destDir) child (joinPath sourceDir name) s
      with hnil | ⟨e, herr⟩
    · rw [walkNames_cons_nil _ _ _ _ _ _ hnil] at hne ⊢
      by_cases hhead : (name, child) = ("SKILL.md", Node.file c0 r0)
      · simp only [Prod.mk.injEq] at hhead
        obtain ⟨rfl, rfl⟩ := hhead
        have hstep : HasReadmeAndSkill data destDir
            (walk (copyWalkFn data sourceDir destDir) (joinPath sourceDir "SKILL.md")
              (Node.file c0 r0) s).1 := by
          rw [walk, joinPath_valid sourceDir "SKILL.md" (by decide), Base_append_singleton] at hnil ⊢
          exact copyWalkFn_skill data sourceDir destDir s hnil
        refine walkNames_invariant (copyWalkFn data sourceDir destDir)
          (HasReadmeAndSkill data destDir) rest sourceDir _ ?_ hstep
        intro n1 ch1 hmem
        obtain ⟨hv1, hv2⟩ := hrestValid n1 ch1 hmem
        refine ⟨hv1, hv2, ?_⟩
        intro rel n s1 hr hs1
        refine copyWalkFn_keeps data sourceDir destDir (n1 :: rel) _ s1 ?_ ?_ hs1
        · intro c hc
          rcases List.mem_cons.1 hc with rfl | hc
          · exact hv1
          · exact hv2 rel n hr c hc
        · intro hc
          simp only [List.cons.injEq] at hc
          have hle : charsLE "SKILL.md".toList n1.toList = true := hsorted.1 (n1, ch1) hmem
          rw [hc.1] at hle
          exact absurd hle (by decide)
      · have hm1 : ("SKILL.md", Node.file c0 r0) ∈ rest := by
          rcases List.mem_cons.1 hm with h | h
          · exact absurd h.symm hhead
          · exact h
        exact ih _ hsorted.2 hrestValid hm1 hne
    · exfalso
      rw [walkNames_cons_err _ _ _ _ _ _ e herr] at hne
      exact hne e herr

/-- The copy step of `generateConvertedSkill` on a source with a file `SKILL.md` at its
top level leaves, when it does not fail, the synthesized `README.md` and a file
`SKILL.md` in the destination. -/
theorem Walk_copy_readme (data : SkillData) (fs1 : Node) (sourceDir destDir : Path)
    (c0 : String) (r0 : Bool) (hwf : fs1.wf = true)
    (hsk : fs1.lookup (sourceDir ++ ["SKILL.md"]) = .ok (.file c0 r0))
    (hne : ∀ e, (Walk fs1 sourceDir (copyWalkFn data sourceDir destDir) fs1).2 ≠ .err e) :
    HasReadmeAndSkill data destDir
      (Walk fs1 sourceDir (copyWalkFn data sourceDir destDir) fs1).1 := by
  obtain ⟨m, hm⟩ := lookup_prefix_ok sourceDir fs1 ["SKILL.md"] _ hsk
  rw [lookup_append fs1 sourceDir ["SKILL.md"] m hm] at hsk
  cases m with
  | file c r =>
    rw [lookup_file_cons] at hsk
    exact Except.noConfusion hsk
  | dir cs =>
    have hmem : ("SKILL.md", Node.file c0 r0) ∈ sortChildren cs := by
      rw [Node.lookup] at hsk
      cases hl : cs.lookup "SKILL.md" with
      | none => simp [hl] at hsk
      | some ch =>
        simp only [hl, Node.lookup, Except.ok.injEq] at hsk
        subst hsk
        have := mem_sortChildren_of_mem cs "SKILL.md" _ (mem_of_lookup cs "SKILL.md" _ hl)
        simpa [Node.sorted] using this
    have hsorted : (Node.dir cs).sorted = .dir (sortChildren cs) := by rw [Node.sorted]
    rw [Walk_ok fs1 sourceDir _ fs1 _ hm, hsorted] at hne ⊢
    simp only at hne ⊢
    have hvalid : ∀ name child, (name, child) ∈ sortChildren cs → validName name = true ∧
        ∀ rel n, Reach child rel n → ∀ c ∈ rel, validName c = true := by
      intro name child hmc
      have hreach : ∀ rel n, Reach child rel n → Reach (Node.dir cs).sorted (name :: rel) n := by
        intro rel n hr
        rw [hsorted]
        exact Reach.cons hmc hr
      refine ⟨?_, ?_⟩
      · exact (reach_sorted_lookup fs1 sourceDir _ hwf hm [name] child
          (hreach [] child (Reach.nil _))).1 name (by simp)
      · intro rel n hr c hc
        exact (reach_sorted_lookup fs1 sourceDir _ hwf hm (name :: rel) n (hreach rel n hr)).1 c
          (List.mem_cons_of_mem _ hc)
    rcases copyWalkFn_nil_or_err data sourceDir destDir sourceDir
      (.ok { name := Base sourceDir, isDir := true }) fs1 with hnil | ⟨e, herr⟩
    · rw [walk_dir_nil _ _ _ _ hnil] at hne ⊢
      refine walkNames_copy_readme data sourceDir destDir c0 r0 _ _ (sortChildren_sorted cs)
        hvalid hmem ?_
      intro e he
      refine hne e ?_
      rw [he]
      rfl
    · exfalso
      rw [walk_dir_err _ _ _ _ e herr] at hne
      refine hne e ?_
      rw [herr]
      rfl

/-- The run of `generateConvertedSkill` when the destination is not reported missing. -/
theorem generateConvertedSkill_of_exists (C : ConvLibs) (fs : Node) (cwd : Path)
    (data : SkillData) (sourceDir dest : Path)
    (hdest : osPath cwd data.Name = .ok dest) (hne : NotExist fs dest = false) :
    generateConvertedSkill C fs cwd data sourceDir =
      { fs := fs, data := data, err := some (alreadyExists data.Name) } := by
  unfold generateConvertedSkill
  simp only [hdest, hne, Bool.not_false, if_true]

/-- C14: after a run of `generateConvertedSkill` that returns no error, on a source
directory with a file `SKILL.md` at its top level, the destination directory named by
`data.Name` has a file `SKILL.md` and, at another path, a file `README.md` whose content
is exactly the overview template with the final `data.Name` as title and
`data.Description`, whatever `README.md` the source had; the run changes neither the
name nor the description of the record. -/
theorem generateConvertedSkill_readme (C : ConvLibs) (fs : Node) (cwd : Path)
    (data : SkillData) (sourceDir dest : Path) (hwf : fs.wf = true)
    (hcwd : ∀ c ∈ cwd, validName c = true)
    (hdest : osPath cwd data.Name = .ok dest)
    (hsk : ∃ c r, fs.lookup (sourceDir ++ ["SKILL.md"]) = .ok (.file c r))
    (hok : (generateConvertedSkill C fs cwd data sourceDir).err = none) :
    (∃ c r, (generateConvertedSkill C fs cwd data sourceDir).fs.lookup (dest ++ ["SKILL.md"]) =
      .ok (.file c r)) ∧
    (∃ r, (generateConvertedSkill C fs cwd data sourceDir).fs.lookup (dest ++ ["README.md"]) =
      .ok (.file (convertedReadme (generateConvertedSkill C fs cwd data sourceDir).data.Name
        (generateConvertedSkill C fs cwd data sourceDir).data.Description) r)) ∧
    dest ++ ["README.md"] ≠ dest ++ ["SKILL.md"] ∧
    (generateConvertedSkill C fs cwd data sourceDir).data.Name = data.Name ∧
    (generateConvertedSkill C fs cwd data sourceDir).data.Description = data.Description := by
  have hdistinct : dest ++ ["README.md"] ≠ dest ++ ["SKILL.md"] := by
    intro hc
    have := List.append_cancel_left hc
    simp at this
  cases hne : NotExist fs dest with
  | false =>
    rw [generateConvertedSkill_of_exists C fs cwd data sourceDir dest hdest hne] at hok
    exact Option.noConfusion hok
  | true =>
    cases hmk : Mkdir fs dest with
    | error e =>
      rw [generateConvertedSkill_of_mkdir_err C fs cwd data sourceDir dest e hdest hne hmk] at hok
      exact Option.noConfusion hok
    | ok fs1 =>
      have hdv := osPath_valid cwd dest data.Name hdest hcwd
      have hwf1 : fs1.wf = true := wf_Mkdir fs fs1 dest hwf hdv hmk
      obtain ⟨c0, r0, hsk0⟩ := hsk
      have hsk1 : fs1.lookup (sourceDir ++ ["SKILL.md"]) = .ok (.file c0 r0) :=
        (Mkdir_files fs fs1 dest hmk _ c0 r0).2 hsk0
      by_cases hcopy : ∃ e, (Walk fs1 sourceDir (copyWalkFn data sourceDir dest) fs1).2 = .err e
      · obtain ⟨e, he⟩ := hcopy
        rw [generateConvertedSkill_of_copy_err C fs cwd data sourceDir dest fs1 e hdest hne hmk
          he] at hok
        exact Option.noConfusion hok
      · have hcopy1 : ∀ e, (Walk fs1 sourceDir (copyWalkFn data sourceDir dest) fs1).2 ≠ .err e :=
          fun e he => hcopy ⟨e, he⟩
        have hJ2 := Walk_copy_readme data fs1 sourceDir dest c0 r0 hwf1 hsk1 hcopy1
        rw [generateConvertedSkill_of_copy_ok C fs cwd data sourceDir dest fs1 hdest hne hmk
          hcopy1] at hok ⊢
        obtain ⟨hIcon, hName, hDesc⟩ := licenseStep_icon
          (Walk fs1 sourceDir (copyWalkFn data sourceDir dest) fs1).1 dest data
        obtain ⟨⟨ra, ha⟩, cb, rb, hb⟩ := hJ2
        have ha3 := (licenseStep_files
          (Walk fs1 sourceDir (copyWalkFn data sourceDir dest) fs1).1 dest data
          (dest ++ ["README.md"]) (by simp) _ ra).2 ha
        have hb3 := (licenseStep_files
          (Walk fs1 sourceDir (copyWalkFn data sourceDir dest) fs1).1 dest data
          (dest ++ ["SKILL.md"]) (by simp) cb rb).2 hb
        cases hi : iconStep
            (licenseStep (Walk fs1 sourceDir (copyWalkFn data sourceDir dest) fs1).1 dest data).1
            dest
            (licenseStep (Walk fs1 sourceDir (copyWalkFn data sourceDir dest) fs1).1 dest
              data).2 with
        | error e =>
          rw [hi] at hok
          exact Option.noConfusion hok
        | ok fs4 =>
          have ha4 := iconStep_keeps _ fs4 dest _ hi _ _ ra ha3
          have hb4 := iconStep_keeps _ fs4 dest _ hi _ cb rb hb3
          simp only [hi] at hok ⊢
          cases hm : scaffold.WriteManifest C fs4 dest
              (licenseStep (Walk fs1 sourceDir (copyWalkFn data sourceDir dest) fs1).1 dest
                data).2 with
          | error err =>
            rw [hm] at hok
            exact Option.noConfusion hok
          | ok fs5 =>
            have hframe := (WriteManifest_ok C fs4 fs5 dest _ hm).2
            simp only [hName, hDesc]
            exact ⟨⟨cb, rb, (hframe _ (by simp) cb rb).2 hb4⟩,
              ⟨ra, (hframe _ (by simp) _ ra).2 ha4⟩, hdistinct, trivial, trivial⟩

theorem generateConvertedSkill_readme_witness :
    exGoodFs.wf = true ∧ osPath ["work"] exData.Name = .ok ["work", "bar"] ∧
    ReadFile exGoodFs (["tmp", "x", "bar"] ++ ["README.md"]) = .ok "# Old" ∧
    (generateConvertedSkill exConvLibs exGoodFs ["work"] exData ["tmp", "x", "bar"]).err = none ∧
    ∃ r, (generateConvertedSkill exConvLibs exGoodFs ["work"] exData
        ["tmp", "x", "bar"]).fs.lookup (["work", "bar"] ++ ["README.md"]) =
      .ok (.file (convertedReadme
        (generateConvertedSkill exConvLibs exGoodFs ["work"] exData ["tmp", "x", "bar"]).data.Name
        (generateConvertedSkill exConvLibs exGoodFs ["work"] exData
          ["tmp", "x", "bar"]).data.Description) r) := by
  have herr : (generateConvertedSkill exConvLibs exGoodFs ["work"] exData
      ["tmp", "x", "bar"]).err = none := by decide
  exact ⟨by decide, by rfl, by rfl, herr,
    (generateConvertedSkill_readme exConvLibs exGoodFs ["work"] exData ["tmp", "x", "bar"]
      ["work", "bar"] (by decide) (by decide) (by rfl) ⟨_, _, by rfl⟩ herr).2.1⟩

/-! ### Sorted trees -/

theorem wfChildren_insertByName (x : String × Node) (l : List (String × Node))
    (hl : wfChildren l = true) (hx : validName x.1 = true) (hn : x.1 ∉ l.map Prod.fst)
    (hw : x.2.wf = true) : wfChildren (insertByName x l) = true := by
  induction l with
  | nil =>
    obtain ⟨k, v⟩ := x
    rw [insertByName, wfChildren_cons]
    exact ⟨hx, by simp, hw, rfl⟩
  | cons y ys ih =>
    obtain ⟨k, v⟩ := x
    obtain ⟨k1, v1⟩ := y
    obtain ⟨h1, h2, h3, h4⟩ := (wfChildren_cons k1 v1 ys).1 hl
    simp only [List.map_cons, List.mem_cons, not_or] at hn
    unfold insertByName
    split_ifs
    · rw [wfChildren_cons]
      exact ⟨hx, by simpa using hn, hw, hl⟩
    · rw [wfChildren_cons]
      refine ⟨h1, ?_, h3, ih h4 hn.2⟩
      intro hmem
      obtain ⟨⟨a, b⟩, hab, hfst⟩ := List.mem_map.1 hmem
      simp only at hfst
      subst hfst
      rcases (mem_insertByName (k, v) (a, b) ys).1 hab with heq | hin
      · simp only [Prod.mk.injEq] at heq
        exact hn.1 heq.1.symm
      · exact h2 (List.mem_map.2 ⟨(a, b), hin, rfl⟩)

mutual
/-- Sorting keeps a tree well formed. -/
theorem wf_sorted : ∀ n : Node, n.wf = true → n.sorted.wf = true
  | .file c r, _ => by
    rw [Node.sorted]
    rfl
  | .dir cs, h => by
    rw [Node.sorted, wf_dir]
    rw [wf_dir] at h
    exact wfChildren_sorted cs h
/-- Sorting keeps the entries of a directory well formed. -/
theorem wfChildren_sorted : ∀ cs : List (String × Node), wfChildren cs = true →
    wfChildren (sortChildren cs) = true
  | [], _ => by
    rw [sortChildren]
    rfl
  | (name, n) :: rest, h => by
    obtain ⟨h1, h2, h3, h4⟩ := (wfChildren_cons name n rest).1 h
    rw [sortChildren]
    refine wfChildren_insertByName _ _ (wfChildren_sorted rest h4) h1 ?_ (wf_sorted n h3)
    intro hmem
    obtain ⟨⟨a, b⟩, hab, hfst⟩ := List.mem_map.1 hmem
    simp only at hfst
    subst hfst
    obtain ⟨c0, hc0, _⟩ := mem_sortChildren rest a b hab
    exact h2 (List.mem_map.2 ⟨(a, c0), hc0, rfl⟩)
end

/-- A node reached in a tree is reached, sorted, in the sorted tree. -/
theorem Reach.to_sorted {t : Node} {rel : Path} {n : Node} (hr : Reach t rel n) :
    Reach t.sorted rel n.sorted := by
  induction hr with
  | nil n => exact Reach.nil _
  | cons hm _ ih =>
    rw [Node.sorted]
    exact Reach.cons (mem_sortChildren_of_mem _ _ _ hm) ih

/-- A node that a path resolves to is reached by the path. -/
theorem reach_of_lookup (rel : Path) : ∀ (t n : Node), t.lookup rel = .ok n → Reach t rel n := by
  induction rel with
  | nil =>
    intro t n h
    simp only [Node.lookup, Except.ok.injEq] at h
    subst h
    exact Reach.nil _
  | cons a rest ih =>
    intro t n h
    cases t with
    | file c r =>
      rw [lookup_file_cons] at h
      exact Except.noConfusion h
    | dir cs =>
      rw [Node.lookup] at h
      cases hl : cs.lookup a with
      | none => simp [hl] at h
      | some ch =>
        simp only [hl] at h
        exact Reach.cons (mem_of_lookup cs a ch hl) (ih ch n h)

/-! ### The nodes that a walk meets -/

theorem reach_file_iff (c : String) (r : Bool) (s : Path) (nd : Node) :
    Reach (.file c r) s nd ↔ s = [] ∧ nd = .file c r := by
  constructor
  · intro h
    cases h
    exact ⟨rfl, rfl⟩
  · rintro ⟨rfl, rfl⟩
    exact Reach.nil _

theorem reach_dir_iff (cs : List (String × Node)) (s : Path) (nd : Node) :
    Reach (.dir cs) s nd ↔ (s = [] ∧ nd = .dir cs) ∨
      ∃ name child rest, s = name :: rest ∧ (name, child) ∈ cs ∧ Reach child rest nd := by
  constructor
  · intro h
    cases h with
    | nil => exact Or.inl ⟨rfl, rfl⟩
    | cons hm hr => exact Or.inr ⟨_, _, _, rfl, hm, hr⟩
  · rintro (⟨rfl, rfl⟩ | ⟨name, child, rest, rfl, hm, hr⟩)
    · exact Reach.nil _
    · exact Reach.cons hm hr

mutual
/-- The nodes listed for a node are those reached from it. -/
theorem mem_allItems : ∀ (node : Node) (rel : Path) (x : Path × Bool),
    x ∈ allItems rel node ↔ ∃ suffix nd, x = (rel ++ suffix, nd.isDir) ∧ Reach node suffix nd
  | .file c r, rel, x => by
    rw [allItems]
    simp only [List.mem_singleton, reach_file_iff]
    constructor
    · rintro rfl
      exact ⟨[], .file c r, by simp [Node.isDir], rfl, rfl⟩
    · rintro ⟨suffix, nd, hx, rfl, rfl⟩
      simpa [Node.isDir] using hx
  | .dir cs, rel, x => by
    rw [allItems, List.mem_cons, mem_allItemsNames cs rel x]
    simp only [reach_dir_iff]
    constructor
    · rintro (rfl | ⟨name, child, suffix, nd, hm, hx, hr⟩)
      · exact ⟨[], .dir cs, by simp [Node.isDir], Or.inl ⟨rfl, rfl⟩⟩
      · exact ⟨name :: suffix, nd, hx, Or.inr ⟨name, child, suffix, rfl, hm, hr⟩⟩
    · rintro ⟨suffix, nd, hx, (⟨rfl, rfl⟩ | ⟨name, child, rest, rfl, hm, hr⟩)⟩
      · exact Or.inl (by simpa [Node.isDir] using hx)
      · exact Or.inr ⟨name, child, rest, nd, hm, hx, hr⟩
/-- The nodes listed for the entries of a directory are those reached from its entries. -/
theorem mem_allItemsNames : ∀ (cs : List (String × Node)) (rel : Path) (x : Path × Bool),
    x ∈ allItemsNames rel cs ↔ ∃ name child suffix nd, (name, child) ∈ cs ∧
      x = (rel ++ name :: suffix, nd.isDir) ∧ Reach child suffix nd
  | [], rel, x => by
    rw [allItemsNames]
    simp
  | (k, v) :: rest, rel, x => by
    rw [allItemsNames, List.mem_append, mem_allItems v (rel ++ [k]) x,
      mem_allItemsNames rest rel x]
    constructor
    · rintro (⟨suffix, nd, hx, hr⟩ | ⟨name, child, suffix, nd, hm, hx, hr⟩)
      · exact ⟨k, v, suffix, nd, by simp, by simpa using hx, hr⟩
      · exact ⟨name, child, suffix, nd, List.mem_cons_of_mem _ hm, hx, hr⟩
    · rintro ⟨name, child, suffix, nd, hm, hx, hr⟩
      rcases List.mem_cons.1 hm with heq | hm
      · simp only [Prod.mk.injEq] at heq
        obtain ⟨rfl, rfl⟩ := heq
        exact Or.inl ⟨suffix, nd, by simpa using hx, hr⟩
      · exact Or.inr ⟨name, child, suffix, nd, hm, hx, hr⟩
end

mutual
/-- In a well-formed tree no node is listed twice. -/
theorem nodup_allItems : ∀ (node : Node) (rel : Path), node.wf = true →
    (allItems rel node).Nodup
  | .file c r, rel, _ => by
    rw [allItems]
    exact List.nodup_singleton _
  | .dir cs, rel, h => by
    rw [wf_dir] at h
    rw [allItems, List.nodup_cons]
    refine ⟨?_, nodup_allItemsNames cs rel h⟩
    intro hm
    obtain ⟨name, child, suffix, nd, _, hx, _⟩ := (mem_allItemsNames cs rel _).1 hm
    simp only [Prod.mk.injEq] at hx
    have := congrArg List.length hx.1
    simp at this
/-- In a well-formed directory no node below its entries is listed twice. -/
theorem nodup_allItemsNames : ∀ (cs : List (String × Node)) (rel : Path),
    wfChildren cs = true → (allItemsNames rel cs).Nodup
  | [], rel, _ => by
    rw [allItemsNames]
    exact List.nodup_nil
  | (k, v) :: rest, rel, h => by
    obtain ⟨_, h2, h3, h4⟩ := (wfChildren_cons k v rest).1 h
    rw [allItemsNames, List.nodup_append]
    refine ⟨nodup_allItems v (rel ++ [k]) h3, nodup_allItemsNames rest rel h4, ?_⟩
    intro x hx1 hx2
    obtain ⟨suffix, nd, hx, _⟩ := (mem_allItems v (rel ++ [k]) x).1 hx1
    obtain ⟨name, child, suffix2, nd2, hm, hy, _⟩ := (mem_allItemsNames rest rel x).1 hx2
    rw [hx] at hy
    simp only [Prod.mk.injEq, List.append_assoc, List.singleton_append] at hy
    have := List.append_cancel_left hy.1
    simp only [List.cons.injEq] at this
    exact h2 (List.mem_map.2 ⟨(name, child), hm, this.1.symm⟩)
end

/-! ### The entries that the walk of `runPackage` writes -/

theorem entryName_true (n : String) (rel : Path) :
    entryName n rel true = n ++ "/" ++ joinSlash rel ++ "/" := by
  simp [entryName]

theorem entryName_false (n : String) (rel : Path) :
    entryName n rel false = n ++ "/" ++ joinSlash rel := by
  simp [entryName]

/-- The name that the walk function of `runPackage` gives the entry of a node below the
skill directory. -/
theorem package_name (skillDir : Path) (n c : String) (cs : Path) (hn : validName n = true)
    (h : ∀ e ∈ c :: cs, validName e = true) :
    ToSlash (Join n (Rel skillDir (skillDir ++ c :: cs))) = n ++ "/" ++ joinSlash (c :: cs) := by
  rw [Rel_append, Join_valid n c cs hn h]
  rfl

/-- The walk function of `runPackage` on the output directory. -/
theorem packageWalkFn_skip (fs : Node) (skillDir d : Path) (n nm : String)
    (es : List ZipEntry) :
    packageWalkFn fs skillDir (skillDir ++ d) n (skillDir ++ d)
      (.ok { name := nm, isDir := true }) es = (es, .skipDir) := by
  simp [packageWalkFn]

/-- The walk function of `runPackage` on a directory below the skill directory that is
not the output directory. -/
theorem packageWalkFn_dir (fs : Node) (skillDir d rel : Path) (n nm : String)
    (es : List ZipEntry) (hn : validName n = true) (hrel : rel ≠ [])
    (hvalid : ∀ e ∈ rel, validName e = true) (hd : rel ≠ d) :
    packageWalkFn fs skillDir (skillDir ++ d) n (skillDir ++ rel)
      (.ok { name := nm, isDir := true }) es =
      (es ++ [{ Name := entryName n rel true, Method := .Store, isDir := true, content := "" }],
        .nil) := by
  obtain ⟨c, cs, rfl⟩ := List.exists_cons_of_ne_nil hrel
  unfold packageWalkFn
  simp only [List.append_cancel_left_eq, hd, and_false, if_false, List.append_right_eq_self,
    reduceCtorEq, if_true]
  rw [package_name skillDir n c cs hn hvalid, entryName_true]

/-- The walk function of `runPackage` on a file below the skill directory. -/
theorem packageWalkFn_file (fs : Node) (skillDir d rel : Path) (n nm : String)
    (es : List ZipEntry) (hn : validName n = true) (hrel : rel ≠ [])
    (hvalid : ∀ e ∈ rel, validName e = true) :
    (packageWalkFn fs skillDir (skillDir ++ d) n (skillDir ++ rel)
      (.ok { name := nm, isDir := false }) es).1.map (fun e => e.Name) =
        es.map (fun e => e.Name) ++ [entryName n rel false] ∧
    ((packageWalkFn fs skillDir (skillDir ++ d) n (skillDir ++ rel)
      (.ok { name := nm, isDir := false }) es).2 = .nil ∨
     ∃ e, (packageWalkFn fs skillDir (skillDir ++ d) n (skillDir ++ rel)
      (.ok { name := nm, isDir := false }) es).2 = .err e) := by
  obtain ⟨c, cs, rfl⟩ := List.exists_cons_of_ne_nil hrel
  unfold packageWalkFn
  simp only [Bool.false_eq_true, false_and, if_false, List.append_right_eq_self, reduceCtorEq]
  rw [package_name skillDir n c cs hn hvalid, entryName_false]
  cases ReadFile fs (skillDir ++ c :: cs) with
  | error e => exact ⟨by simp, Or.inr ⟨e, rfl⟩⟩
  | ok content => exact ⟨by simp, Or.inl rfl⟩

theorem walkNames_cons_skip {σ : Type} (fn : Path → Except Errno FileInfo → σ → σ × WalkRes)
    (p : Path) (name : String) (child : Node) (rest : List (String × Node)) (s : σ)
    (h : (walk fn (joinPath p name) child s).2 = .skipDir) (hd : child.isDir = true) :
    walkNames fn p ((name, child) :: rest) s =
      walkNames fn p rest (walk fn (joinPath p name) child s).1 := by
  rw [walkNames]
  simp only [h, hd, if_true]

theorem walk_dir_skip {σ : Type} (fn : Path → Except Errno FileInfo → σ → σ × WalkRes)
    (p : Path) (cs : List (String × Node)) (s : σ)
    (h : (fn p (.ok { name := Base p, isDir := true }) s).2 = .skipDir) :
    walk fn p (.dir cs) s = fn p (.ok { name := Base p, isDir := true }) s := by
  rw [walk]
  simp only [h]

theorem outside_eq_true (d : Path) (x : Path × Bool) : outside d x = true ↔ ¬ d <+: x.1 := by
  unfold outside
  rw [Bool.not_eq_true', ← Bool.not_eq_true, List.isPrefixOf_iff_prefix]

theorem prefix_concat (d rel : Path) (name : String) (h : d <+: rel ++ [name]) :
    d <+: rel ∨ d = rel ++ [name] := by
  obtain ⟨t, ht⟩ := h
  rcases List.eq_nil_or_concat t with rfl | ⟨t1, x, rfl⟩
  · exact Or.inr (by simpa using ht)
  · left
    rw [List.concat_eq_append, ← List.append_assoc] at ht
    have := List.append_inj' ht rfl
    exact ⟨t1, this.1⟩

mutual
/-- The names of the entries that the walk of `runPackage` writes for a node below the
skill directory, when it does not fail: those of the nodes at and below it that are
neither the output directory nor below it, in the order of the walk. -/
theorem walk_package (fs : Node) (skillDir d : Path) (n : String) (hn : validName n = true) :
    ∀ (node : Node) (rel : Path) (es : List ZipEntry), rel ≠ [] →
    (∀ c ∈ rel, validName c = true) →
    (∀ suffix nd, Reach node suffix nd → ∀ c ∈ suffix, validName c = true) →
    (d <+: rel → d = rel) →
    (∀ suffix nd, Reach node suffix nd → rel ++ suffix = d → nd.isDir = true) →
    (∀ e, (walk (packageWalkFn fs skillDir (skillDir ++ d) n) (skillDir ++ rel) node es).2 ≠
      .err e) →
    (walk (packageWalkFn fs skillDir (skillDir ++ d) n) (skillDir ++ rel) node es).1.map
        (fun e => e.Name) =
      es.map (fun e => e.Name) ++
        ((allItems rel node).filter (outside d)).map (fun x => entryName n x.1 x.2) ∧
    ((walk (packageWalkFn fs skillDir (skillDir ++ d) n) (skillDir ++ rel) node es).2 = .nil ∨
      ((walk (packageWalkFn fs skillDir (skillDir ++ d) n) (skillDir ++ rel) node es).2 =
        .skipDir ∧ node.isDir = true))
  | .file c r, rel, es, hrel, hvalid, _, h1, h2, hne => by
    rw [walk] at hne ⊢
    obtain ⟨hnames, hres⟩ := packageWalkFn_file fs skillDir d rel n (Base (skillDir ++ rel)) es
      hn hrel hvalid
    have hout : outside d (rel, false) = true := by
      rw [outside_eq_true]
      intro hp
      have := h2 [] (.file c r) (Reach.nil _) (by simpa using (h1 hp).symm)
      simp [Node.isDir] at this
    rw [allItems]
    simp only [List.filter_cons, hout, if_true, List.filter_nil, List.map_cons, List.map_nil]
    refine ⟨hnames, ?_⟩
    rcases hres with h | ⟨e, he⟩
    · exact Or.inl h
    · exact absurd he (hne e)
  | .dir cs, rel, es, hrel, hvalid, hsub, h1, h2, hne => by
    by_cases hd : rel = d
    · subst hd
      have hstep := packageWalkFn_skip fs skillDir rel n (Base (skillDir ++ rel)) es
      rw [walk_dir_skip _ _ _ _ (by rw [hstep]), hstep]
      have hnil : (allItems rel (Node.dir cs)).filter (outside rel) = [] := by
        rw [List.filter_eq_nil_iff]
        intro x hx
        obtain ⟨suffix, nd, rfl, _⟩ := (mem_allItems _ rel x).1 hx
        rw [outside_eq_true]
        exact fun hc => hc (List.prefix_append _ _)
      rw [hnil]
      exact ⟨by simp, Or.inr ⟨rfl, rfl⟩⟩
    · have hstep := packageWalkFn_dir fs skillDir d rel n (Base (skillDir ++ rel)) es hn hrel
        hvalid hd
      have hnp : ¬ d <+: rel := fun hp => hd (h1 hp).symm
      rw [walk_dir_nil _ _ _ _ (by rw [hstep])] at hne ⊢
      rw [hstep] at hne ⊢
      obtain ⟨hnames, hres⟩ := walkNames_package fs skillDir d n hn cs rel _ hvalid
        (fun name child hm =>
          ⟨hsub [name] child (Reach.cons hm (Reach.nil _)) name (by simp),
           fun suffix nd hr c hc => hsub (name :: suffix) nd (Reach.cons hm hr) c
             (List.mem_cons_of_mem _ hc)⟩)
        hnp
        (fun name child suffix nd hm hr heq => h2 (name :: suffix) nd (Reach.cons hm hr) heq)
        hne
      have hout : outside d (rel, true) = true := (outside_eq_true d _).2 hnp
      rw [allItems]
      simp only [List.filter_cons, hout, if_true, List.map_cons]
      refine ⟨?_, Or.inl hres⟩
      rw [hnames]
      simp
/-- The names of the entries that the walk of `runPackage` writes for the entries of a
directory, when it does not fail. -/
theorem walkNames_package (fs : Node) (skillDir d : Path) (n : String)
    (hn : validName n = true) :
    ∀ (cs : List (String × Node)) (rel : Path) (es : List ZipEntry),
    (∀ c ∈ rel, validName c = true) →
    (∀ name child, (name, child) ∈ cs → validName name = true ∧
      ∀ suffix nd, Reach child suffix nd → ∀ c ∈ suffix, validName c = true) →
    ¬ d <+: rel →
    (∀ name child suffix nd, (name, child) ∈ cs → Reach child suffix nd →
      rel ++ name :: suffix = d → nd.isDir = true) →
    (∀ e, (walkNames (packageWalkFn fs skillDir (skillDir ++ d) n) (skillDir ++ rel) cs es).2 ≠
      .err e) →
    (walkNames (packageWalkFn fs skillDir (skillDir ++ d) n) (skillDir ++ rel) cs es).1.map
        (fun e => e.Name) =
      es.map (fun e => e.Name) ++
        ((allItemsNames rel cs).filter (outside d)).map (fun x => entryName n x.1 x.2) ∧
    (walkNames (packageWalkFn fs skillDir (skillDir ++ d) n) (skillDir ++ rel) cs es).2 = .nil
  | [], rel, es, _, _, _, _, _ => by
    rw [walkNames, allItemsNames]
    simp
  | (name, child) :: rest, rel, es, hvalid, hch, hnp, h2, hne => by
    obtain ⟨hname, hsub⟩ := hch name child (by simp)
    have hj : joinPath (skillDir ++ rel) name = skillDir ++ (rel ++ [name]) := by
      rw [joinPath_valid _ _ hname, List.append_assoc]
    have hne1 : ∀ e, (walk (packageWalkFn fs skillDir (skillDir ++ d) n)
        (skillDir ++ (rel ++ [name])) child es).2 ≠ .err e := by
      intro e he
      have := walkNames_cons_err (packageWalkFn fs skillDir (skillDir ++ d) n) (skillDir ++ rel)
        name child rest es e (by rw [hj]; exact he)
      rw [this, hj] at hne
      exact hne e he
    have hvalid1 : ∀ c ∈ rel ++ [name], validName c = true := by
      intro c hc
      rcases List.mem_append.1 hc with hc | hc
      · exact hvalid c hc
      · rw [List.mem_singleton.1 hc]
        exact hname
    obtain ⟨hnames1, hres1⟩ := walk_package fs skillDir d n hn child (rel ++ [name]) es
      (by simp) hvalid1 hsub
      (fun hp => (prefix_concat d rel name hp).resolve_left hnp)
      (fun suffix nd hr heq => h2 name child suffix nd (by simp) hr (by simpa using heq))
      hne1
    have hcont : walkNames (packageWalkFn fs skillDir (skillDir ++ d) n) (skillDir ++ rel)
        ((name, child) :: rest) es =
        walkNames (packageWalkFn fs skillDir (skillDir ++ d) n) (skillDir ++ rel) rest
          (walk (packageWalkFn fs skillDir (skillDir ++ d) n) (skillDir ++ (rel ++ [name]))
            child es).1 := by
      rcases hres1 with h | ⟨h, hdir⟩
      · rw [walkNames_cons_nil _ _ _ _ _ _ (by rw [hj]; exact h), hj]
      · rw [walkNames_cons_skip _ _ _ _ _ _ (by rw [hj]; exact h) hdir, hj]
    rw [hcont] at hne ⊢
    obtain ⟨hnames2, hres2⟩ := walkNames_package fs skillDir d n hn rest rel _ hvalid
      (fun nm ch hm => hch nm ch (List.mem_cons_of_mem _ hm)) hnp
      (fun nm ch suffix nd hm hr heq => h2 nm ch suffix nd (List.mem_cons_of_mem _ hm) hr heq)
      hne
    refine ⟨?_, hres2⟩
    rw [hnames2, hnames1, allItemsNames, List.filter_append, List.map_append,
      List.append_assoc]
end

/-! ### The contents of the archive of `runPackage` -/

theorem pathElems_joinSlash_noSlash (c : String) (cs : List String)
    (h : ∀ e ∈ c :: cs, '/' ∉ e.toList) : pathElems (joinSlash (c :: cs)) = c :: cs := by
  unfold pathElems
  rw [joinSlash_toList, List.map_cons, splitOnSlash_intercalate]
  · simp only [List.map_cons, List.map_map, List.cons.injEq]
    refine ⟨rfl, ?_⟩
    have : (String.mk ∘ String.toList) = id := funext fun s => rfl
    rw [this, List.map_id]
  · intro e he
    rw [← List.map_cons, List.mem_map] at he
    obtain ⟨s, hs, rfl⟩ := he
    exact h s hs

theorem joinSlash_concat_empty (c : String) (cs : List String) :
    joinSlash (c :: (cs ++ [""])) = joinSlash (c :: cs) ++ "/" := by
  apply String.ext
  simp only [joinSlash, List.map_cons, List.map_append, String.data_append,
    intercalate_cons_eq, List.flatten_append]
  simp

/-- The name of an entry is its skill name, the names of its relative path and, for a
directory, one empty name more, joined by slashes. -/
theorem entryName_eq_joinSlash (n : String) (rel : Path) (b : Bool) (hrel : rel ≠ []) :
    entryName n rel b = joinSlash (n :: (rel ++ if b then [""] else [])) := by
  obtain ⟨c, cs, rfl⟩ := List.exists_cons_of_ne_nil hrel
  cases b with
  | false =>
    rw [entryName_false]
    simp only [Bool.false_eq_true, if_false, List.append_nil]
    rw [joinSlash_cons_cons]
  | true =>
    rw [entryName_true]
    simp only [if_true, List.cons_append]
    rw [joinSlash_cons_cons, joinSlash_concat_empty]
    exact String.ext (by simp [String.data_append])

/-- Two nodes with valid relative paths have the same entry name only when they have the
same relative path and are both directories or both files. -/
theorem entryName_inj (n : String) (rel1 rel2 : Path) (b1 b2 : Bool)
    (hn : validName n = true) (h1 : rel1 ≠ []) (h2 : rel2 ≠ [])
    (hv1 : ∀ c ∈ rel1, validName c = true) (hv2 : ∀ c ∈ rel2, validName c = true)
    (h : entryName n rel1 b1 = entryName n rel2 b2) : rel1 = rel2 ∧ b1 = b2 := by
  have hslash : ∀ (rel : Path) (b : Bool), (∀ c ∈ rel, validName c = true) →
      ∀ e ∈ n :: (rel ++ if b then [""] else []), '/' ∉ e.toList := by
    intro rel b hv e he
    rcases List.mem_cons.1 he with rfl | he
    · exact ((validName_iff _).1 hn).2.2.2
    · rcases List.mem_append.1 he with he | he
      · exact ((validName_iff _).1 (hv e he)).2.2.2
      · cases b with
        | false => simp at he
        | true =>
          simp only [if_true, List.mem_singleton] at he
          rw [he]
          simp
  rw [entryName_eq_joinSlash n rel1 b1 h1, entryName_eq_joinSlash n rel2 b2 h2] at h
  have hp := congrArg pathElems h
  rw [pathElems_joinSlash_noSlash _ _ (hslash rel1 b1 hv1),
    pathElems_joinSlash_noSlash _ _ (hslash rel2 b2 hv2)] at hp
  simp only [List.cons.injEq, true_and] at hp
  have hempty : ∀ rel : Path, (∀ c ∈ rel, validName c = true) → "" ∉ rel := by
    intro rel hv hm
    have := hv "" hm
    simp [validName] at this
  cases b1 <;> cases b2
  · simpa using hp
  · exfalso
    simp only [Bool.false_eq_true, if_false, List.append_nil, if_true] at hp
    exact hempty rel1 hv1 (by rw [hp]; simp)
  · exfalso
    simp only [Bool.false_eq_true, if_false, List.append_nil, if_true] at hp
    exact hempty rel2 hv2 (by rw [← hp]; simp)
  · simp only [if_true] at hp
    exact ⟨List.append_cancel_right hp, rfl⟩

/-- The walk function of `runPackage` on the skill directory itself. -/
theorem packageWalkFn_root (fs : Node) (skillDir d : Path) (n : String) (info : FileInfo)
    (es : List ZipEntry) (hd : d ≠ []) :
    packageWalkFn fs skillDir (skillDir ++ d) n skillDir (.ok info) es = (es, .nil) := by
  unfold packageWalkFn
  have h1 : skillDir ≠ skillDir ++ d := by
    intro hc
    exact hd (List.self_eq_append_right.1 hc)
  simp [h1]

/-- `os.MkdirAll` leaves a directory at the path. -/
theorem mkdirAll_self (p : Path) : ∀ (t t1 : Node), t.mkdirAll p = .ok t1 →
    ∃ cs, t1.lookup p = .ok (.dir cs) := by
  induction p with
  | nil =>
    intro t t1 h
    obtain ⟨cs, hcs⟩ := (isDir_iff t1).1 (mkdirAll_isDir [] t t1 h)
    exact ⟨cs, by rw [hcs]; simp [Node.lookup]⟩
  | cons a rest ih =>
    intro t t1 h
    cases t with
    | file c0 r0 => simp [Node.mkdirAll] at h
    | dir cs0 =>
      rw [Node.mkdirAll] at h
      cases hl : cs0.lookup a with
      | none =>
        simp only [hl] at h
        cases hm : (Node.dir []).mkdirAll rest with
        | error e => simp [hm] at h
        | ok child =>
          simp only [hm, Except.ok.injEq] at h
          subst h
          rw [Node.lookup]
          simp only [lookup_setChild_self]
          exact ih _ _ hm
      | some ch =>
        simp only [hl] at h
        cases hm : ch.mkdirAll rest with
        | error e => simp [hm] at h
        | ok child =>
          simp only [hm, Except.ok.injEq] at h
          subst h
          rw [Node.lookup]
          simp only [lookup_setChild_self]
          exact ih _ _ hm

/-- `os.Create` leaves every directory a directory. -/
theorem Create_dirs (fs fs1 : Node) (p : Path) (h : Create fs p = .ok fs1) (q : Path)
    (cs : List (String × Node)) (hq : fs.lookup q = .ok (.dir cs)) :
    ∃ cs1, fs1.lookup q = .ok (.dir cs1) := by
  unfold Create at h
  split at h
  · exact Except.noConfusion h
  · next r0 hl => exact insert_dirs p _ _ _ h (Or.inr ⟨_, r0, hl⟩) q cs hq
  · next hl => exact insert_dirs p _ _ _ h (Or.inl hl) q cs hq
  · exact Except.noConfusion h

/-- The names of the entries that `filepath.Walk` in `runPackage` writes when it does not
fail and the output directory is a directory strictly inside the skill directory: those
of the nodes strictly below the skill directory that are neither the output directory nor
below it. -/
theorem Walk_package_names (fs2 : Node) (skillDir d : Path) (n : String)
    (cs : List (String × Node)) (hwf : fs2.wf = true) (hn : validName n = true)
    (hd : d ≠ []) (hl : fs2.lookup skillDir = .ok (.dir cs))
    (hout : ∃ csd, fs2.lookup (skillDir ++ d) = .ok (.dir csd))
    (hres : (Walk fs2 skillDir (packageWalkFn fs2 skillDir (skillDir ++ d) n) []).2 = .nil) :
    (Walk fs2 skillDir (packageWalkFn fs2 skillDir (skillDir ++ d) n) []).1.map
        (fun e => e.Name) =
      ((allItemsNames [] (sortChildren cs)).filter (outside d)).map
        (fun x => entryName n x.1 x.2) := by
  have hN : (Node.dir cs).wf = true := wf_of_lookup fs2 skillDir _ hwf hl
  have hS : (Node.dir (sortChildren cs)).wf = true := by
    have := wf_sorted _ hN
    rwa [Node.sorted] at this
  have hsorted : (Node.dir cs).sorted = .dir (sortChildren cs) := by rw [Node.sorted]
  rw [Walk_ok fs2 skillDir _ [] _ hl, hsorted] at hres ⊢
  dsimp only at hres ⊢
  have hroot := packageWalkFn_root fs2 skillDir d n { name := Base skillDir, isDir := true } [] hd
  rw [walk_dir_nil _ _ _ _ (by rw [hroot])] at hres ⊢
  rw [hroot] at hres ⊢
  have hne : ∀ e, (walkNames (packageWalkFn fs2 skillDir (skillDir ++ d) n) (skillDir ++ [])
      (sortChildren cs) []).2 ≠ .err e := by
    intro e he
    rw [List.append_nil] at he
    rw [he] at hres
    exact WalkRes.noConfusion hres
  have hmain := walkNames_package fs2 skillDir d n hn (sortChildren cs) [] [] (by simp)
    (fun name child hm =>
      ⟨((Reach.cons hm (Reach.nil child)).lookup_of_wf hS).2.2 name (by simp),
       fun suffix nd hr c hc => ((Reach.cons hm hr).lookup_of_wf hS).2.2 c
         (List.mem_cons_of_mem _ hc)⟩)
    (fun hp => hd (List.prefix_nil.1 hp))
    (by
      intro name child suffix nd hm hr heq
      obtain ⟨csd, hcsd⟩ := hout
      rw [lookup_append fs2 skillDir d _ hl] at hcsd
      have h1 := (reach_of_lookup d _ _ hcsd).to_sorted
      rw [hsorted] at h1
      have h2 := (h1.lookup_of_wf hS).1
      have h3 := ((Reach.cons hm hr).lookup_of_wf hS).1
      rw [List.nil_append] at heq
      rw [heq, h2] at h3
      simp only [Except.ok.injEq] at h3
      rw [← h3, isDir_sorted]
      rfl)
    hne
  rw [List.append_nil] at hmain
  simpa using hmain.1

/-- A run of `runPackage` that ends with exit code 0: the output directory and the
archive file were created, the walk did not fail, and the archive has the entries the walk
wrote. -/
theorem runPackage_success (L : Libs) (flags : Flags) (w : World) (skillDir : Path)
    (hcwd : w.cwd = some skillDir) (hexit : (runPackage L flags w).exitCode = 0) :
    ∃ fs1 fs2 ap,
      MkdirAll w.fs (joinPath (Dir skillDir) flags.outputDir) = .ok fs1 ∧
      Create fs1 ap = .ok fs2 ∧
      ap = joinPath (joinPath (Dir skillDir) flags.outputDir)
        (if flags.outputName = "" then
          L.jsonField (readFileOrEmpty w.fs (joinPath skillDir "skill.json")) "name" ++ "-" ++
            L.jsonField (readFileOrEmpty w.fs (joinPath skillDir "skill.json")) "version" ++
            ".skill"
         else flags.outputName) ∧
      (Walk fs2 skillDir (packageWalkFn fs2 skillDir (joinPath (Dir skillDir) flags.outputDir)
        (L.jsonField (readFileOrEmpty w.fs (joinPath skillDir "skill.json")) "name")) []).2 =
          .nil ∧
      (runPackage L flags w).fs = fs2 ∧
      (runPackage L flags w).archive = some (ap,
        (Walk fs2 skillDir (packageWalkFn fs2 skillDir (joinPath (Dir skillDir) flags.outputDir)
          (L.jsonField (readFileOrEmpty w.fs (joinPath skillDir "skill.json")) "name")) []).1) := by
  have h10 : (1 : Nat) ≠ 0 := by decide
  unfold runPackage at hexit ⊢
  simp only [hcwd] at hexit ⊢
  generalize (if flags.outputName = "" then
      L.jsonField (readFileOrEmpty w.fs (joinPath skillDir "skill.json")) "name" ++ "-" ++
        L.jsonField (readFileOrEmpty w.fs (joinPath skillDir "skill.json")) "version" ++
        ".skill"
     else flags.outputName) = fname at hexit ⊢
  by_cases hv : (doValidation L w.fs skillDir).length > 0
  · rw [if_pos hv] at hexit
    exact absurd hexit h10
  · rw [if_neg hv] at hexit ⊢
    cases hmk : MkdirAll w.fs (joinPath (Dir skillDir) flags.outputDir) with
    | error e =>
      rw [hmk] at hexit
      exact absurd hexit h10
    | ok fs1 =>
      simp only [hmk] at hexit ⊢
      cases hcr : Create fs1 (joinPath (joinPath (Dir skillDir) flags.outputDir) fname) with
      | error e =>
        rw [hcr] at hexit
        exact absurd hexit h10
      | ok fs2 =>
        simp only [hcr] at hexit ⊢
        cases hw : (Walk fs2 skillDir (packageWalkFn fs2 skillDir
            (joinPath (Dir skillDir) flags.outputDir)
            (L.jsonField (readFileOrEmpty w.fs (joinPath skillDir "skill.json")) "name")) []).2 with
        | nil =>
          exact ⟨fs1, fs2, _, rfl, hcr, rfl, hw, rfl, rfl⟩
        | skipDir =>
          rw [hw] at hexit
          exact absurd hexit h10
        | err e =>
          rw [hw] at hexit
          exact absurd hexit h10
        | panic =>
          rw [hw] at hexit
          exact absurd hexit h10

/-- C19, amended: in a run of `runPackage` that ends with exit code 0 and whose resolved
output directory `skillDir/d` lies strictly inside the skill directory, no entry of the
archive has the name of the output directory or of a node beneath it, and for every other
file and directory strictly below the skill directory exactly one entry has its name.
The archive being written is created at the output directory joined with its file name;
when that file name is a plain name, without a directory part, the archive is a file of
the output directory and no entry has its name. -/
theorem runPackage_archive_contents (L : Libs) (flags : Flags) (w : World)
    (skillDir d : Path) (n : String) (hschema : SchemaChecksName L) (hwf : w.fs.wf = true)
    (hdir : ∀ c ∈ skillDir, validName c = true) (hcwd : w.cwd = some skillDir)
    (hvalid : doValidation L w.fs skillDir = [])
    (hn : L.jsonField (readFileOrEmpty w.fs (joinPath skillDir "skill.json")) "name" = n)
    (hout : joinPath (Dir skillDir) flags.outputDir = skillDir ++ d) (hd : d ≠ [])
    (hexit : (runPackage L flags w).exitCode = 0) :
    ∃ p entries, (runPackage L flags w).archive = some (p, entries) ∧
      (∀ rel node, (runPackage L flags w).fs.lookup (skillDir ++ rel) = .ok node → d <+: rel →
        ∀ e ∈ entries, e.Name ≠ entryName n rel node.isDir) ∧
      (∀ rel node, rel ≠ [] → (runPackage L flags w).fs.lookup (skillDir ++ rel) = .ok node →
        ¬ d <+: rel →
        (entries.map (fun e => e.Name)).count (entryName n rel node.isDir) = 1) ∧
      p = joinPath (skillDir ++ d)
        (if flags.outputName = "" then
          n ++ "-" ++ L.jsonField (readFileOrEmpty w.fs (joinPath skillDir "skill.json")) "version" ++
            ".skill"
         else flags.outputName) ∧
      (∀ fname, fname = (if flags.outputName = "" then
          n ++ "-" ++ L.jsonField (readFileOrEmpty w.fs (joinPath skillDir "skill.json")) "version" ++
            ".skill"
         else flags.outputName) → validName fname = true →
        p = skillDir ++ (d ++ [fname]) ∧
        (∃ r, (runPackage L flags w).fs.lookup (skillDir ++ (d ++ [fname])) =
          .ok (.file "" r)) ∧
        ∀ e ∈ entries, e.Name ≠ entryName n (d ++ [fname]) false) := by
  obtain ⟨content, hread, hval, _⟩ := doValidation_eq_nil L w.fs skillDir hvalid
  have hnv : validName n = true := by
    rw [readFileOrEmpty_of_ok _ _ _ hread] at hn
    exact validName_of_matches n (hn ▸ hschema content hval)
  obtain ⟨fs1, fs2, ap, hmk, hcr, hap, hw, hfs, harch⟩ :=
    runPackage_success L flags w skillDir hcwd hexit
  rw [hn, hout] at hw harch
  rw [hn, hout] at hap
  rw [hout] at hmk
  have hfod : ∀ c ∈ skillDir ++ d, validName c = true := by
    rw [← hout]
    exact joinPath_allValid _ _ (fun c hc => hdir c (List.dropLast_subset _ hc))
  have hwf1 : fs1.wf = true := wf_mkdirAll _ _ _ hwf hfod hmk
  have hapv : ∀ c ∈ ap, validName c = true := hap ▸ joinPath_allValid _ _ hfod
  have hwf2 : fs2.wf = true := wf_Create fs1 fs2 ap hwf1 hapv hcr
  have hodir : ∃ csd, fs2.lookup (skillDir ++ d) = .ok (.dir csd) := by
    obtain ⟨cs1, h1⟩ := mkdirAll_self _ _ _ hmk
    exact Create_dirs fs1 fs2 ap hcr _ cs1 h1
  obtain ⟨c0, d0, rfl⟩ := List.exists_cons_of_ne_nil hd
  have hl : ∃ cs, fs2.lookup skillDir = .ok (.dir cs) := by
    obtain ⟨csd, hcsd⟩ := hodir
    obtain ⟨m, hm⟩ := lookup_prefix_ok skillDir fs2 (c0 :: d0) _ hcsd
    rw [lookup_append fs2 skillDir _ m hm] at hcsd
    cases m with
    | file c r =>
      rw [lookup_file_cons] at hcsd
      exact Except.noConfusion hcsd
    | dir cs => exact ⟨cs, hm⟩
  obtain ⟨cs, hl⟩ := hl
  have hnames := Walk_package_names fs2 skillDir (c0 :: d0) n cs hwf2 hnv hd hl hodir hw
  have hN : (Node.dir cs).wf = true := wf_of_lookup fs2 skillDir _ hwf2 hl
  have hS : (Node.dir (sortChildren cs)).wf = true := by
    have := wf_sorted _ hN
    rwa [Node.sorted] at this
  have hitems : ∀ x ∈ (allItemsNames [] (sortChildren cs)).filter (outside (c0 :: d0)),
      x.1 ≠ [] ∧ (∀ c ∈ x.1, validName c = true) ∧ ¬ (c0 :: d0) <+: x.1 := by
    intro x hx
    obtain ⟨hx1, hx2⟩ := List.mem_filter.1 hx
    obtain ⟨name, child, suffix, nd, hm, rfl, hr⟩ := (mem_allItemsNames _ [] x).1 hx1
    exact ⟨by simp, ((Reach.cons hm hr).lookup_of_wf hS).2.2, (outside_eq_true _ _).1 hx2⟩
  have hnodup : (((allItemsNames [] (sortChildren cs)).filter (outside (c0 :: d0))).map
      (fun x => entryName n x.1 x.2)).Nodup := by
    refine List.Nodup.map_on ?_ ((nodup_allItemsNames _ [] (by rwa [wf_dir] at hS)).filter _)
    intro x hx y hy hxy
    obtain ⟨hx1, hx2, _⟩ := hitems x hx
    obtain ⟨hy1, hy2, _⟩ := hitems y hy
    obtain ⟨h1, h2⟩ := entryName_inj n x.1 y.1 x.2 y.2 hnv hx1 hy1 hx2 hy2 hxy
    exact Prod.ext h1 h2
  have hreach : ∀ rel node, fs2.lookup (skillDir ++ rel) = .ok node →
      Reach (Node.dir cs) rel node := by
    intro rel node hlk
    rw [lookup_append fs2 skillDir rel _ hl] at hlk
    exact reach_of_lookup rel _ _ hlk
  have hbelow : ∀ rel node, fs2.lookup (skillDir ++ rel) = .ok node → (c0 :: d0) <+: rel →
      ∀ e ∈ (Walk fs2 skillDir (packageWalkFn fs2 skillDir (skillDir ++ c0 :: d0) n) []).1,
        e.Name ≠ entryName n rel node.isDir := by
    intro rel node hlk hp e he hname
    have hr := hreach rel node hlk
    have hrel : rel ≠ [] := by
      rintro rfl
      simp at hp
    have hrv : ∀ c ∈ rel, validName c = true := (hr.lookup_of_wf hN).2.2
    have hmem : e.Name ∈ (Walk fs2 skillDir
        (packageWalkFn fs2 skillDir (skillDir ++ c0 :: d0) n) []).1.map (fun e => e.Name) :=
      List.mem_map.2 ⟨e, he, rfl⟩
    rw [hnames] at hmem
    obtain ⟨x, hx, hxe⟩ := List.mem_map.1 hmem
    obtain ⟨hx1, hx2, hx3⟩ := hitems x hx
    rw [hname] at hxe
    obtain ⟨h1, _⟩ := entryName_inj n x.1 rel x.2 node.isDir hnv hx1 hrel hx2 hrv hxe
    exact hx3 (h1 ▸ hp)
  refine ⟨ap, _, harch, ?_, ?_, hap, ?_⟩
  · intro rel node hlk hp
    rw [hfs] at hlk
    exact hbelow rel node hlk hp
  · intro rel node hrel hlk hnp
    rw [hfs] at hlk
    have hr := (hreach rel node hlk).to_sorted
    rw [Node.sorted] at hr
    rw [hnames]
    refine List.count_eq_one_of_mem hnodup (List.mem_map.2 ⟨(rel, node.isDir), ?_, rfl⟩)
    rw [List.mem_filter]
    refine ⟨?_, (outside_eq_true _ _).2 hnp⟩
    rcases (reach_dir_iff _ _ _).1 hr with ⟨h0, _⟩ | ⟨name, child, rest, rfl, hm, hrc⟩
    · exact absurd h0 hrel
    · rw [mem_allItemsNames]
      exact ⟨name, child, rest, node.sorted, hm, by rw [isDir_sorted]; rfl, hrc⟩
  · intro fname hfname hv
    rw [← hfname, joinPath_valid _ fname hv, List.append_assoc] at hap
    obtain ⟨r, hr⟩ := Create_self fs1 fs2 ap hcr
    rw [hap] at hr
    rw [hfs]
    exact ⟨hap, ⟨r, hr⟩, hbelow _ _ hr (List.prefix_append _ _)⟩

/-- C19, as stated, fails: with the output directory `foo/dist`, which resolves to
`/home/foo/dist` inside the skill directory `/home/foo`, and the output name
`../self.skill`, the archive being written is `/home/foo/self.skill`, beside the output
directory, and the archive has the entry `foo/self.skill` for it; the run ends with exit
code 0. -/
theorem runPackage_archive_includes_itself :
    joinPath (Dir ["home", "foo"]) "foo/dist" = ["home", "foo"] ++ ["dist"] ∧
    (runPackage exLibs { outputDir := "foo/dist", outputName := "../self.skill" }
      { fs := exFs, cwd := some ["home", "foo"] }).exitCode = 0 ∧
    (runPackage exLibs { outputDir := "foo/dist", outputName := "../self.skill" }
      { fs := exFs, cwd := some ["home", "foo"] }).archive.map
        (fun a => (a.1, a.2.map (fun e => e.Name))) =
      some (["home", "foo", "self.skill"],
        ["foo/LICENSE", "foo/README.md", "foo/assets/", "foo/assets/a.txt", "foo/icon.svg",
          "foo/self.skill", "foo/skill.json"]) ∧
    entryName "foo" ["self.skill"] false = "foo/self.skill" := by
  decide

/-- C19 amended, on the example skill packaged into `/home/foo/dist` under the default
archive name: exit code 0, the archive is `/home/foo/dist/foo-1.0.0.skill`, no entry has
its name, and `assets/a.txt` has exactly one entry. -/
theorem runPackage_archive_contents_witness :
    (runPackage exLibs { outputDir := "foo/dist", outputName := "" }
      { fs := exFs, cwd := some ["home", "foo"] }).exitCode = 0 ∧
    ∃ p entries, (runPackage exLibs { outputDir := "foo/dist", outputName := "" }
        { fs := exFs, cwd := some ["home", "foo"] }).archive = some (p, entries) ∧
      p = ["home", "foo"] ++ (["dist"] ++ ["foo-1.0.0.skill"]) ∧
      (∀ e ∈ entries, e.Name ≠ entryName "foo" (["dist"] ++ ["foo-1.0.0.skill"]) false) ∧
      (entries.map (fun e => e.Name)).count "foo/assets/a.txt" = 1 := by
  have hexit : (runPackage exLibs { outputDir := "foo/dist", outputName := "" }
      { fs := exFs, cwd := some ["home", "foo"] }).exitCode = 0 := by decide
  obtain ⟨p, entries, harch, _, h2, _, h4⟩ := runPackage_archive_contents exLibs
    { outputDir := "foo/dist", outputName := "" } { fs := exFs, cwd := some ["home", "foo"] }
    ["home", "foo"] ["dist"] "foo" exLibs_schemaChecksName (by decide) (by decide) rfl
    (by decide) (by decide) (by decide) (by decide) hexit
  obtain ⟨hp, _, hne⟩ := h4 "foo-1.0.0.skill" (by decide) (by decide)
  refine ⟨hexit, p, entries, harch, hp, hne, ?_⟩
  have := h2 ["assets", "a.txt"] (.file "a" true) (by decide) (by rfl) (by decide)
  exact this

/-! ## The output directory is the skill directory (`cmd/package.go`) -/

/-- With the output directory equal to the skill directory, the walk function of
`runPackage` answers `SkipDir` at the root of the walk. -/
theorem packageWalkFn_root_skip (fs : Node) (skillDir : Path) (n nm : String)
    (es : List ZipEntry) :
    packageWalkFn fs skillDir skillDir n skillDir (.ok { name := nm, isDir := true }) es =
      (es, .skipDir) := by
  simp [packageWalkFn]

/-- With the output directory equal to the skill directory, `filepath.Walk` over the skill
directory writes no entry and returns `nil`. -/
theorem Walk_package_root_skipped (fs : Node) (skillDir : Path) (n : String)
    (cs : List (String × Node)) (h : fs.lookup skillDir = .ok (.dir cs)) :
    Walk fs skillDir (packageWalkFn fs skillDir skillDir n) [] = ([], .nil) := by
  rw [Walk_ok fs skillDir _ [] _ h, Node.sorted,
    walk_dir_skip _ skillDir _ [] (by rw [packageWalkFn_root_skip]),
    packageWalkFn_root_skip]
  rfl

/-- `os.MkdirAll` succeeds on a path that is a directory. -/
theorem mkdirAll_ok_of_dir (p : Path) : ∀ (t : Node) (cs : List (String × Node)),
    t.lookup p = .ok (.dir cs) → ∃ t1, t.mkdirAll p = .ok t1 := by
  induction p with
  | nil =>
    intro t cs h
    simp only [Node.lookup, Except.ok.injEq] at h
    subst h
    exact ⟨_, rfl⟩
  | cons a rest ih =>
    intro t cs h
    cases t with
    | file c0 r0 =>
      rw [lookup_file_cons] at h
      exact Except.noConfusion h
    | dir cs0 =>
      rw [Node.lookup] at h
      cases hl : cs0.lookup a with
      | none => simp [hl] at h
      | some ch =>
        simp only [hl] at h
        obtain ⟨t1, h1⟩ := ih ch cs h
        refine ⟨.dir (setChild a t1 cs0), ?_⟩
        rw [Node.mkdirAll]
        simp only [hl, h1]

/-- A directory whose `skill.json` can be read is a directory. -/
theorem dir_of_readable_manifest (fs : Node) (d : Path) (content : String)
    (h : ReadFile fs (joinPath d "skill.json") = .ok content) :
    ∃ cs, fs.lookup d = .ok (.dir cs) := by
  rw [joinPath_valid d "skill.json" (by decide)] at h
  cases hl : fs.lookup (d ++ ["skill.json"]) with
  | error e =>
    unfold ReadFile at h
    rw [hl] at h
    exact Except.noConfusion h
  | ok n =>
    obtain ⟨m, hm⟩ := lookup_prefix_ok d fs ["skill.json"] n hl
    cases m with
    | dir cs => exact ⟨cs, hm⟩
    | file c r =>
      rw [lookup_append fs d ["skill.json"] _ hm, lookup_file_cons] at hl
      exact Except.noConfusion hl

/-- C24: when the output-dir setting resolves to the skill directory itself (the parent
of the skill directory joined with the setting is the skill directory), the walk function
of `runPackage` answers `SkipDir` at the root of the walk. When validation passes,
`os.MkdirAll` succeeds, and once `os.Create` has created the archive file the run ends
with exit code 0 and an archive without entries. Every archive a run writes has no
entries and comes with exit code 0. -/
theorem runPackage_output_in_place (L : Libs) (flags : Flags) (w : World) (skillDir : Path)
    (hcwd : w.cwd = some skillDir)
    (hout : joinPath (Dir skillDir) flags.outputDir = skillDir) :
    (∀ (fs : Node) (n nm : String) (es0 : List ZipEntry),
      packageWalkFn fs skillDir (joinPath (Dir skillDir) flags.outputDir) n skillDir
        (.ok { name := nm, isDir := true }) es0 = (es0, .skipDir)) ∧
    (doValidation L w.fs skillDir = [] →
      ∃ fs1, MkdirAll w.fs skillDir = .ok fs1 ∧
        ∀ fs2, Create fs1 (joinPath skillDir
            (if flags.outputName = "" then
              L.jsonField (readFileOrEmpty w.fs (joinPath skillDir "skill.json")) "name" ++ "-" ++
                L.jsonField (readFileOrEmpty w.fs (joinPath skillDir "skill.json")) "version" ++
                ".skill"
             else flags.outputName)) = .ok fs2 →
          runPackage L flags w =
            { exitCode := 0, fs := fs2,
              archive := some (joinPath skillDir
                (if flags.outputName = "" then
                  L.jsonField (readFileOrEmpty w.fs (joinPath skillDir "skill.json")) "name" ++
                    "-" ++
                    L.jsonField (readFileOrEmpty w.fs (joinPath skillDir "skill.json"))
                      "version" ++ ".skill"
                 else flags.outputName), []) }) ∧
    (∀ (ap : Path) (es : List ZipEntry), (runPackage L flags w).archive = some (ap, es) →
      es = [] ∧ (runPackage L flags w).exitCode = 0) := by
  refine ⟨fun fs n nm es0 => by rw [hout]; exact packageWalkFn_root_skip fs skillDir n nm es0,
    ?_, ?_⟩
  · intro hval
    obtain ⟨content, hread, _, _⟩ := doValidation_eq_nil L w.fs skillDir hval
    obtain ⟨cs, hdir⟩ := dir_of_readable_manifest w.fs skillDir content hread
    obtain ⟨fs1, hmk⟩ := mkdirAll_ok_of_dir skillDir w.fs cs hdir
    refine ⟨fs1, hmk, ?_⟩
    unfold runPackage
    simp only [hcwd]
    rw [hout]
    generalize (if flags.outputName = "" then
        L.jsonField (readFileOrEmpty w.fs (joinPath skillDir "skill.json")) "name" ++ "-" ++
          L.jsonField (readFileOrEmpty w.fs (joinPath skillDir "skill.json")) "version" ++
          ".skill"
       else flags.outputName) = fname
    intro fs2 hcr
    have hv : ¬ (doValidation L w.fs skillDir).length > 0 := by
      rw [hval]
      exact Nat.lt_irrefl 0
    rw [if_neg hv]
    have hmk1 : MkdirAll w.fs skillDir = .ok fs1 := hmk
    simp only [hmk1, hcr]
    obtain ⟨cs1, hcs1⟩ := mkdirAll_self skillDir w.fs fs1 hmk
    obtain ⟨cs2, hcs2⟩ := Create_dirs fs1 fs2 _ hcr skillDir cs1 hcs1
    rw [Walk_package_root_skipped fs2 skillDir _ cs2 hcs2]
  · intro ap es harch
    unfold runPackage at harch ⊢
    simp only [hcwd] at harch ⊢
    rw [hout] at harch ⊢
    generalize (if flags.outputName = "" then
        L.jsonField (readFileOrEmpty w.fs (joinPath skillDir "skill.json")) "name" ++ "-" ++
          L.jsonField (readFileOrEmpty w.fs (joinPath skillDir "skill.json")) "version" ++
          ".skill"
       else flags.outputName) = fname at harch ⊢
    by_cases hv : (doValidation L w.fs skillDir).length > 0
    · rw [if_pos hv] at harch
      exact Option.noConfusion harch
    · rw [if_neg hv] at harch ⊢
      cases hmk : MkdirAll w.fs skillDir with
      | error e =>
        rw [hmk] at harch
        exact Option.noConfusion harch
      | ok fs1 =>
        simp only [hmk] at harch ⊢
        cases hcr : Create fs1 (joinPath skillDir fname) with
        | error e =>
          rw [hcr] at harch
          exact Option.noConfusion harch
        | ok fs2 =>
          simp only [hcr] at harch ⊢
          obtain ⟨cs1, hcs1⟩ := mkdirAll_self skillDir w.fs fs1 hmk
          obtain ⟨cs2, hcs2⟩ := Create_dirs fs1 fs2 _ hcr skillDir cs1 hcs1
          rw [Walk_package_root_skipped fs2 skillDir _ cs2 hcs2] at harch ⊢
          simp only [Option.some.injEq, Prod.mk.injEq] at harch
          exact ⟨harch.2.symm, rfl⟩

/-- C24 on the example skill `/home/foo` packaged with the output directory `foo`: the
archive `/home/foo/foo-1.0.0.skill` is written without entries, with exit code 0. -/
theorem runPackage_output_in_place_witness :
    doValidation exLibs exFs ["home", "foo"] = [] ∧
    (runPackage exLibs { outputDir := "foo", outputName := "" }
      { fs := exFs, cwd := some ["home", "foo"] }).archive =
        some (["home", "foo", "foo-1.0.0.skill"], []) ∧
    (runPackage exLibs { outputDir := "foo", outputName := "" }
      { fs := exFs, cwd := some ["home", "foo"] }).exitCode = 0 :=
  have harch : (runPackage exLibs { outputDir := "foo", outputName := "" }
      { fs := exFs, cwd := some ["home", "foo"] }).archive =
        some (["home", "foo", "foo-1.0.0.skill"], []) := by decide
  ⟨by decide, harch, ((runPackage_output_in_place exLibs { outputDir := "foo", outputName := "" }
    { fs := exFs, cwd := some ["home", "foo"] } ["home", "foo"] rfl (by decide)).2.2
    ["home", "foo", "foo-1.0.0.skill"] [] harch).2⟩

/-! ## Declared paths that are directories (`cmd/validate.go`) -/

/-- The check of one declared file adds nothing when `os.Stat` succeeds on the path,
whether it finds a file or a directory. -/
theorem missingFileReport_of_stat_ok (fs : Node) (d : Path) (value field : String)
    (info : FileInfo) (h : Stat fs (joinPath d value) = .ok info) :
    missingFileReport fs d value field = [] := by
  unfold missingFileReport
  rw [if_neg]
  rintro ⟨_, hne⟩
  rw [NotExist, h] at hne
  exact Bool.noConfusion hne

/-- The check of one declared file adds its violation when the value is not empty and
`os.Stat` finds nothing at the path. -/
theorem missingFileReport_of_absent (fs : Node) (d : Path) (value field : String)
    (hv : value ≠ "") (h : Stat fs (joinPath d value) = .error .ENOENT) :
    missingFileReport fs d value field = [fileMissing value field] := by
  unfold missingFileReport
  rw [if_pos ⟨hv, (notExist_iff fs _).2 h⟩]
  rfl

/-- C22, on the code: a manifest whose icon is a directory of the skill directory passes
`performFileSystemChecks` without any violation. -/
theorem performFileSystemChecks_accepts_directory :
    exDirLibs.jsonField (readFileOrEmpty exDirFs ["home", "foo", "skill.json"]) "icon" =
      "assets" ∧
    Stat exDirFs (joinPath ["home", "foo"] "assets") = .ok { name := "assets", isDir := true } ∧
    performFileSystemChecks exDirLibs exDirFs ["home", "foo"] ["home", "foo", "skill.json"] =
      [] :=
  ⟨by decide, rfl, by decide⟩

/-- C22, amended: for a manifest with the icon, licenseFile and entrypoint given, the
report of `performFileSystemChecks` is the directory-name report followed by one part for
each of the three fields, in that order; for a field that is not empty the part is the
violation of that field when nothing exists at the path joined from the skill directory
and the value, and it is empty when `os.Stat` succeeds on that path, on a file and on a
directory alike. -/
theorem performFileSystemChecks_declared_paths (L : Libs) (fs : Node) (d m : Path)
    (icon licenseFile entrypoint : String)
    (hi : L.jsonField (readFileOrEmpty fs m) "icon" = icon)
    (hl : L.jsonField (readFileOrEmpty fs m) "licenseFile" = licenseFile)
    (he : L.jsonField (readFileOrEmpty fs m) "entrypoint" = entrypoint) :
    ∃ nameReport iconReport licenseReport entryReport : List String,
      performFileSystemChecks L fs d m =
        nameReport ++ (iconReport ++ (licenseReport ++ entryReport)) ∧
      (∀ v ∈ nameReport, IsDirNameMismatch v) ∧
      (∀ x ∈ [(icon, "icon", iconReport), (licenseFile, "licenseFile", licenseReport),
          (entrypoint, "entrypoint", entryReport)], x.1 ≠ "" →
        (Stat fs (joinPath d x.1) = .error .ENOENT → x.2.2 = [fileMissing x.1 x.2.1]) ∧
        (∀ isDir : Bool, Stat fs (joinPath d x.1) =
            .ok { name := Base (joinPath d x.1), isDir := isDir } → x.2.2 = [])) := by
  refine ⟨if Base d ≠ L.jsonField (readFileOrEmpty fs m) "name" then
      [dirNameMismatch (Base d) (L.jsonField (readFileOrEmpty fs m) "name")] else [],
    missingFileReport fs d icon "icon",
    missingFileReport fs d licenseFile "licenseFile",
    missingFileReport fs d entrypoint "entrypoint", ?_, ?_, ?_⟩
  · rw [performFileSystemChecks_eq, hi, hl, he]
  · intro v hv
    split at hv
    · rw [List.mem_singleton] at hv
      exact ⟨_, _, hv⟩
    · exact absurd hv (List.not_mem_nil v)
  · intro x hx hne
    simp only [List.mem_cons, List.mem_singleton, List.not_mem_nil, or_false] at hx
    rcases hx with rfl | rfl | rfl
    · exact ⟨fun h => missingFileReport_of_absent fs d _ _ hne h,
        fun _ h => missingFileReport_of_stat_ok fs d _ _ _ h⟩
    · exact ⟨fun h => missingFileReport_of_absent fs d _ _ hne h,
        fun _ h => missingFileReport_of_stat_ok fs d _ _ _ h⟩
    · exact ⟨fun h => missingFileReport_of_absent fs d _ _ hne h,
        fun _ h => missingFileReport_of_stat_ok fs d _ _ _ h⟩

/-- C22 amended, on the example whose icon is the directory `assets`: the part of the
report for the icon is empty; and on the example manifest checked against `/home`, where
the icon is absent, the part is the violation. -/
theorem performFileSystemChecks_declared_paths_witness :
    exDirLibs.jsonField (readFileOrEmpty exDirFs ["home", "foo", "skill.json"]) "icon" =
      "assets" ∧
    ∃ nameReport iconReport licenseReport entryReport : List String,
      performFileSystemChecks exDirLibs exDirFs ["home", "foo"] ["home", "foo", "skill.json"] =
        nameReport ++ (iconReport ++ (licenseReport ++ entryReport)) ∧
      iconReport = [] := by
  obtain ⟨nr, ir, lr, er, h, _, hx⟩ := performFileSystemChecks_declared_paths exDirLibs exDirFs
    ["home", "foo"] ["home", "foo", "skill.json"] "assets" "LICENSE" "README.md"
    (by decide) (by decide) (by decide)
  have hne : ("assets" : String) ≠ "" := by decide
  exact ⟨by decide, nr, ir, lr, er, h,
    (hx ("assets", "icon", ir) (List.mem_cons_self _ _) hne).2 true rfl⟩

/-! ## Writing into a known directory -/

/-- A name that a directory has no entry for is added at the end. -/
theorem setChild_of_lookup_none (x : String) (v : Node) :
    ∀ cs : List (String × Node), cs.lookup x = none → setChild x v cs = cs ++ [(x, v)] := by
  intro cs
  induction cs with
  | nil => intro _; rfl
  | cons a rest ih =>
    obtain ⟨k, w⟩ := a
    intro h
    rw [List.lookup_cons] at h
    by_cases hk : k = x
    · subst hk
      simp at h
    · have hx : (x == k) = false := by simpa using fun h => hk h.symm
      rw [hx] at h
      rw [setChild, if_neg hk, ih h]
      rfl

/-- The lookup of an entry of a directory found at `d`. -/
theorem lookup_child (fs : Node) (d : Path) (x : String) (cs : List (String × Node))
    (hd : fs.lookup d = .ok (.dir cs)) :
    fs.lookup (d ++ [x]) =
      match cs.lookup x with
      | none => .error .ENOENT
      | some n => .ok n := by
  rw [lookup_append fs d [x] _ hd, Node.lookup]
  cases cs.lookup x with
  | none => rfl
  | some n => simp [Node.lookup]

/-- After `insert` below a directory, the directory has the entry set. -/
theorem insert_child (d : Path) : ∀ (t new : Node) (x : String)
    (cs : List (String × Node)), t.lookup d = .ok (.dir cs) →
    ∃ t1, t.insert (d ++ [x]) new = .ok t1 ∧
      t1.lookup d = .ok (.dir (setChild x new cs)) := by
  induction d with
  | nil =>
    intro t new x cs h
    simp only [Node.lookup, Except.ok.injEq] at h
    subst h
    exact ⟨_, rfl, by simp [Node.lookup]⟩
  | cons a rest ih =>
    intro t new x cs h
    cases t with
    | file c0 r0 =>
      rw [lookup_file_cons] at h
      exact Except.noConfusion h
    | dir cs0 =>
      rw [Node.lookup] at h
      cases hl : cs0.lookup a with
      | none => simp [hl] at h
      | some ch =>
        simp only [hl] at h
        obtain ⟨t1, h1, h2⟩ := ih ch new x cs h
        cases hr : rest ++ [x] with
        | nil => simp at hr
        | cons c2 rest2 =>
          rw [hr] at h1
          refine ⟨.dir (setChild a t1 cs0), ?_, ?_⟩
          · rw [List.cons_append, hr, Node.insert]
            simp only [hl, h1]
          · rw [Node.lookup, lookup_setChild_self]
            exact h2

/-- `os.WriteFile` of a new name in a directory succeeds and adds the file at the end of
the directory. -/
theorem WriteFile_child (fs : Node) (d : Path) (x content : String)
    (cs : List (String × Node)) (hd : fs.lookup d = .ok (.dir cs))
    (hx : cs.lookup x = none) :
    ∃ fs1, WriteFile fs (d ++ [x]) content = .ok fs1 ∧
      fs1.lookup d = .ok (.dir (cs ++ [(x, .file content true)])) := by
  have hl : fs.lookup (d ++ [x]) = .error .ENOENT := by
    rw [lookup_child fs d x cs hd, hx]
  obtain ⟨fs1, h1, h2⟩ := insert_child d fs (.file content true) x cs hd
  rw [setChild_of_lookup_none x _ cs hx] at h2
  refine ⟨fs1, ?_, h2⟩
  unfold WriteFile
  rw [hl]
  exact h1

/-- `os.Mkdir` of a new name in a directory succeeds and adds the empty directory at the
end of the directory. -/
theorem Mkdir_child (fs : Node) (d : Path) (x : String)
    (cs : List (String × Node)) (hd : fs.lookup d = .ok (.dir cs))
    (hx : cs.lookup x = none) :
    ∃ fs1, Mkdir fs (d ++ [x]) = .ok fs1 ∧
      fs1.lookup d = .ok (.dir (cs ++ [(x, .dir [])])) := by
  have hl : fs.lookup (d ++ [x]) = .error .ENOENT := by
    rw [lookup_child fs d x cs hd, hx]
  obtain ⟨fs1, h1, h2⟩ := insert_child d fs (.dir []) x cs hd
  rw [setChild_of_lookup_none x _ cs hx] at h2
  refine ⟨fs1, ?_, h2⟩
  unfold Mkdir
  rw [hl]
  exact h1

/-- The icon path of the default data below a directory. -/
theorem joinPath_icon (p : Path) : joinPath p "assets/icon.svg" = p ++ ["assets", "icon.svg"] := by
  have h : pathElems "assets/icon.svg" = ["assets", "icon.svg"] := by decide
  unfold joinPath
  rw [h]
  simp [cleanStep]

/-- A valid name resolves in the working directory to the entry of that name. -/
theorem osPath_of_valid (cwd : Path) (n : String) (h : validName n = true) :
    osPath cwd n = .ok (cwd ++ [n]) := by
  have hv := (validName_iff n).1 h
  unfold osPath
  rw [if_neg hv.1, if_neg, joinPath_valid cwd n h]
  intro hh
  have : '/' ∈ n.toList := by
    cases hl : n.toList with
    | nil => rw [hl] at hh; simp at hh
    | cons a t =>
      rw [hl] at hh
      simp only [List.head?_cons, Option.some.injEq] at hh
      rw [hh]
      exact List.mem_cons_self _ _
  exact hv.2.2.2 this

/-! ## A scaffolded skill passes the checks (`cmd/init.go`, `scaffold/scaffold.go`) -/

/-- A path that resolves is not reported missing. -/
theorem notExist_of_lookup_ok (fs : Node) (p : Path) (n : Node) (h : fs.lookup p = .ok n) :
    NotExist fs p = false := by
  unfold NotExist Stat
  rw [h]

/-- The filesystem checks report nothing when the manifest is read back, names the
directory, and none of its three files is missing. -/
theorem performFileSystemChecks_nil (L : Libs) (fs : Node) (d m : Path) (data : SkillData)
    (text : String) (hm : fs.lookup m = .ok (.file text true)) (hrb : ReadsBack L data text)
    (hbase : Base d = data.Name)
    (hi : NotExist fs (joinPath d data.Icon) = false)
    (hl : NotExist fs (joinPath d data.LicenseFile) = false)
    (he : NotExist fs (joinPath d data.Entrypoint) = false) :
    performFileSystemChecks L fs d m = [] := by
  have hread : readFileOrEmpty fs m = text := by
    unfold readFileOrEmpty ReadFile
    rw [hm]
  obtain ⟨h1, h2, h3, h4⟩ := hrb
  rw [performFileSystemChecks_eq, hread, h1, h2, h3, h4, if_neg (fun h => h hbase)]
  unfold missingFileReport
  rw [hi, hl, he]
  simp

/-- The fields of the default data that the filesystem checks read. -/
theorem populateDefaultData_fields (gitUserName : String) (data : SkillData) (n : String) :
    (populateDefaultData gitUserName data n).Name = n ∧
    (populateDefaultData gitUserName data n).Icon = "assets/icon.svg" ∧
    (populateDefaultData gitUserName data n).LicenseFile = "LICENSE" ∧
    (populateDefaultData gitUserName data n).Entrypoint = "README.md" := by
  unfold populateDefaultData
  by_cases h : gitUserName = "" <;> simp [h]

/-- `scaffold.Create` in an existing working directory, for a record with a valid name
that the working directory has no entry for and with the file names of the default data:
it returns no error, and it leaves the manifest, the entry point, the license file and
the icon as readable files of the new directory. -/
theorem scaffold_Create_ok (C : ConvLibs) (fs : Node) (cwd : Path) (data : SkillData)
    (text : String) (cs : List (String × Node))
    (hname : validName data.Name = true)
    (hentry : data.Entrypoint = "README.md") (hlic : data.LicenseFile = "LICENSE")
    (hicon : data.Icon = "assets/icon.svg")
    (hcwd : fs.lookup cwd = .ok (.dir cs))
    (hnew : NotExist fs (cwd ++ [data.Name]) = true)
    (henc : C.jsonEncode data = .ok text) :
    (scaffold.Create C fs cwd data).err = none ∧
    (scaffold.Create C fs cwd data).fs.lookup (cwd ++ [data.Name] ++ ["skill.json"]) =
      .ok (.file text true) ∧
    (∃ c, (scaffold.Create C fs cwd data).fs.lookup (cwd ++ [data.Name] ++ ["README.md"]) =
      .ok (.file c true)) ∧
    (∃ c, (scaffold.Create C fs cwd data).fs.lookup (cwd ++ [data.Name] ++ ["LICENSE"]) =
      .ok (.file c true)) ∧
    (scaffold.Create C fs cwd data).fs.lookup (cwd ++ [data.Name] ++ ["assets", "icon.svg"]) =
      .ok (.file scaffold.iconContent true) := by
  have hsd := osPath_of_valid cwd data.Name hname
  have hent : fs.lookup (cwd ++ [data.Name]) = .error .ENOENT := by
    have h := (notExist_iff fs _).1 hnew
    unfold Stat at h
    cases hl : fs.lookup (cwd ++ [data.Name]) with
    | ok n => rw [hl] at h; exact Except.noConfusion h
    | error e =>
      rw [hl] at h
      simp only [Except.error.injEq] at h
      rw [h]
  obtain ⟨fs1, hins⟩ := insert_ok_of_dir cwd fs (.dir []) data.Name cs hcwd
  have hmk : Mkdir fs (cwd ++ [data.Name]) = .ok fs1 := by
    unfold Mkdir
    rw [hent]
    exact hins
  have h1 := Mkdir_self fs fs1 _ hmk
  generalize cwd ++ [data.Name] = sd at *
  obtain ⟨fs2, hw2, h2⟩ := WriteFile_child fs1 sd "skill.json" text [] h1 rfl
  have hwm : scaffold.WriteManifest C fs1 sd data = .ok fs2 := by
    unfold scaffold.WriteManifest
    rw [henc, joinPath_valid sd "skill.json" (by decide)]
    simp only [hw2]
  obtain ⟨fs3, hw3, h3⟩ := WriteFile_child fs2 sd "README.md"
    (scaffold.readmeContent (ToTitle (ReplaceAll data.Name '-' ' ')) data.Description data.Name
      data.License data.Author) _ h2 rfl
  obtain ⟨fs4, hw4, h4⟩ := WriteFile_child fs3 sd "SKILL.md"
    (scaffold.skillMDContent data.Name data.Description (ToTitle (ReplaceAll data.Name '-' ' ')))
    _ h3 rfl
  obtain ⟨fs5, hw5, h5⟩ := WriteFile_child fs4 sd "LICENSE" (scaffold.licenseContent data.License)
    _ h4 rfl
  obtain ⟨fs6, hw6, h6⟩ := Mkdir_child fs5 sd "assets" _ h5 rfl
  obtain ⟨fs7, hw7, h7⟩ := Mkdir_child fs6 sd "scripts" _ h6 rfl
  obtain ⟨fs8, hw8, h8⟩ := Mkdir_child fs7 sd "reference" _ h7 rfl
  have hassets : fs8.lookup (sd ++ ["assets"]) = .ok (.dir []) := by
    rw [lookup_child fs8 sd "assets" _ h8]
    rfl
  obtain ⟨fs9, hw9, h9⟩ := WriteFile_child fs8 (sd ++ ["assets"]) "icon.svg" scaffold.iconContent
    [] hassets rfl
  rw [List.append_assoc, List.singleton_append] at hw9
  have hsub : scaffold.mkSubDirs sd ["assets", "scripts", "reference"] fs5 = (fs8, none) := by
    simp only [scaffold.mkSubDirs, joinPath_valid sd "assets" (by decide),
      joinPath_valid sd "scripts" (by decide), joinPath_valid sd "reference" (by decide),
      hw6, hw7, hw8]
  have hcreate : scaffold.Create C fs cwd data = { fs := fs9, err := none } := by
    unfold scaffold.Create
    simp only [hsd, hnew, hmk, hwm, hentry, hlic, hicon, joinPath_valid sd "README.md" (by decide),
      joinPath_valid sd "SKILL.md" (by decide), joinPath_valid sd "LICENSE" (by decide),
      joinPath_icon, hw3, hw4, hw5, hsub, hw9, Bool.not_true, Bool.false_eq_true, if_false]
  rw [hcreate]
  have f (x c : String) (hx : x ≠ "assets")
      (h : fs8.lookup (sd ++ [x]) = .ok (.file c true)) :
      fs9.lookup (sd ++ [x]) = .ok (.file c true) :=
    (WriteFile_files fs8 fs9 _ _ hw9 (sd ++ [x])
      (fun hc => by
        have := List.append_cancel_left hc
        simp at this) c true).2 h
  refine ⟨rfl, ?_, ⟨scaffold.readmeContent (ToTitle (ReplaceAll data.Name '-' ' '))
    data.Description data.Name data.License data.Author, ?_⟩,
    ⟨scaffold.licenseContent data.License, ?_⟩, ?_⟩
  · exact f "skill.json" _ (by decide) (by rw [lookup_child fs8 sd _ _ h8]; rfl)
  · exact f "README.md" _ (by decide) (by rw [lookup_child fs8 sd _ _ h8]; rfl)
  · exact f "LICENSE" _ (by decide) (by rw [lookup_child fs8 sd _ _ h8]; rfl)
  · have := lookup_child fs9 (sd ++ ["assets"]) "icon.svg" _ h9
    rw [List.append_assoc, List.singleton_append] at this
    rw [this]
    rfl

/-- C21: for a skill name that `validateSkillName` accepts and that does not exist in
the working directory, an existing directory, `scaffold.Create` on the record that
`populateDefaultData` leaves returns no error when the manifest is encoded to a text
that the decoder reads back; in the new directory the basename is the name the manifest
gives, the icon, the license file and the entry point the manifest gives are regular
files, and `performFileSystemChecks` reports no violation. -/
theorem scaffold_default_passes_checks (L : Libs) (C : ConvLibs) (fs : Node) (cwd : Path)
    (cs : List (String × Node)) (gitUserName n text : String) (data : SkillData)
    (hn : validateSkillName n = none)
    (hcwd : fs.lookup cwd = .ok (.dir cs))
    (hnew : NotExist fs (cwd ++ [n]) = true)
    (henc : C.jsonEncode (populateDefaultData gitUserName data n) = .ok text)
    (hrb : ReadsBack L (populateDefaultData gitUserName data n) text) :
    (scaffold.Create C fs cwd (populateDefaultData gitUserName data n)).err = none ∧
    readFileOrEmpty (scaffold.Create C fs cwd (populateDefaultData gitUserName data n)).fs
      (joinPath (cwd ++ [n]) "skill.json") = text ∧
    Base (cwd ++ [n]) = L.jsonField text "name" ∧
    (∀ field ∈ ["icon", "licenseFile", "entrypoint"],
      L.jsonField text field ≠ "" ∧
      ∃ name, Stat (scaffold.Create C fs cwd (populateDefaultData gitUserName data n)).fs
        (joinPath (cwd ++ [n]) (L.jsonField text field)) = .ok { name := name, isDir := false }) ∧
    performFileSystemChecks L (scaffold.Create C fs cwd (populateDefaultData gitUserName data n)).fs
      (cwd ++ [n]) (joinPath (cwd ++ [n]) "skill.json") = [] := by
  obtain ⟨hN, hI, hL, hE⟩ := populateDefaultData_fields gitUserName data n
  have hvalid : validName n = true :=
    validName_of_matches n ((validateSkillName_eq_none_iff n).1 hn).1
  have hmain := scaffold_Create_ok C fs cwd (populateDefaultData gitUserName data n) text cs
    (by rw [hN]; exact hvalid) hE hL hI hcwd (by rw [hN]; exact hnew) henc
  rw [hN] at hmain
  obtain ⟨herr, hm, ⟨c1, hreadme⟩, ⟨c2, hlicense⟩, hiconf⟩ := hmain
  obtain ⟨r1, r2, r3, r4⟩ := hrb
  rw [hN] at r1
  rw [hI] at r2
  rw [hL] at r3
  rw [hE] at r4
  generalize (scaffold.Create C fs cwd (populateDefaultData gitUserName data n)).fs = fs9 at *
  have hj1 := joinPath_valid (cwd ++ [n]) "skill.json" (by decide)
  have hj2 := joinPath_valid (cwd ++ [n]) "README.md" (by decide)
  have hj3 := joinPath_valid (cwd ++ [n]) "LICENSE" (by decide)
  have hj4 := joinPath_icon (cwd ++ [n])
  refine ⟨herr, ?_, ?_, ?_, ?_⟩
  · unfold readFileOrEmpty ReadFile
    rw [hj1, hm]
  · rw [r1, Base_append_singleton]
  · intro field hf
    simp only [List.mem_cons, List.mem_singleton, List.not_mem_nil, or_false] at hf
    rcases hf with rfl | rfl | rfl
    · rw [r2, hj4]
      refine ⟨by decide, Base (cwd ++ [n] ++ ["assets", "icon.svg"]), ?_⟩
      unfold Stat
      rw [hiconf]
      rfl
    · rw [r3, hj3]
      refine ⟨by decide, Base (cwd ++ [n] ++ ["LICENSE"]), ?_⟩
      unfold Stat
      rw [hlicense]
      rfl
    · rw [r4, hj2]
      refine ⟨by decide, Base (cwd ++ [n] ++ ["README.md"]), ?_⟩
      unfold Stat
      rw [hreadme]
      rfl
  · refine performFileSystemChecks_nil L fs9 (cwd ++ [n]) _
      (populateDefaultData gitUserName data n) text (by rw [hj1]; exact hm)
      ⟨by rw [hN]; exact r1, by rw [hI]; exact r2, by rw [hL]; exact r3, by rw [hE]; exact r4⟩
      (by rw [hN, Base_append_singleton]) ?_ ?_ ?_
    · rw [hI, hj4]
      exact notExist_of_lookup_ok _ _ _ hiconf
    · rw [hL, hj3]
      exact notExist_of_lookup_ok _ _ _ hlicense
    · rw [hE, hj2]
      exact notExist_of_lookup_ok _ _ _ hreadme

/-- C21 on the skill name `my-skill` in the empty working directory `/work`, without a
git user name: no error and no violation. -/
theorem scaffold_default_passes_checks_witness :
    validateSkillName "my-skill" = none ∧
    (scaffold.Create exFieldLibs exWorkFs ["work"]
      (populateDefaultData "" SkillData.zero "my-skill")).err = none ∧
    performFileSystemChecks exFieldDecoder (scaffold.Create exFieldLibs exWorkFs ["work"]
        (populateDefaultData "" SkillData.zero "my-skill")).fs
      (["work"] ++ ["my-skill"]) (joinPath (["work"] ++ ["my-skill"]) "skill.json") = [] := by
  have hn : validateSkillName "my-skill" = none := by decide
  have h := scaffold_default_passes_checks exFieldDecoder exFieldLibs exWorkFs ["work"]
    [] "" "my-skill" (exFieldManifest "my-skill") SkillData.zero hn (by rfl)
    (by decide) (by rfl) ⟨by decide, by decide, by decide, by decide⟩
  exact ⟨hn, h.1, h.2.2.2.2⟩

/-! ## What the steps of the conversion keep -/

/-- A lookup fails with `ENOENT`, or it leads through a file. -/
theorem lookup_error (q : Path) : ∀ (t : Node) (e : Errno), t.lookup q = .error e →
    e = .ENOENT ∨ ∃ q1 x q2 c r, q = q1 ++ x :: q2 ∧ t.lookup q1 = .ok (.file c r) := by
  induction q with
  | nil =>
    intro t e h
    simp [Node.lookup] at h
  | cons a rest ih =>
    intro t e h
    cases t with
    | file c r => exact Or.inr ⟨[], a, rest, c, r, rfl, by simp [Node.lookup]⟩
    | dir cs =>
      rw [Node.lookup] at h
      cases hl : cs.lookup a with
      | none =>
        simp only [hl, Except.error.injEq] at h
        exact Or.inl h.symm
      | some ch =>
        simp only [hl] at h
        rcases ih ch e h with h1 | ⟨q1, x, q2, c, r, hq, hf⟩
        · exact Or.inl h1
        · refine Or.inr ⟨a :: q1, x, q2, c, r, by rw [hq]; rfl, ?_⟩
          rw [Node.lookup]
          simp only [hl]
          exact hf

/-- A path through a file is not reported missing. -/
theorem notExist_through_file (fs : Node) (q1 q2 : Path) (x c : String) (r : Bool)
    (h : fs.lookup q1 = .ok (.file c r)) : NotExist fs (q1 ++ x :: q2) = false := by
  unfold NotExist Stat
  rw [lookup_append fs q1 (x :: q2) _ h, lookup_file_cons]
  rfl

/-- A change of the filesystem that leaves a file where a file was and a directory
where a directory was reports no path missing that was not missing before. -/
theorem notExist_mono (fs fs1 : Node)
    (hfile : ∀ q, (∃ c r, fs.lookup q = .ok (.file c r)) → ∃ c r, fs1.lookup q = .ok (.file c r))
    (hdir : ∀ q cs, fs.lookup q = .ok (.dir cs) → ∃ cs1, fs1.lookup q = .ok (.dir cs1))
    (q : Path) (h : NotExist fs q = false) : NotExist fs1 q = false := by
  cases hl : fs.lookup q with
  | ok n =>
    cases n with
    | file c r =>
      obtain ⟨c1, r1, h1⟩ := hfile q ⟨c, r, hl⟩
      exact notExist_of_lookup_ok fs1 q _ h1
    | dir cs =>
      obtain ⟨cs1, h1⟩ := hdir q cs hl
      exact notExist_of_lookup_ok fs1 q _ h1
  | error e =>
    rcases lookup_error q fs e hl with he | ⟨q1, x, q2, c, r, hq, hf⟩
    · subst he
      have ht : NotExist fs q = true := (notExist_iff fs q).2 (by unfold Stat; rw [hl])
      rw [ht] at h
      exact Bool.noConfusion h
    · obtain ⟨c1, r1, h1⟩ := hfile q1 ⟨c, r, hf⟩
      rw [hq]
      exact notExist_through_file fs1 q1 q2 x c1 r1 h1

/-- `os.WriteFile` reports no path missing that was not missing before. -/
theorem WriteFile_exists (fs fs1 : Node) (p : Path) (content : String)
    (h : WriteFile fs p content = .ok fs1) (q : Path) (hq : NotExist fs q = false) :
    NotExist fs1 q = false :=
  notExist_mono fs fs1 (fun q1 h1 => WriteFile_keeps_file fs fs1 p content h q1 h1)
    (fun q1 cs h1 => WriteFile_dirs fs fs1 p content h q1 cs h1) q hq

/-- `os.MkdirAll` reports no path missing that was not missing before. -/
theorem MkdirAll_exists (fs fs1 : Node) (p : Path) (h : MkdirAll fs p = .ok fs1) (q : Path)
    (hq : NotExist fs q = false) : NotExist fs1 q = false :=
  notExist_mono fs fs1
    (fun q1 ⟨c, r, h1⟩ => ⟨c, r, (MkdirAll_files fs fs1 p h q1 c r).2 h1⟩)
    (fun q1 cs h1 => MkdirAll_dirs fs fs1 p h q1 cs h1) q hq

/-- `os.WriteFile` leaves a file at `q` readable when a file at `q` was readable
before. -/
theorem WriteFile_readable (fs fs1 : Node) (p : Path) (content : String)
    (h : WriteFile fs p content = .ok fs1) (q : Path)
    (hq : ∀ c r, fs.lookup q = .ok (.file c r) → r = true) :
    ∀ c r, fs1.lookup q = .ok (.file c r) → r = true := by
  intro c r h1
  by_cases hqp : q = p
  · subst hqp
    unfold WriteFile at h
    split at h
    · exact Except.noConfusion h
    · next c0 r0 hl =>
      rw [lookup_insert_self q _ _ _ h] at h1
      simp only [Except.ok.injEq, Node.file.injEq] at h1
      rw [← h1.2]
      exact hq c0 r0 hl
    · rw [lookup_insert_self q _ _ _ h] at h1
      simp only [Except.ok.injEq, Node.file.injEq] at h1
      exact h1.2.symm
    · exact Except.noConfusion h
  · exact hq c r ((WriteFile_files fs fs1 p content h q hqp c r).1 h1)

/-- A property of the filesystem that `os.WriteFile` and `os.MkdirAll` keep is kept by a
call of the walk function of `generateConvertedSkill`. -/
theorem copyWalkFn_preserves (P : Node → Prop)
    (hW : ∀ fs fs1 p c, WriteFile fs p c = .ok fs1 → P fs → P fs1)
    (hM : ∀ fs fs1 p, MkdirAll fs p = .ok fs1 → P fs → P fs1)
    (data : SkillData) (sourceDir destDir : Path) (p : Path)
    (i : Except Errno FileInfo) (s : Node) (h : P s) :
    P (copyWalkFn data sourceDir destDir p i s).1 := by
  unfold copyWalkFn
  cases i with
  | error e => exact h
  | ok info =>
    simp only
    split_ifs with hd hn
    · cases hm : MkdirAll s (joinPath destDir (Rel sourceDir p)) with
      | error e => exact h
      | ok s1 => exact hM s s1 _ hm h
    · cases hr : ReadFile s p with
      | error e => exact h
      | ok content =>
        simp only
        cases hw : WriteFile s (joinPath destDir "README.md")
            (convertedReadme data.Name data.Description) with
        | error e => exact h
        | ok s1 =>
          simp only
          have h1 := hW s s1 _ _ hw h
          split
          · exact h1
          · next s2 hw2 => exact hW s1 s2 _ _ hw2 h1
    · cases hr : ReadFile s p with
      | error e => exact h
      | ok content =>
        simp only
        split
        · exact h
        · next s1 hw => exact hW s s1 _ _ hw h

/-- A property of the filesystem that `os.WriteFile` keeps is kept by the license
step. -/
theorem licenseStep_preserves (P : Node → Prop)
    (hW : ∀ fs fs1 p c, WriteFile fs p c = .ok fs1 → P fs → P fs1)
    (fs : Node) (destDir : Path) (data : SkillData) (h : P fs) :
    P (licenseStep fs destDir data).1 := by
  unfold licenseStep
  simp only
  split_ifs
  · exact h
  · simp only
    split
    · next fs1 hw => exact hW fs fs1 _ _ hw h
    · exact h

/-- A property of the filesystem that `os.WriteFile` and `os.MkdirAll` keep is kept by
the icon step. -/
theorem iconStep_preserves (P : Node → Prop)
    (hW : ∀ fs fs1 p c, WriteFile fs p c = .ok fs1 → P fs → P fs1)
    (hM : ∀ fs fs1 p, MkdirAll fs p = .ok fs1 → P fs → P fs1)
    (fs fs4 : Node) (destDir : Path) (data : SkillData)
    (hi : iconStep fs destDir data = .ok fs4) (h : P fs) : P fs4 := by
  unfold iconStep at hi
  simp only at hi
  split_ifs at hi
  · cases hm : MkdirAll fs (Dir (joinPath destDir data.Icon)) with
    | error e =>
      simp only [hm] at hi
      exact hW fs fs4 _ _ hi h
    | ok fs1 =>
      simp only [hm] at hi
      exact hW fs1 fs4 _ _ hi (hM fs fs1 _ hm h)
  · simp only [Except.ok.injEq] at hi
    rw [← hi]
    exact h

/-- After the icon step the icon path is not reported missing. -/
theorem iconStep_icon (fs fs4 : Node) (destDir : Path) (data : SkillData)
    (hi : iconStep fs destDir data = .ok fs4) :
    NotExist fs4 (joinPath destDir data.Icon) = false := by
  unfold iconStep at hi
  simp only at hi
  split_ifs at hi with hne
  · obtain ⟨r, hr⟩ := WriteFile_self _ fs4 _ _ hi
    exact notExist_of_lookup_ok fs4 _ _ hr
  · simp only [Except.ok.injEq] at hi
    rw [← hi]
    simpa using hne

/-- The license step changes only the license file of the record. -/
theorem licenseStep_entrypoint (fs : Node) (destDir : Path) (data : SkillData) :
    (licenseStep fs destDir data).2.Entrypoint = data.Entrypoint := by
  unfold licenseStep
  simp only
  split_ifs <;> rfl

/-- After the license step in a destination that is a directory, the license file of the
record is not reported missing. -/
theorem licenseStep_license (fs : Node) (destDir : Path) (data : SkillData)
    (cs : List (String × Node)) (hdir : fs.lookup destDir = .ok (.dir cs)) :
    NotExist (licenseStep fs destDir data).1
      (joinPath destDir (licenseStep fs destDir data).2.LicenseFile) = false := by
  have hstat : ∀ x, statOk fs (destDir ++ [x]) = true → NotExist fs (destDir ++ [x]) = false := by
    intro x hx
    unfold statOk at hx
    unfold NotExist
    cases hs : Stat fs (destDir ++ [x]) with
    | ok i => rfl
    | error e => rw [hs] at hx; exact Bool.noConfusion hx
  have heq := findLicenseFileInDir_eq fs destDir
  by_cases hfound : findLicenseFileInDir fs destDir = ""
  · have hno : statOk fs (destDir ++ ["LICENSE"]) = false := by
      by_contra hc
      have hc1 : statOk fs (destDir ++ ["LICENSE"]) = true := by simpa using hc
      have hne : findLicenseFileInDir fs destDir ≠ "" := by
        rw [heq, hc1]
        split_ifs <;> simp_all
      exact hne hfound
    obtain ⟨fs3, hw, hl⟩ := WriteFile_new fs destDir "LICENSE"
      "License content to be added here." cs hdir hno
    unfold licenseStep
    simp only [hfound, ne_eq, not_true_eq_false, if_false]
    rw [joinPath_valid destDir "LICENSE" (by decide), hw]
    exact notExist_of_lookup_ok fs3 _ _ hl
  · unfold licenseStep
    simp only [hfound, ne_eq, not_false_eq_true, if_true]
    rw [heq] at hfound ⊢
    split_ifs with a b c
    · rw [joinPath_valid destDir "LICENSE.txt" (by decide)]
      exact hstat _ a
    · rw [joinPath_valid destDir "LICENSE.md" (by decide)]
      exact hstat _ b
    · rw [joinPath_valid destDir "LICENSE" (by decide)]
      exact hstat _ c
    · rw [if_neg a, if_neg b, if_neg c] at hfound
      exact absurd rfl hfound

/-- A run of `generateConvertedSkill` that returns no error: every step succeeded. -/
theorem generateConvertedSkill_success (C : ConvLibs) (fs : Node) (cwd : Path)
    (data : SkillData) (sourceDir dest : Path)
    (hdest : osPath cwd data.Name = .ok dest)
    (hok : (generateConvertedSkill C fs cwd data sourceDir).err = none) :
    ∃ fs1 fs4 fs5, Mkdir fs dest = .ok fs1 ∧
      (∀ e, (Walk fs1 sourceDir (copyWalkFn data sourceDir dest) fs1).2 ≠ .err e) ∧
      iconStep
        (licenseStep (Walk fs1 sourceDir (copyWalkFn data sourceDir dest) fs1).1 dest data).1 dest
        (licenseStep (Walk fs1 sourceDir (copyWalkFn data sourceDir dest) fs1).1 dest data).2 =
          .ok fs4 ∧
      scaffold.WriteManifest C fs4 dest
        (licenseStep (Walk fs1 sourceDir (copyWalkFn data sourceDir dest) fs1).1 dest data).2 =
          .ok fs5 ∧
      generateConvertedSkill C fs cwd data sourceDir =
        { fs := fs5,
          data := (licenseStep (Walk fs1 sourceDir (copyWalkFn data sourceDir dest) fs1).1 dest
            data).2,
          err := none } := by
  cases hne : NotExist fs dest with
  | false =>
    rw [generateConvertedSkill_of_exists C fs cwd data sourceDir dest hdest hne] at hok
    exact Option.noConfusion hok
  | true =>
    cases hmk : Mkdir fs dest with
    | error e =>
      rw [generateConvertedSkill_of_mkdir_err C fs cwd data sourceDir dest e hdest hne hmk] at hok
      exact Option.noConfusion hok
    | ok fs1 =>
      by_cases hcopy : ∃ e, (Walk fs1 sourceDir (copyWalkFn data sourceDir dest) fs1).2 = .err e
      · obtain ⟨e, he⟩ := hcopy
        rw [generateConvertedSkill_of_copy_err C fs cwd data sourceDir dest fs1 e hdest hne hmk
          he] at hok
        exact Option.noConfusion hok
      · have hcopy1 : ∀ e, (Walk fs1 sourceDir (copyWalkFn data sourceDir dest) fs1).2 ≠ .err e :=
          fun e he => hcopy ⟨e, he⟩
        rw [generateConvertedSkill_of_copy_ok C fs cwd data sourceDir dest fs1 hdest hne hmk
          hcopy1] at hok ⊢
        cases hi : iconStep
            (licenseStep (Walk fs1 sourceDir (copyWalkFn data sourceDir dest) fs1).1 dest data).1
            dest
            (licenseStep (Walk fs1 sourceDir (copyWalkFn data sourceDir dest) fs1).1 dest
              data).2 with
        | error e =>
          rw [hi] at hok
          exact Option.noConfusion hok
        | ok fs4 =>
          simp only [hi] at hok ⊢
          cases hm : scaffold.WriteManifest C fs4 dest
              (licenseStep (Walk fs1 sourceDir (copyWalkFn data sourceDir dest) fs1).1 dest
                data).2 with
          | error err =>
            rw [hm] at hok
            exact Option.noConfusion hok
          | ok fs5 => exact ⟨fs1, fs4, fs5, rfl, hcopy1, hi, hm, rfl⟩

/-! ## A converted skill passes the filesystem checks (`cmd/convert.go`) -/

/-- C23: after a run of `generateConvertedSkill` that returns no error, for a record
whose name `validateSkillName` accepts and whose entry point is `README.md`, on a source
with a file `SKILL.md` at its top level, when the decoder reads back the manifest that
was written: in the destination the manifest is read as it was written, the basename is
the name the manifest gives, none of the icon, the license file and the entry point the
manifest gives is reported missing, and `performFileSystemChecks` on the destination and
its `skill.json` reports no violation. This holds for every icon path of the record, the
survey's `assets/icon.svg` among them. -/
theorem generateConvertedSkill_passes_checks (L : Libs) (C : ConvLibs) (fs : Node)
    (cwd : Path) (data : SkillData) (sourceDir : Path)
    (hwf : fs.wf = true) (hcwd : ∀ c ∈ cwd, validName c = true)
    (hn : validateSkillName data.Name = none)
    (hentry : data.Entrypoint = "README.md")
    (hsk : ∃ c r, fs.lookup (sourceDir ++ ["SKILL.md"]) = .ok (.file c r))
    (hok : (generateConvertedSkill C fs cwd data sourceDir).err = none)
    (hrb : ∀ text, C.jsonEncode (generateConvertedSkill C fs cwd data sourceDir).data = .ok text →
      ReadsBack L (generateConvertedSkill C fs cwd data sourceDir).data text) :
    (∃ text, C.jsonEncode (generateConvertedSkill C fs cwd data sourceDir).data = .ok text ∧
      readFileOrEmpty (generateConvertedSkill C fs cwd data sourceDir).fs
        (joinPath (cwd ++ [data.Name]) "skill.json") = text ∧
      Base (cwd ++ [data.Name]) = L.jsonField text "name" ∧
      ∀ field ∈ ["icon", "licenseFile", "entrypoint"],
        NotExist (generateConvertedSkill C fs cwd data sourceDir).fs
          (joinPath (cwd ++ [data.Name]) (L.jsonField text field)) = false) ∧
    performFileSystemChecks L (generateConvertedSkill C fs cwd data sourceDir).fs
      (cwd ++ [data.Name]) (joinPath (cwd ++ [data.Name]) "skill.json") = [] := by
  have hvalid : validName data.Name = true :=
    validName_of_matches data.Name ((validateSkillName_eq_none_iff data.Name).1 hn).1
  have hdest := osPath_of_valid cwd data.Name hvalid
  obtain ⟨fs1, fs4, fs5, hmk, hcopy, hi, hm, hrun⟩ :=
    generateConvertedSkill_success C fs cwd data sourceDir _ hdest hok
  rw [hrun] at hrb ⊢
  simp only at hrb ⊢
  have hdv := osPath_valid cwd _ data.Name hdest hcwd
  have hwf1 : fs1.wf = true := wf_Mkdir fs fs1 _ hwf hdv hmk
  obtain ⟨c0, r0, hsk0⟩ := hsk
  have hsk1 : fs1.lookup (sourceDir ++ ["SKILL.md"]) = .ok (.file c0 r0) :=
    (Mkdir_files fs fs1 _ hmk _ c0 r0).2 hsk0
  have hreadme := (Walk_copy_readme data fs1 sourceDir _ c0 r0 hwf1 hsk1 hcopy).1
  have hdir : ∃ cs, (Walk fs1 sourceDir (copyWalkFn data sourceDir (cwd ++ [data.Name])) fs1).1.lookup
      (cwd ++ [data.Name]) = .ok (.dir cs) :=
    Walk_invariant_all fs1 sourceDir (copyWalkFn data sourceDir (cwd ++ [data.Name]))
      (fun s => ∃ cs, s.lookup (cwd ++ [data.Name]) = .ok (.dir cs))
      (fun p i s hs => copyWalkFn_dirs data sourceDir _ p i s _ hs) fs1
      ⟨[], Mkdir_self fs fs1 _ hmk⟩
  have hread0 : ∀ c r, fs1.lookup (cwd ++ [data.Name] ++ ["skill.json"]) = .ok (.file c r) →
      r = true := by
    intro c r h
    rw [lookup_child fs1 _ "skill.json" [] (Mkdir_self fs fs1 _ hmk)] at h
    exact Except.noConfusion h
  have hMr : ∀ (t t1 : Node) (p : Path), MkdirAll t p = .ok t1 →
      (∀ c r, t.lookup (cwd ++ [data.Name] ++ ["skill.json"]) = .ok (.file c r) → r = true) →
      ∀ c r, t1.lookup (cwd ++ [data.Name] ++ ["skill.json"]) = .ok (.file c r) → r = true :=
    fun t t1 p h hq c r h1 => hq c r ((MkdirAll_files t t1 p h _ c r).1 h1)
  have hWr : ∀ (t t1 : Node) (p : Path) (c : String), WriteFile t p c = .ok t1 →
      (∀ c r, t.lookup (cwd ++ [data.Name] ++ ["skill.json"]) = .ok (.file c r) → r = true) →
      ∀ c r, t1.lookup (cwd ++ [data.Name] ++ ["skill.json"]) = .ok (.file c r) → r = true :=
    fun t t1 p c h hq => WriteFile_readable t t1 p c h _ hq
  have hread1 := Walk_invariant_all fs1 sourceDir (copyWalkFn data sourceDir (cwd ++ [data.Name]))
    (fun s => ∀ c r, s.lookup (cwd ++ [data.Name] ++ ["skill.json"]) = .ok (.file c r) → r = true)
    (fun p i s hs => copyWalkFn_preserves _ hWr hMr data sourceDir _ p i s hs) fs1 hread0
  generalize (Walk fs1 sourceDir (copyWalkFn data sourceDir (cwd ++ [data.Name])) fs1).1 = fs2
    at hreadme hdir hread1 hi hm hrb ⊢
  obtain ⟨cs, hdir⟩ := hdir
  obtain ⟨ra, hreadme⟩ := hreadme
  have hlic := licenseStep_license fs2 (cwd ++ [data.Name]) data cs hdir
  have hread2 := licenseStep_preserves _ hWr fs2 (cwd ++ [data.Name]) data hread1
  have hre2 := licenseStep_preserves (fun t => NotExist t (cwd ++ [data.Name] ++ ["README.md"]) = false)
    (fun t t1 p c h hq => WriteFile_exists t t1 p c h _ hq) fs2 (cwd ++ [data.Name]) data
    (notExist_of_lookup_ok fs2 _ _ hreadme)
  have hE := licenseStep_entrypoint fs2 (cwd ++ [data.Name]) data
  obtain ⟨_, hN, _⟩ := licenseStep_icon fs2 (cwd ++ [data.Name]) data
  generalize (licenseStep fs2 (cwd ++ [data.Name]) data).1 = fs3
    at hlic hread2 hre2 hi
  generalize (licenseStep fs2 (cwd ++ [data.Name]) data).2 = data1
    at hlic hi hm hrb hE hN ⊢
  have hic4 := iconStep_icon fs3 fs4 _ data1 hi
  have hlic4 := iconStep_preserves
    (fun t => NotExist t (joinPath (cwd ++ [data.Name]) data1.LicenseFile) = false)
    (fun t t1 p c h hq => WriteFile_exists t t1 p c h _ hq)
    (fun t t1 p h hq => MkdirAll_exists t t1 p h _ hq) fs3 fs4 _ data1 hi hlic
  have hre4 := iconStep_preserves
    (fun t => NotExist t (cwd ++ [data.Name] ++ ["README.md"]) = false)
    (fun t t1 p c h hq => WriteFile_exists t t1 p c h _ hq)
    (fun t t1 p h hq => MkdirAll_exists t t1 p h _ hq) fs3 fs4 _ data1 hi hre2
  have hread4 := iconStep_preserves _ hWr hMr fs3 fs4 _ data1 hi hread2
  obtain ⟨⟨text, r, henc, hman⟩, _⟩ := WriteManifest_ok C fs4 fs5 _ data1 hm
  have hj := joinPath_valid (cwd ++ [data.Name]) "skill.json" (by decide)
  have hw5 : WriteFile fs4 (cwd ++ [data.Name] ++ ["skill.json"]) text = .ok fs5 := by
    unfold scaffold.WriteManifest at hm
    simp only [henc, hj] at hm
    cases hw : WriteFile fs4 (cwd ++ [data.Name] ++ ["skill.json"]) text with
    | error e =>
      rw [hw] at hm
      exact Except.noConfusion hm
    | ok t =>
      rw [hw] at hm
      simp only [Except.ok.injEq] at hm
      rw [hm]
  have hr : r = true := hWr fs4 fs5 _ _ hw5 hread4 text r hman
  subst hr
  have hic5 := WriteFile_exists fs4 fs5 _ _ hw5 _ hic4
  have hlic5 := WriteFile_exists fs4 fs5 _ _ hw5 _ hlic4
  have hre5 := WriteFile_exists fs4 fs5 _ _ hw5 _ hre4
  rw [← joinPath_valid (cwd ++ [data.Name]) "README.md" (by decide), ← hentry, ← hE] at hre5
  have hrb1 := hrb text henc
  obtain ⟨r1, r2, r3, r4⟩ := hrb1
  have hbase : Base (cwd ++ [data.Name]) = data1.Name := by
    rw [hN, Base_append_singleton]
  refine ⟨⟨text, henc, ?_, ?_, ?_⟩, ?_⟩
  · unfold readFileOrEmpty ReadFile
    rw [hj, hman]
  · rw [r1, hbase]
  · intro field hf
    simp only [List.mem_cons, List.mem_singleton, List.not_mem_nil, or_false] at hf
    rcases hf with rfl | rfl | rfl
    · rw [r2]; exact hic5
    · rw [r3]; exact hlic5
    · rw [r4]; exact hre5
  · exact performFileSystemChecks_nil L fs5 (cwd ++ [data.Name]) _ data1 text
      (by rw [hj]; exact hman) ⟨r1, r2, r3, r4⟩ hbase hic5 hlic5 hre5

/-- C23 on the conversion of the example source `/tmp/x/bar` in the working directory
`/work`: the run returns no error and the checks report no violation. -/
theorem generateConvertedSkill_passes_checks_witness :
    validateSkillName exData.Name = none ∧
    (generateConvertedSkill exFieldLibs exGoodFs ["work"] exData ["tmp", "x", "bar"]).err =
      none ∧
    performFileSystemChecks exFieldDecoder
      (generateConvertedSkill exFieldLibs exGoodFs ["work"] exData ["tmp", "x", "bar"]).fs
      (["work"] ++ [exData.Name]) (joinPath (["work"] ++ [exData.Name]) "skill.json") = [] := by
  have hn : validateSkillName exData.Name = none := by decide
  have herr : (generateConvertedSkill exFieldLibs exGoodFs ["work"] exData
      ["tmp", "x", "bar"]).err = none := by decide
  have hd : (generateConvertedSkill exFieldLibs exGoodFs ["work"] exData
      ["tmp", "x", "bar"]).data = { exData with LicenseFile := "LICENSE" } := by decide
  have hrb : ∀ text, exFieldLibs.jsonEncode (generateConvertedSkill exFieldLibs exGoodFs ["work"]
      exData ["tmp", "x", "bar"]).data = .ok text →
      ReadsBack exFieldDecoder (generateConvertedSkill exFieldLibs exGoodFs ["work"] exData
        ["tmp", "x", "bar"]).data text := by
    intro text h
    rw [hd] at h ⊢
    have h2 : Except.ok (exFieldManifest "bar") = (Except.ok text : Except String String) := h
    simp only [Except.ok.injEq] at h2
    subst h2
    exact ⟨by decide, by decide, by decide, by decide⟩
  exact ⟨hn, herr, (generateConvertedSkill_passes_checks exFieldDecoder exFieldLibs exGoodFs
    ["work"] exData ["tmp", "x", "bar"] (by decide) (by decide) hn rfl ⟨_, _, by rfl⟩ herr hrb).2⟩

/-! ## A declared path through a file (`cmd/validate.go`) -/

/-- C5, on the code: the manifest of `/home/foo` declares the icon `README.md/x`, and
`README.md` is a regular file. Nothing exists at `/home/foo/README.md/x`: `os.Stat`
fails on it, with `ENOTDIR`, of which `os.IsNotExist` does not hold. The check of the
icon adds nothing and `performFileSystemChecks` reports no violation, where the
violation `File 'README.md/x' declared in 'icon' field does not exist.` is due. -/
theorem performFileSystemChecks_misses_path_through_file :
    exThroughFileLibs.jsonField
      (readFileOrEmpty exThroughFileFs ["home", "foo", "skill.json"]) "icon" = "README.md/x" ∧
    joinPath ["home", "foo"] "README.md/x" = ["home", "foo", "README.md", "x"] ∧
    (∀ n, exThroughFileFs.lookup ["home", "foo", "README.md", "x"] ≠ .ok n) ∧
    Stat exThroughFileFs ["home", "foo", "README.md", "x"] = .error .ENOTDIR ∧
    IsNotExist .ENOTDIR = false ∧
    checkFile exThroughFileFs ["home", "foo"] [] ("README.md/x", "icon") = [] ∧
    fileMissing "README.md/x" "icon" ∉
      performFileSystemChecks exThroughFileLibs exThroughFileFs ["home", "foo"]
        ["home", "foo", "skill.json"] ∧
    performFileSystemChecks exThroughFileLibs exThroughFileFs ["home", "foo"]
      ["home", "foo", "skill.json"] = [] :=
  have h : performFileSystemChecks exThroughFileLibs exThroughFileFs ["home", "foo"]
      ["home", "foo", "skill.json"] = [] := by decide
  ⟨by decide, by decide, fun n hn => Except.noConfusion hn, rfl, rfl, by decide,
    by rw [h]; exact List.not_mem_nil _, h⟩
end Skilzy
